import Mathlib

/-!
# ascii_art_gen

A verification development for `ascii_art_gen.c`: the BMP header reader
(`get_bmp_header`), the header validator (`validate_header`) and the
nearest-neighbour ASCII renderer (`image_to_ascii`, `get_char_for_greyscale`).

Conventions of the embedding

* Bytes are `Fin 256`; wider machine integers are `ℕ`/`ℤ` with an explicit
  reduction modulo `2 ^ 32` wherever the C code stores into a 32-bit object.
* A stream (`FILE`) is the list of its bytes together with a cursor.
* A heap block is a function from byte index to byte.  The content a block has
  before the program writes to it (what `malloc`/`realloc` hand out) is a
  parameter `mem` of the functions that allocate; memory is flat, so an index
  past the bytes written by `fread` reads `mem`.
* `float` and `double` values are the rationals they denote; every operation
  rounds to nearest, ties to even (`round_to`), and yields `none` when the
  result is not a finite number (overflow, division by zero).
* A function whose C behaviour can be undefined returns an `Option`: `none`
  stands for an access outside a heap block, a conversion whose value does not
  fit its type, and the use of the value of a call that returned none.
-/

namespace AsciiArtGen

/-! ## Constants (`#define`s, lines 40-55) -/

abbrev FILE_HEADER_SIZE : ℕ := 14
abbrev BMP_SIZE_OFFSET : ℕ := 2
abbrev IMG_START_OFFSET : ℕ := 10
abbrev IMG_WIDTH_OFFSET : ℕ := 18
abbrev IMG_HEIGHT_OFFSET : ℕ := 22
abbrev BPP_OFFSET : ℕ := 28
abbrev COMPRESSION_OFFSET : ℕ := 30
abbrev IMG_DATA_SIZE_OFFSET : ℕ := 34

abbrev SUPPORTED_BPP : ℕ := 24
abbrev SUPPORTED_COMPRESSION : ℕ := 0
abbrev SUPPORTED_MAX_H_RES : ℤ := 2000
abbrev SUPPORTED_MAX_V_RES : ℤ := 2000

abbrev NEW_MAX_WIDTH : ℤ := 200
abbrev NEW_MAX_HEIGHT : ℤ := 200

/-! ## `err_t` (lines 57-63): an enum whose variables also hold `0` -/

def ERR_COMPRESSION : ℕ := 1
def ERR_BPP : ℕ := 2
def ERR_WIDTH : ℕ := 3
def ERR_HEIGHT : ℕ := 4

/-! ## Bytes, heap blocks and streams -/

/-- One byte (`uint8_t`). -/
abbrev uint8_t := Fin 256

/-- A heap block: the byte stored at each index. -/
abbrev block := ℕ → uint8_t

/-- A binary input stream: its bytes and the position of the cursor. -/
structure FILE where
  data : List uint8_t
  pos : ℕ

/-- The call `fseek(stream, off, SEEK_SET)`. -/
def fseek (stream : FILE) (off : ℕ) : FILE :=
  { stream with pos := off }

/-- The call `fread(buf + base, 1, n, stream)`: as many of the `n` requested
bytes as the stream still has are copied to `buf[base ..]`, and the cursor
advances by the number of bytes copied. -/
def fread (buf : block) (base n : ℕ) (stream : FILE) : block × FILE :=
  let got := (stream.data.drop stream.pos).take n
  (fun i => if base ≤ i ∧ i < base + got.length then got.getD (i - base) 0 else buf i,
   { stream with pos := stream.pos + got.length })

/-- The load `*(uint32_t *)&buf[off]` on a little-endian machine. -/
def read_u32 (buf : block) (off : ℕ) : ℕ :=
  (buf off).val + 256 * (buf (off + 1)).val + 65536 * (buf (off + 2)).val
    + 16777216 * (buf (off + 3)).val

/-- The load `*(int32_t *)&buf[off]`: the same four bytes in two's complement. -/
def read_i32 (buf : block) (off : ℕ) : ℤ :=
  let u := read_u32 buf off
  if u < 2 ^ 31 then (u : ℤ) else (u : ℤ) - 2 ^ 32

/-! ## `bmp_header_t` (lines 66-76) -/

structure bmp_header_t where
  header_array : block
  size_bmp : ℕ
  img_data_offset : ℕ
  img_width : ℤ
  img_height : ℤ
  bits_per_pixel : ℕ
  compression_type : ℕ
  size_img_data : ℕ

/-! ## `validate_header` (lines 126-139) -/

def validate_header (p_header : bmp_header_t) : ℕ :=
  let err_code := 0
  if p_header.bits_per_pixel ≠ SUPPORTED_BPP then ERR_BPP
  else if p_header.compression_type ≠ SUPPORTED_COMPRESSION then ERR_COMPRESSION
  else if p_header.img_width > SUPPORTED_MAX_H_RES then ERR_WIDTH
  else if p_header.img_height > SUPPORTED_MAX_V_RES then ERR_HEIGHT
  else err_code

/-- The gate in `main` (lines 107-112): `image_to_ascii` is called exactly when
`validate_header` returned `0`. -/
def main_calls_image_to_ascii (bmp_header : bmp_header_t) : Bool :=
  validate_header bmp_header == 0

/-! ## `get_bmp_header` (lines 143-176) -/

/-- The value of `uint8_t remainig_header_size = img_data_offset - FILE_HEADER_SIZE`:
the subtraction is done in `uint32_t`, that is modulo `2 ^ 32` (adding
`2 ^ 32 - 14` instead of subtracting 14), and the result is cut to eight bits. -/
def remainig_header_size (img_data_offset : ℕ) : ℕ :=
  ((2 ^ 32 - FILE_HEADER_SIZE + img_data_offset) % 2 ^ 32) % 256

/-- Lines 152-155: the 14-byte block after the first `fread`, and the stream.
`mem` is the content of the header block before anything is read into it. -/
def file_header_read (mem : block) (p_bmp : FILE) : block × FILE :=
  fread mem 0 FILE_HEADER_SIZE (fseek p_bmp 0)

/-- Lines 162-166: the block after `realloc` (which keeps the bytes stored so
far) and the second `fread`, and the stream. -/
def full_header_read (mem : block) (p_bmp : FILE) : block × FILE :=
  fread (file_header_read mem p_bmp).1 FILE_HEADER_SIZE
    (remainig_header_size (read_u32 (file_header_read mem p_bmp).1 IMG_START_OFFSET))
    (file_header_read mem p_bmp).2

/-- Lines 158-175: the value of the local `bmp_header` at the `return`, and the
stream as the call leaves it, provided every access stayed inside the block. -/
def header_result (mem : block) (p_bmp : FILE) : bmp_header_t × FILE :=
  ({ header_array := (full_header_read mem p_bmp).1
     size_bmp := read_u32 (file_header_read mem p_bmp).1 BMP_SIZE_OFFSET
     img_data_offset := read_u32 (file_header_read mem p_bmp).1 IMG_START_OFFSET
     img_width := read_i32 (full_header_read mem p_bmp).1 IMG_WIDTH_OFFSET
     img_height := read_i32 (full_header_read mem p_bmp).1 IMG_HEIGHT_OFFSET
     bits_per_pixel := ((full_header_read mem p_bmp).1 BPP_OFFSET).val
     compression_type := ((full_header_read mem p_bmp).1 COMPRESSION_OFFSET).val
     size_img_data := read_u32 (full_header_read mem p_bmp).1 IMG_DATA_SIZE_OFFSET },
   (full_header_read mem p_bmp).2)

/-- The header reader: the header returned, and the stream as the call leaves
it.  The `realloc` of line 162 gives the block `img_data_offset` bytes, and the
loads of lines 169-173 read its bytes 18 to 37, so the call has a defined result
only when `img_data_offset` is at least 38; the second `fread` then stores
inside the block as well, from index 14 to below `img_data_offset`.  For a
smaller offset the block is too short (or freed, for offset 0) and the
behaviour is undefined.  `malloc` and `realloc` are taken to return a block: the
code does not test their results. -/
def get_bmp_header (mem : block) (p_bmp : FILE) : Option (bmp_header_t × FILE) :=
  if IMG_DATA_SIZE_OFFSET + 4 ≤ read_u32 (file_header_read mem p_bmp).1 IMG_START_OFFSET then
    some (header_result mem p_bmp)
  else none

/-! ## Binary floating point

A finite `float` or `double` is the rational it denotes.  `round_to p emin`
rounds a rational to the nearest number `m * 2 ^ e` with `|m| < 2 ^ p` and
`emin ≤ e`, ties going to the even `m`: binary32 is `p = 24`, `emin = -149`,
binary64 is `p = 53`, `emin = -1074`. -/

/-- Halving `n` until it drops below 2, at most `fuel` times, counting the
halvings. -/
def log2_steps : ℕ → ℕ → ℕ
  | 0, _ => 0
  | fuel + 1, n => if n < 2 then 0 else log2_steps fuel (n / 2) + 1

/-- The position of the leading bit of `n`: `2 ^ nat_log2 n ≤ n < 2 ^ (nat_log2 n + 1)`
for `n ≠ 0`. -/
def nat_log2 (n : ℕ) : ℕ :=
  log2_steps n n

/-- The exponent `k` with `2 ^ k ≤ |x| < 2 ^ (k + 1)`, for `x ≠ 0`. -/
def ilog2 (x : ℚ) : ℤ :=
  let l : ℤ := (nat_log2 x.num.natAbs : ℤ) - (nat_log2 x.den : ℤ)
  if (2 : ℚ) ^ l ≤ |x| then l else l - 1

/-- The integer nearest to `y`, the even one of the two when `y` is half-way. -/
def round_half_even (y : ℚ) : ℤ :=
  if y - ⌊y⌋ < 1 / 2 then ⌊y⌋
  else if 1 / 2 < y - ⌊y⌋ then ⌊y⌋ + 1
  else if ⌊y⌋ % 2 = 0 then ⌊y⌋ else ⌊y⌋ + 1

/-- Round to nearest, ties to even, on `p` significant bits with least exponent
`emin` (gradual underflow), the exponent unbounded above. -/
def round_to (p : ℕ) (emin : ℤ) (x : ℚ) : ℚ :=
  if x = 0 then 0
  else (round_half_even (x / (2 : ℚ) ^ max (ilog2 x - ((p : ℤ) - 1)) emin) : ℚ)
    * (2 : ℚ) ^ max (ilog2 x - ((p : ℤ) - 1)) emin

/-- The `float` nearest to `x`; `none` when it is beyond the largest finite one. -/
def f32 (x : ℚ) : Option ℚ :=
  if |round_to 24 (-149) x| < (2 : ℚ) ^ (128 : ℕ) then some (round_to 24 (-149) x) else none

/-- The `double` nearest to `x`; `none` when it is beyond the largest finite one. -/
def f64 (x : ℚ) : Option ℚ :=
  if |round_to 53 (-1074) x| < (2 : ℚ) ^ (1024 : ℕ) then some (round_to 53 (-1074) x) else none

/-- Division of `float`s; a zero divisor gives no finite result. -/
def f32_div (a b : ℚ) : Option ℚ :=
  if b = 0 then none else f32 (a / b)

/-- Multiplication of `float`s. -/
def f32_mul (a b : ℚ) : Option ℚ :=
  f32 (a * b)

/-- Division of `double`s; a zero divisor gives no finite result. -/
def f64_div (a b : ℚ) : Option ℚ :=
  if b = 0 then none else f64 (a / b)

/-- Multiplication of `double`s. -/
def f64_mul (a b : ℚ) : Option ℚ :=
  f64 (a * b)

/-- Conversion of a floating value to an unsigned integer type of `bits` bits:
the fraction is discarded, and the conversion is undefined (`none`) when the
integral part does not fit the type. -/
def to_unsigned (bits : ℕ) (x : ℚ) : Option ℕ :=
  if 0 ≤ (if 0 ≤ x then ⌊x⌋ else ⌈x⌉) ∧ (if 0 ≤ x then ⌊x⌋ else ⌈x⌉) < 2 ^ bits
  then some (if 0 ≤ x then ⌊x⌋ else ⌈x⌉).toNat else none

/-! ## `get_char_for_greyscale` (lines 283-289)

The body computes the local `out_char` and ends without a `return` statement,
so the value of a call is undefined for the caller that uses it. -/

/-- The ramp `"@%#*+=-:. "`. -/
def ascii_ramp_lut : List Char :=
  ['@', '%', '#', '*', '+', '=', '-', ':', '.', ' ']

/-- The value of `uint8_t lut_index = ((float)p_greyscale / 255.0) * 9.0`, the
division and the multiplication being done in `double`. -/
def lut_index (p_greyscale : ℕ) : Option ℕ := do
  let g ← f32 p_greyscale
  let q ← f64_div g 255
  let m ← f64_mul q 9
  to_unsigned 8 m

/-- The value of the local `char out_char = ascii_ramp_lut[lut_index]`. -/
def out_char (p_greyscale : ℕ) : Option Char := do
  let i ← lut_index p_greyscale
  ascii_ramp_lut.get? i

/-- The value of the call `get_char_for_greyscale(p_greyscale)` for its caller:
the body is run and the closing brace is reached without a `return`, so there
is none. -/
def get_char_for_greyscale (p_greyscale : ℕ) : Option Char := do
  let _ ← out_char p_greyscale
  none

/-! ## `image_to_ascii` (lines 180-279) -/

/-- Lines 183-186: the smaller of the two scaling ratios. -/
def best_scaling_ratio (p_header : bmp_header_t) : Option ℚ := do
  let max_w ← f32 NEW_MAX_WIDTH
  let w ← f32 p_header.img_width
  let width_scaling_ratio ← f32_div max_w w
  let max_h ← f32 NEW_MAX_HEIGHT
  let h ← f32 p_header.img_height
  let height_scaling_ratio ← f32_div max_h h
  pure (if width_scaling_ratio < height_scaling_ratio then width_scaling_ratio
    else height_scaling_ratio)

/-- Line 190: `uint16_t img_new_width = p_header->img_width * best_scaling_ratio`. -/
def img_new_width (p_header : bmp_header_t) : Option ℕ := do
  let best ← best_scaling_ratio p_header
  let w ← f32 p_header.img_width
  let x ← f32_mul w best
  to_unsigned 16 x

/-- Line 191: `uint16_t img_new_height = abs(p_header->img_height) * best_scaling_ratio`. -/
def img_new_height (p_header : bmp_header_t) : Option ℕ := do
  let best ← best_scaling_ratio p_header
  let h ← f32 ((|p_header.img_height| : ℤ) : ℚ)
  let x ← f32_mul h best
  to_unsigned 16 x

/-- Line 195: `uint32_t img_row_bytes = img_width * (bits_per_pixel / 8)`. -/
def img_row_bytes (p_header : bmp_header_t) : ℕ :=
  ((p_header.img_width * ((p_header.bits_per_pixel / 8 : ℕ) : ℤ)) % 2 ^ 32).toNat

/-- Line 196: `uint32_t img_new_row_bytes = img_new_width * (bits_per_pixel / 8)`. -/
def img_new_row_bytes (p_header : bmp_header_t) (new_width : ℕ) : ℕ :=
  (new_width * (p_header.bits_per_pixel / 8)) % 2 ^ 32

/-- Line 199: the row size rounded up to the next multiple of 4. -/
def img_row_bytes_with_padding (p_header : bmp_header_t) : ℕ :=
  ((img_row_bytes p_header + 3) % 2 ^ 32) / 4 * 4

/-- Line 202: the size of the whole pixel array. -/
def img_data_bytes_with_padding (p_header : bmp_header_t) : ℕ :=
  (img_row_bytes_with_padding p_header * (|p_header.img_height| % 2 ^ 32).toNat) % 2 ^ 32

/-- Line 231: `uint16_t x_new = j / best_scaling_ratio`. -/
def x_new (best : ℚ) (j : ℕ) : Option ℕ := do
  let a ← f32 j
  let q ← f32_div a best
  to_unsigned 16 q

/-- Lines 234-239: the source row of destination row `i`.  The last branch is
the `break` of the C code; it is not reached, a zero height having already made
the height ratio a division by zero. -/
def y_new (p_header : bmp_header_t) (best : ℚ) (new_height i : ℕ) : Option ℕ :=
  if p_header.img_height > 0 then do
    let a ← f32 (((new_height : ℤ) - (i : ℤ) - 1 : ℤ) : ℚ)
    let q ← f32_div a best
    to_unsigned 16 q
  else if p_header.img_height < 0 then do
    let a ← f32 i
    let q ← f32_div a best
    to_unsigned 16 q
  else none

/-- Line 243: `src_subpixel_base = y_new * img_row_bytes_with_padding + x_new * 3`. -/
def src_subpixel_base (p_header : bmp_header_t) (y x : ℕ) : ℕ :=
  (y * img_row_bytes_with_padding p_header + x * 3) % 2 ^ 32

/-- Lines 248-255: the three bytes at `src` are copied to the destination
array and averaged from there; the copy does not change them. -/
def greyscale_value (img_data_padded : block) (src : ℕ) : ℕ :=
  (((img_data_padded src).val + (img_data_padded ((src + 1) % 2 ^ 32)).val
    + (img_data_padded ((src + 2) % 2 ^ 32)).val) / 3) % 256

/-- A `for` loop over the indices in `is` that collects what each round of
`body` produces; it has a result when every round has one. -/
def for_each {α : Type} : List ℕ → (ℕ → Option α) → Option (List α)
  | [], _ => some []
  | i :: is, body =>
    match body i with
    | none => none
    | some a => (for_each is body).map (fun as => a :: as)

/-- Lines 231-255: the value of `greyscale_value` in round `j` of the inner
loop of row `i`, the argument of the call of `get_char_for_greyscale`. -/
def pixel_grey (p_header : bmp_header_t) (img_data_padded : block) (best : ℚ)
    (new_height i j : ℕ) : Option ℕ := do
  let x ← x_new best j
  let y ← y_new p_header best new_height i
  pure (greyscale_value img_data_padded (src_subpixel_base p_header y x))

/-- Lines 231-258: one round of the inner loop, giving the character stored in
`ascii_row_buff[j]`: the value that the call `glyph(greyscale_value)` delivers.
In the program `glyph` is `get_char_for_greyscale`. -/
def pixel_char (glyph : ℕ → Option Char) (p_header : bmp_header_t) (img_data_padded : block)
    (best : ℚ) (new_height i j : ℕ) : Option Char := do
  let g ← pixel_grey p_header img_data_padded best new_height i j
  glyph g

/-- Lines 229-262: the row buffer after the inner loop of destination row `i`:
`new_width` characters, then the newline and the terminating zero. -/
def ascii_row_buff (glyph : ℕ → Option Char) (p_header : bmp_header_t)
    (img_data_padded : block) (best : ℚ) (new_width new_height i : ℕ) :
    Option (List Char) := do
  let glyphs ← for_each (List.range new_width)
    (pixel_char glyph p_header img_data_padded best new_height i)
  pure (glyphs ++ [Char.ofNat 10, Char.ofNat 0])

/-- What `fprintf(p_ascii, "%s", buff)` writes: the characters before the first
zero. -/
def printed (buff : List Char) : List Char :=
  buff.takeWhile (fun c => c ≠ Char.ofNat 0)

/-- Lines 227-273: one round of the outer loop, giving the lines it writes: the
row's text when `i & 1` is set, nothing otherwise. -/
def emit_row (glyph : ℕ → Option Char) (p_header : bmp_header_t) (img_data_padded : block)
    (best : ℚ) (new_width new_height i : ℕ) : Option (List (List Char)) := do
  let buff ← ascii_row_buff glyph p_header img_data_padded best new_width new_height i
  pure (if i &&& 1 ≠ 0 then [printed buff] else [])

/-- Lines 180-279 with the callee as a parameter: the lines written to
`p_ascii`, in order, when the calls of line 258 deliver the values of `glyph`.
`alloc_ok` tells whether both `malloc` calls returned a block, `mem` is the
content of the pixel block before the pixel data is read into it. -/
def image_to_ascii_with (glyph : ℕ → Option Char) (alloc_ok : Bool) (mem : block)
    (p_bmp : FILE) (p_header : bmp_header_t) : Option (List (List Char)) := do
  let best ← best_scaling_ratio p_header
  let new_width ← img_new_width p_header
  let new_height ← img_new_height p_header
  let img_data_padded :=
    (fread mem 0 (img_data_bytes_with_padding p_header) (fseek p_bmp p_header.img_data_offset)).1
  if alloc_ok then do
    let rows ← for_each (List.range new_height)
      (emit_row glyph p_header img_data_padded best new_width new_height)
    pure rows.flatten
  else pure []

/-- The renderer of the program: line 258 calls `get_char_for_greyscale`. -/
def image_to_ascii (alloc_ok : Bool) (mem : block) (p_bmp : FILE) (p_header : bmp_header_t) :
    Option (List (List Char)) :=
  image_to_ascii_with get_char_for_greyscale alloc_ok mem p_bmp p_header

/-! ## Reference decoders on the bytes of a file

Little-endian decoding as the specification words it, stated on the list of
file bytes; the header fields computed by `get_bmp_header` are compared with
these. -/

/-- Byte `i` of a file, as a number (`0` past the end). -/
def file_byte (data : List uint8_t) (i : ℕ) : ℕ :=
  (data.getD i 0).val

/-- Unsigned 32-bit little-endian value of the four file bytes at `off`. -/
def le_u32 (data : List uint8_t) (off : ℕ) : ℕ :=
  file_byte data off + 256 * file_byte data (off + 1) + 65536 * file_byte data (off + 2)
    + 16777216 * file_byte data (off + 3)

/-- Signed (two's complement) 32-bit little-endian value of the four file bytes
at `off`. -/
def le_i32 (data : List uint8_t) (off : ℕ) : ℤ :=
  if le_u32 data off < 2 ^ 31 then (le_u32 data off : ℤ) else (le_u32 data off : ℤ) - 2 ^ 32

/-! ## Sample inputs -/

/-- A header as `validate_header` sees it: only the validated fields matter. -/
def sample_header (bpp compression : ℕ) (width height : ℤ) : bmp_header_t :=
  { header_array := fun _ => 0
    size_bmp := 0
    img_data_offset := 54
    img_width := width
    img_height := height
    bits_per_pixel := bpp
    compression_type := compression
    size_img_data := 0 }

/-- The 14-byte file header and 40-byte DIB header of a 4x4, 24-bit BMP whose
pixel data starts at `off` (`off < 65536`) and whose compression field holds the
four bytes `c0 c1 c2 c3`. -/
def sample_header_bytes (off : ℕ) (c0 c1 c2 c3 : uint8_t) : List uint8_t :=
  [66, 77, Fin.ofNat ((off + 48) % 256), Fin.ofNat ((off + 48) / 256), 0, 0, 0, 0, 0, 0,
   Fin.ofNat (off % 256), Fin.ofNat (off / 256), 0, 0,
   40, 0, 0, 0, 4, 0, 0, 0, 4, 0, 0, 0, 1, 0, 24, 0, c0, c1, c2, c3, 48, 0, 0, 0,
   0, 0, 0, 0, 0, 0, 0, 0, 0, 0, 0, 0, 0, 0, 0, 0]

/-- A complete 4x4, 24-bit BMP: headers, zero filler up to the pixel data
offset `off` (`54 ≤ off`), then 48 pixel bytes of value `v`. -/
def sample_bmp (off : ℕ) (c0 c1 c2 c3 v : uint8_t) : FILE :=
  { data := sample_header_bytes off c0 c1 c2 c3 ++ List.replicate (off - 54) 0
      ++ List.replicate 48 v
    pos := 0 }

/-- A file cut off after ten bytes. -/
def truncated_bmp : FILE :=
  { data := [66, 77, 102, 0, 0, 0, 0, 0, 0, 0], pos := 0 }

/-- The sample BMP with pixel data at offset 54 cut off after twenty bytes: the
whole file header and six bytes of the DIB header. -/
def truncated_dib_bmp : FILE :=
  { data := (sample_header_bytes 54 0 0 0 0).take 20, pos := 0 }

/-- The header `get_bmp_header` returns for the sample BMP with pixel data at
offset 54 and pixel bytes `v`, the header block being zero beforehand. -/
def sample_parsed (v : uint8_t) : bmp_header_t :=
  (header_result (fun _ => 0) (sample_bmp 54 0 0 0 0 v)).1

/-! ## The specification's arithmetic

The scaling and sampling steps as the specification words them, in exact
(rational) arithmetic; what `image_to_ascii` computes is compared with these. -/

/-- The specification's `scale = min(200 / width, 200 / |height|)`. -/
def exact_scale (width height : ℤ) : ℚ :=
  min (200 / (width : ℚ)) (200 / ((|height| : ℤ) : ℚ))

/-- The specification's `new_width = floor(width * scale)`. -/
def exact_new_width (width height : ℤ) : ℤ :=
  ⌊(width : ℚ) * exact_scale width height⌋

/-- The specification's `new_height = floor(|height| * scale)`. -/
def exact_new_height (width height : ℤ) : ℤ :=
  ⌊((|height| : ℤ) : ℚ) * exact_scale width height⌋

/-- The specification's `x_src = floor(j / scale)`. -/
def x_src_floor (scale : ℚ) (j : ℕ) : ℤ :=
  ⌊(j : ℚ) / scale⌋

/-- The specification's `y_src = floor((new_height - i - 1) / scale)` for
bottom-up storage. -/
def y_src_floor (scale : ℚ) (new_height i : ℕ) : ℤ :=
  ⌊(((new_height : ℤ) - (i : ℤ) - 1 : ℤ) : ℚ) / scale⌋

/-- Byte `k` of the pixel array of a file: the file byte at
`img_data_offset + k`. -/
def pixel_byte (p_bmp : FILE) (p_header : bmp_header_t) (k : ℕ) : ℕ :=
  file_byte p_bmp.data (p_header.img_data_offset + k)

/-- The specification's `greyscale = (c0 + c1 + c2) / 3` for the source pixel in
row `y`, column `x` of the pixel array: the three bytes starting at
`img_row_bytes_with_padding * y + 3 * x`. -/
def sampled_grey (p_bmp : FILE) (p_header : bmp_header_t) (y x : ℕ) : ℕ :=
  (pixel_byte p_bmp p_header (img_row_bytes_with_padding p_header * y + 3 * x)
    + pixel_byte p_bmp p_header (img_row_bytes_with_padding p_header * y + 3 * x + 1)
    + pixel_byte p_bmp p_header (img_row_bytes_with_padding p_header * y + 3 * x + 2)) / 3

/-- A file for a 45x45, 24-bit image with pixel data at offset 54 (row stride
136): the pixels of even columns are black, those of odd columns white. -/
def striped_bmp : FILE :=
  { data := List.replicate 54 0
      ++ (List.range 6120).map (fun k => if ((k % 136) / 3) % 2 = 1 then 255 else 0)
    pos := 0 }

/-! ## Lemmas on `fread` and the decoders -/

theorem fread_pos (buf : block) (base n : ℕ) (s : FILE) :
    (fread buf base n s).2.pos = s.pos + min n (s.data.length - s.pos) := by
  simp [fread]

theorem fread_data (buf : block) (base n : ℕ) (s : FILE) :
    (fread buf base n s).2.data = s.data := rfl

theorem fread_read (buf : block) (base n : ℕ) (s : FILE) (i : ℕ)
    (h1 : base ≤ i) (h2 : i < base + min n (s.data.length - s.pos)) :
    (fread buf base n s).1 i = s.data.getD (s.pos + (i - base)) 0 := by
  have hlen : ((s.data.drop s.pos).take n).length = min n (s.data.length - s.pos) := by simp
  have h3 : i - base < min n (s.data.length - s.pos) := by omega
  have h4 : i - base < n := lt_of_lt_of_le h3 (min_le_left _ _)
  have h5 : s.pos + (i - base) < s.data.length := by
    have := lt_of_lt_of_le h3 (min_le_right _ _)
    omega
  simp only [fread, hlen]
  rw [if_pos ⟨h1, h2⟩]
  simp [List.getD_eq_getElem?_getD, List.getElem?_take, h4, List.getElem?_drop]

theorem fread_keep (buf : block) (base n : ℕ) (s : FILE) (i : ℕ)
    (h : i < base ∨ base + min n (s.data.length - s.pos) ≤ i) :
    (fread buf base n s).1 i = buf i := by
  have hlen : ((s.data.drop s.pos).take n).length = min n (s.data.length - s.pos) := by simp
  simp only [fread, hlen]
  rw [if_neg]
  omega

theorem read_u32_congr (b : block) (data : List uint8_t) (off : ℕ)
    (h : ∀ k, k < 4 → b (off + k) = data.getD (off + k) 0) :
    read_u32 b off = le_u32 data off := by
  have h0 := h 0 (by norm_num)
  have h1 := h 1 (by norm_num)
  have h2 := h 2 (by norm_num)
  have h3 := h 3 (by norm_num)
  simp only [Nat.add_zero] at h0
  simp [read_u32, le_u32, file_byte, h0, h1, h2, h3]

theorem read_i32_congr (b : block) (data : List uint8_t) (off : ℕ)
    (h : ∀ k, k < 4 → b (off + k) = data.getD (off + k) 0) :
    read_i32 b off = le_i32 data off := by
  simp only [read_i32, le_i32, read_u32_congr b data off h]

theorem file_header_read_data (mem : block) (p_bmp : FILE) :
    (file_header_read mem p_bmp).2.data = p_bmp.data := rfl

theorem file_header_read_pos (mem : block) (p_bmp : FILE) :
    (file_header_read mem p_bmp).2.pos = min 14 p_bmp.data.length := by
  unfold file_header_read
  rw [fread_pos]
  simp [fseek, FILE_HEADER_SIZE]

theorem file_header_read_get (mem : block) (p_bmp : FILE) (k : ℕ)
    (hk : k < min 14 p_bmp.data.length) :
    (file_header_read mem p_bmp).1 k = p_bmp.data.getD k 0 := by
  unfold file_header_read
  rw [fread_read _ _ _ _ _ (Nat.zero_le _) (by simpa [fseek, FILE_HEADER_SIZE] using hk)]
  simp [fseek]

theorem file_header_read_keep (mem : block) (p_bmp : FILE) (k : ℕ)
    (hk : min 14 p_bmp.data.length ≤ k) :
    (file_header_read mem p_bmp).1 k = mem k := by
  unfold file_header_read
  exact fread_keep _ _ _ _ _ (Or.inr (by simpa [fseek, FILE_HEADER_SIZE] using hk))

theorem file_header_read_offset (mem : block) (p_bmp : FILE) (hlen : 14 ≤ p_bmp.data.length) :
    read_u32 (file_header_read mem p_bmp).1 IMG_START_OFFSET = le_u32 p_bmp.data 10 :=
  read_u32_congr _ _ _ (fun k hk => file_header_read_get _ _ _
    (by rw [min_eq_left hlen]; simp only [IMG_START_OFFSET]; omega))

theorem full_header_read_pos (mem : block) (p_bmp : FILE) :
    (full_header_read mem p_bmp).2.pos = min 14 p_bmp.data.length
      + min (remainig_header_size (read_u32 (file_header_read mem p_bmp).1 IMG_START_OFFSET))
          (p_bmp.data.length - min 14 p_bmp.data.length) := by
  unfold full_header_read
  rw [fread_pos, file_header_read_pos, file_header_read_data]

/-- The header block after the two reads: every index below both the file
length and `14 + remainig_header_size` holds the file's byte, provided the
fixed 14-byte header could be read in full. -/
theorem header_array_read (mem : block) (p_bmp : FILE) (i : ℕ)
    (hlen : 14 ≤ p_bmp.data.length)
    (hi : i < min p_bmp.data.length (14 + remainig_header_size (le_u32 p_bmp.data 10))) :
    (full_header_read mem p_bmp).1 i = p_bmp.data.getD i 0 := by
  have hpos : (file_header_read mem p_bmp).2.pos = 14 := by
    rw [file_header_read_pos, min_eq_left hlen]
  unfold full_header_read
  rw [file_header_read_offset mem p_bmp hlen]
  by_cases h14 : i < 14
  · rw [fread_keep _ _ _ _ _ (Or.inl h14)]
    exact file_header_read_get _ _ _ (by rw [min_eq_left hlen]; exact h14)
  · rw [fread_read _ _ _ _ _ (by simp only [FILE_HEADER_SIZE]; omega)
      (by rw [hpos, file_header_read_data]; simp only [FILE_HEADER_SIZE]; omega)]
    rw [hpos, file_header_read_data]
    congr 1
    simp only [FILE_HEADER_SIZE]
    omega

theorem header_result_header_array (mem : block) (p_bmp : FILE) :
    (header_result mem p_bmp).1.header_array = (full_header_read mem p_bmp).1 := by
  simp only [header_result]

theorem header_result_stream (mem : block) (p_bmp : FILE) :
    (header_result mem p_bmp).2 = (full_header_read mem p_bmp).2 := by
  simp only [header_result]

theorem header_result_size_bmp (mem : block) (p_bmp : FILE) :
    (header_result mem p_bmp).1.size_bmp = read_u32 (file_header_read mem p_bmp).1 2 := by
  simp only [header_result]

theorem header_result_img_data_offset (mem : block) (p_bmp : FILE) :
    (header_result mem p_bmp).1.img_data_offset
      = read_u32 (file_header_read mem p_bmp).1 10 := by
  simp only [header_result]

theorem header_result_img_width (mem : block) (p_bmp : FILE) :
    (header_result mem p_bmp).1.img_width = read_i32 (full_header_read mem p_bmp).1 18 := by
  simp only [header_result]

theorem header_result_img_height (mem : block) (p_bmp : FILE) :
    (header_result mem p_bmp).1.img_height = read_i32 (full_header_read mem p_bmp).1 22 := by
  simp only [header_result]

theorem header_result_bits_per_pixel (mem : block) (p_bmp : FILE) :
    (header_result mem p_bmp).1.bits_per_pixel = ((full_header_read mem p_bmp).1 28).val := by
  simp only [header_result]

theorem header_result_compression_type (mem : block) (p_bmp : FILE) :
    (header_result mem p_bmp).1.compression_type
      = ((full_header_read mem p_bmp).1 30).val := by
  simp only [header_result]

theorem header_result_size_img_data (mem : block) (p_bmp : FILE) :
    (header_result mem p_bmp).1.size_img_data = read_u32 (full_header_read mem p_bmp).1 34 := by
  simp only [header_result]

/-- With the fixed header read in full and at least 24 further header bytes
both requested and present, every field of the returned header is decoded from
the bytes of the file. -/
theorem header_result_fields (mem : block) (p_bmp : FILE)
    (hlen : 38 ≤ p_bmp.data.length)
    (hrem : 24 ≤ remainig_header_size (le_u32 p_bmp.data 10)) :
    (header_result mem p_bmp).1.size_bmp = le_u32 p_bmp.data 2 ∧
    (header_result mem p_bmp).1.img_data_offset = le_u32 p_bmp.data 10 ∧
    (header_result mem p_bmp).1.img_width = le_i32 p_bmp.data 18 ∧
    (header_result mem p_bmp).1.img_height = le_i32 p_bmp.data 22 ∧
    (header_result mem p_bmp).1.bits_per_pixel = file_byte p_bmp.data 28 ∧
    (header_result mem p_bmp).1.compression_type = file_byte p_bmp.data 30 ∧
    (header_result mem p_bmp).1.size_img_data = le_u32 p_bmp.data 34 := by
  have hb : ∀ i, i < 38 → (full_header_read mem p_bmp).1 i = p_bmp.data.getD i 0 :=
    fun i hi => header_array_read mem p_bmp i (by omega) (by omega)
  have hr1 : ∀ k, k < 14 → (file_header_read mem p_bmp).1 k = p_bmp.data.getD k 0 :=
    fun k hk => file_header_read_get _ _ _ (by rw [min_eq_left (by omega)]; exact hk)
  rw [header_result_size_bmp, header_result_img_data_offset, header_result_img_width,
    header_result_img_height, header_result_bits_per_pixel, header_result_compression_type,
    header_result_size_img_data]
  refine ⟨?_, ?_, ?_, ?_, ?_, ?_, ?_⟩
  · exact read_u32_congr _ _ _ (fun k hk => hr1 _ (by omega))
  · exact file_header_read_offset mem p_bmp (by omega)
  · exact read_i32_congr _ _ _ (fun k hk => hb _ (by omega))
  · exact read_i32_congr _ _ _ (fun k hk => hb _ (by omega))
  · rw [hb 28 (by norm_num), file_byte]
  · rw [hb 30 (by norm_num), file_byte]
  · exact read_u32_congr _ _ _ (fun k hk => hb _ (by omega))

/-- The cursor after `header_result`, when the fixed header could be read: 14
plus the eight-bit remaining-header count, or the end of the file if that comes
first. -/
theorem header_result_pos (mem : block) (p_bmp : FILE) (hlen : 14 ≤ p_bmp.data.length) :
    (header_result mem p_bmp).2.pos
      = 14 + min (remainig_header_size (le_u32 p_bmp.data 10)) (p_bmp.data.length - 14) := by
  rw [header_result_stream, full_header_read_pos, file_header_read_offset mem p_bmp hlen,
    min_eq_left hlen]

/-- For a pixel data offset from 14 to 269 and a file that holds that many
bytes, the header reader buffers bytes `0 .. offset` of the file and leaves the
cursor at the offset. -/
theorem header_result_buffers_small_offset (mem : block) (p_bmp : FILE)
    (h14 : 14 ≤ le_u32 p_bmp.data 10) (h270 : le_u32 p_bmp.data 10 < 270)
    (hlen : le_u32 p_bmp.data 10 ≤ p_bmp.data.length) :
    (header_result mem p_bmp).2.pos = le_u32 p_bmp.data 10 ∧
    ∀ i, i < le_u32 p_bmp.data 10 →
      (header_result mem p_bmp).1.header_array i = p_bmp.data.getD i 0 := by
  rw [header_result_header_array]
  have hrem : remainig_header_size (le_u32 p_bmp.data 10) = le_u32 p_bmp.data 10 - 14 := by
    simp only [remainig_header_size, FILE_HEADER_SIZE]
    omega
  refine ⟨?_, fun i hi => header_array_read mem p_bmp i (by omega) ?_⟩
  · rw [header_result_pos mem p_bmp (by omega), hrem]
    omega
  · rw [hrem]
    omega

/-! ## Header validation -/

/-- C1: `validate_header` applies its checks in a fixed priority order and the
first failing check wins: `ERR_BPP` when the bit depth is not 24; otherwise
`ERR_COMPRESSION` when the compression is not 0; otherwise `ERR_WIDTH` when the
width exceeds 2000; otherwise `ERR_HEIGHT` when the (signed) height exceeds
2000; otherwise 0.  Every negative height passes the height check. -/
theorem validate_header_priority (h : bmp_header_t) :
    (h.bits_per_pixel ≠ 24 → validate_header h = ERR_BPP) ∧
    (h.bits_per_pixel = 24 → h.compression_type ≠ 0 → validate_header h = ERR_COMPRESSION) ∧
    (h.bits_per_pixel = 24 → h.compression_type = 0 → 2000 < h.img_width →
      validate_header h = ERR_WIDTH) ∧
    (h.bits_per_pixel = 24 → h.compression_type = 0 → h.img_width ≤ 2000 →
      2000 < h.img_height → validate_header h = ERR_HEIGHT) ∧
    (h.bits_per_pixel = 24 → h.compression_type = 0 → h.img_width ≤ 2000 →
      h.img_height ≤ 2000 → validate_header h = 0) ∧
    (h.bits_per_pixel = 24 → h.compression_type = 0 → h.img_width ≤ 2000 →
      h.img_height < 0 → validate_header h = 0) := by
  refine ⟨?_, ?_, ?_, ?_, ?_, ?_⟩
  · intro hb
    simp [validate_header, SUPPORTED_BPP, hb]
  · intro hb hc
    simp [validate_header, SUPPORTED_BPP, SUPPORTED_COMPRESSION, hb, hc]
  · intro hb hc hw
    simp [validate_header, SUPPORTED_BPP, SUPPORTED_COMPRESSION, SUPPORTED_MAX_H_RES, hb, hc, hw]
  · intro hb hc hw hh
    simp [validate_header, SUPPORTED_BPP, SUPPORTED_COMPRESSION, SUPPORTED_MAX_H_RES,
      SUPPORTED_MAX_V_RES, hb, hc, not_lt.mpr hw, hh]
  · intro hb hc hw hh
    simp [validate_header, SUPPORTED_BPP, SUPPORTED_COMPRESSION, SUPPORTED_MAX_H_RES,
      SUPPORTED_MAX_V_RES, hb, hc, not_lt.mpr hw, not_lt.mpr hh]
  · intro hb hc hw hh
    have hh2 : ¬ (2000 < h.img_height) := by omega
    simp [validate_header, SUPPORTED_BPP, SUPPORTED_COMPRESSION, SUPPORTED_MAX_H_RES,
      SUPPORTED_MAX_V_RES, hb, hc, not_lt.mpr hw, hh2]

/-- C2: a header whose bit depth is not 24 gets the bit-depth error whatever its
compression, width and height are, and so never the compression error. -/
theorem validate_header_bpp_first (h : bmp_header_t) (hb : h.bits_per_pixel ≠ 24) :
    validate_header h = ERR_BPP ∧ validate_header h ≠ ERR_COMPRESSION := by
  have h1 : validate_header h = ERR_BPP := by
    simp [validate_header, SUPPORTED_BPP, hb]
  exact ⟨h1, by rw [h1]; decide⟩

/-- C2 at the two headers the specification names: 8 bits with compression 1, and
8 bits with width 100 and height 100. -/
theorem validate_header_bpp_first_witness :
    (validate_header (sample_header 8 1 100 100) = ERR_BPP ∧
      validate_header (sample_header 8 1 100 100) ≠ ERR_COMPRESSION) ∧
    (validate_header (sample_header 8 0 100 100) = ERR_BPP ∧
      validate_header (sample_header 8 0 100 100) ≠ ERR_COMPRESSION) :=
  ⟨validate_header_bpp_first (sample_header 8 1 100 100) (by decide),
   validate_header_bpp_first (sample_header 8 0 100 100) (by decide)⟩

/-- C3 fails on the code: a 24-bit, uncompressed header of width 100 and height 0
is accepted (`validate_header` returns 0) and `main` goes on to the renderer. -/
theorem validate_header_zero_height_counterexample :
    (sample_header 24 0 100 0).img_height = 0 ∧
    validate_header (sample_header 24 0 100 0) = 0 ∧
    main_calls_image_to_ascii (sample_header 24 0 100 0) = true := by
  decide

/-- C3 as amended: every header of height 0 with otherwise supported fields (24
bits, compression 0, width at most 2000) is accepted by `validate_header`, which
has no zero-height check, and is handed to the renderer by `main`. -/
theorem validate_header_zero_height_accepted (h : bmp_header_t)
    (hh : h.img_height = 0) (hb : h.bits_per_pixel = 24) (hc : h.compression_type = 0)
    (hw : h.img_width ≤ 2000) :
    validate_header h = 0 ∧ main_calls_image_to_ascii h = true := by
  have h1 : validate_header h = 0 := by
    simp [validate_header, SUPPORTED_BPP, SUPPORTED_COMPRESSION, SUPPORTED_MAX_H_RES,
      SUPPORTED_MAX_V_RES, hb, hc, not_lt.mpr hw, hh]
  exact ⟨h1, by simp [main_calls_image_to_ascii, h1]⟩

/-- The amended C3 at width 100, height 0. -/
theorem validate_header_zero_height_accepted_witness :
    validate_header (sample_header 24 0 100 0) = 0 ∧
    main_calls_image_to_ascii (sample_header 24 0 100 0) = true :=
  validate_header_zero_height_accepted (sample_header 24 0 100 0) rfl rfl rfl (by decide)

/-- C4 fails on the code: a 24-bit, uncompressed, top-down header of width 100
and height -5000 has 5000 rows, more than `SUPPORTED_MAX_V_RES`, and is accepted
all the same. -/
theorem validate_header_accepts_tall_top_down :
    validate_header (sample_header 24 0 100 (-5000)) = 0 ∧
    ¬ (|(sample_header 24 0 100 (-5000)).img_height| ≤ SUPPORTED_MAX_V_RES) := by
  decide

/-- C4 as amended: `validate_header` returns 0 exactly for the headers with 24
bits per pixel, compression 0, and width and height at most 2000 as signed
values.  An accepted header with a height that is not negative has
`|height| ≤ 2000`; a negative height passes whatever its magnitude, and so does
a width that is zero or negative.  Every other header gets one of the four
non-zero reason codes. -/
theorem validate_header_accepts_iff (h : bmp_header_t) :
    (validate_header h = 0 ↔
      h.bits_per_pixel = 24 ∧ h.compression_type = 0 ∧ h.img_width ≤ 2000 ∧
        h.img_height ≤ 2000) ∧
    (validate_header h = 0 → 0 ≤ h.img_height → |h.img_height| ≤ 2000) ∧
    (h.bits_per_pixel = 24 ∧ h.compression_type = 0 ∧ h.img_width ≤ 2000 ∧ h.img_height < 0 →
      validate_header h = 0) ∧
    (validate_header h ≠ 0 →
      validate_header h = ERR_COMPRESSION ∨ validate_header h = ERR_BPP ∨
        validate_header h = ERR_WIDTH ∨ validate_header h = ERR_HEIGHT) := by
  have key : validate_header h = 0 ↔
      h.bits_per_pixel = 24 ∧ h.compression_type = 0 ∧ h.img_width ≤ 2000 ∧
        h.img_height ≤ 2000 := by
    unfold validate_header
    by_cases hb : h.bits_per_pixel = 24
    · by_cases hc : h.compression_type = 0
      · by_cases hw : h.img_width ≤ 2000
        · by_cases hh : h.img_height ≤ 2000
          · simp [SUPPORTED_BPP, SUPPORTED_COMPRESSION, SUPPORTED_MAX_H_RES,
              SUPPORTED_MAX_V_RES, hb, hc, not_lt.mpr hw, not_lt.mpr hh, hw, hh]
          · simp [SUPPORTED_BPP, SUPPORTED_COMPRESSION, SUPPORTED_MAX_H_RES,
              SUPPORTED_MAX_V_RES, hb, hc, not_lt.mpr hw, not_le.mp hh, hh, ERR_HEIGHT]
        · simp [SUPPORTED_BPP, SUPPORTED_COMPRESSION, SUPPORTED_MAX_H_RES, hb, hc,
            not_le.mp hw, hw, ERR_WIDTH]
      · simp [SUPPORTED_BPP, SUPPORTED_COMPRESSION, hb, hc, ERR_COMPRESSION]
    · simp [SUPPORTED_BPP, hb, ERR_BPP]
  refine ⟨key, ?_, ?_, ?_⟩
  · intro h0 hnn
    rw [abs_of_nonneg hnn]
    exact (key.mp h0).2.2.2
  · rintro ⟨hb, hc, hw, hh⟩
    exact key.mpr ⟨hb, hc, hw, by omega⟩
  · intro _
    unfold validate_header
    split_ifs
    · exact Or.inr (Or.inl rfl)
    · exact Or.inl rfl
    · exact Or.inr (Or.inr (Or.inl rfl))
    · exact Or.inr (Or.inr (Or.inr rfl))
    · rename_i hne _ _ _ _
      exact absurd (by unfold validate_header; simp [*]) hne

/-! ## Header parsing -/

/-- The accesses of `get_bmp_header` stay inside the block of `img_data_offset`
bytes when the offset is at least 38: the second `fread` stores below the
offset. -/
theorem second_fread_in_block (img_data_offset : ℕ) (h38 : 38 ≤ img_data_offset)
    (h32 : img_data_offset < 2 ^ 32) :
    FILE_HEADER_SIZE + remainig_header_size img_data_offset ≤ img_data_offset := by
  simp only [remainig_header_size, FILE_HEADER_SIZE]
  omega

theorem get_bmp_header_eq_some (mem : block) (p_bmp : FILE)
    (h38 : 38 ≤ read_u32 (file_header_read mem p_bmp).1 10) :
    get_bmp_header mem p_bmp = some (header_result mem p_bmp) := by
  unfold get_bmp_header
  rw [if_pos h38]

theorem get_bmp_header_eq_pair (mem : block) (p_bmp : FILE)
    (h38 : 38 ≤ read_u32 (file_header_read mem p_bmp).1 10) :
    get_bmp_header mem p_bmp
      = some ((header_result mem p_bmp).1, (header_result mem p_bmp).2) :=
  get_bmp_header_eq_some mem p_bmp h38

theorem get_bmp_header_eq_none (mem : block) (p_bmp : FILE)
    (h38 : read_u32 (file_header_read mem p_bmp).1 10 < 38) :
    get_bmp_header mem p_bmp = none := by
  unfold get_bmp_header
  rw [if_neg (by simpa using h38)]

theorem get_bmp_header_some_iff (mem : block) (p_bmp : FILE) (r : bmp_header_t × FILE) :
    get_bmp_header mem p_bmp = some r ↔
      38 ≤ read_u32 (file_header_read mem p_bmp).1 10 ∧ r = header_result mem p_bmp := by
  unfold get_bmp_header
  by_cases h : 38 ≤ read_u32 (file_header_read mem p_bmp).1 10
  · rw [if_pos h]
    constructor
    · intro e
      exact ⟨h, (Option.some.inj e).symm⟩
    · rintro ⟨-, rfl⟩
      rfl
  · rw [if_neg h]
    constructor
    · intro e
      exact absurd e (by simp)
    · rintro ⟨h', -⟩
      exact absurd h' h

theorem sample_bmp_length (off : ℕ) (c0 c1 c2 c3 v : uint8_t) :
    (sample_bmp off c0 c1 c2 c3 v).data.length = 54 + (off - 54) + 48 := by
  simp only [sample_bmp, sample_header_bytes, List.length_append, List.length_replicate,
    List.length_cons, List.length_nil]

/-- C5 at its failing input: a 318-byte BMP whose pixel data offset is 270 and
whose bytes 18..21 hold the width 4 and byte 28 the depth 24.  The eight-bit
remaining-header count is 0, nothing after the first 14 bytes is read, and the
call returns a header whose width and depth are what the block held before
(here bytes `0xAA`). -/
theorem get_bmp_header_offset_270_fields :
    le_u32 (sample_bmp 270 0 0 0 0 255).data 10 = 270 ∧
    270 ≤ (sample_bmp 270 0 0 0 0 255).data.length ∧
    le_i32 (sample_bmp 270 0 0 0 0 255).data 18 = 4 ∧
    file_byte (sample_bmp 270 0 0 0 0 255).data 28 = 24 ∧
    ∃ hdr stream,
      get_bmp_header (fun _ => 170) (sample_bmp 270 0 0 0 0 255) = some (hdr, stream) ∧
      hdr.img_data_offset = 270 ∧ hdr.img_width = -1431655766 ∧ hdr.bits_per_pixel = 170 := by
  refine ⟨by decide, ?_, by decide, by decide, _, _,
    get_bmp_header_eq_some _ _ (by decide), by decide, by decide, by decide⟩
  rw [sample_bmp_length]
  norm_num

/-- C6 fails on the code: in a BMP whose compression field is 256 (bytes
`00 01 00 00`) with depth 24 and size 4x4, the parsed compression is 0 and
`validate_header` accepts the header instead of reporting `ERR_COMPRESSION`. -/
theorem compression_256_counterexample :
    le_u32 (sample_bmp 54 0 1 0 0 255).data 30 = 256 ∧
    ∃ hdr stream,
      get_bmp_header (fun _ => 0) (sample_bmp 54 0 1 0 0 255) = some (hdr, stream) ∧
      hdr.bits_per_pixel = 24 ∧ hdr.compression_type = 0 ∧ validate_header hdr = 0 := by
  exact ⟨by decide, _, _, get_bmp_header_eq_some _ _ (by decide), by decide, by decide,
    by decide⟩

/-- C6 as amended: when the first 38 header bytes are read, the call returns a
header (for a pixel data offset of at least 14; below that the behaviour is
undefined), and the compression of the returned header is the single byte at
offset 30 (the low byte of the four-byte field); if that byte is non-zero and
the depth byte is 24, `validate_header` reports `ERR_COMPRESSION`. -/
theorem compression_is_low_byte (mem : block) (p_bmp : FILE)
    (hlen : 38 ≤ p_bmp.data.length)
    (hrem : 24 ≤ remainig_header_size (le_u32 p_bmp.data 10)) :
    (14 ≤ le_u32 p_bmp.data 10 →
      ∃ hdr stream, get_bmp_header mem p_bmp = some (hdr, stream)) ∧
    (le_u32 p_bmp.data 10 < 14 → get_bmp_header mem p_bmp = none) ∧
    ∀ hdr stream, get_bmp_header mem p_bmp = some (hdr, stream) →
      hdr.compression_type = le_u32 p_bmp.data 30 % 256 ∧
      (hdr.compression_type ≠ 0 → file_byte p_bmp.data 28 = 24 →
        validate_header hdr = ERR_COMPRESSION) := by
  obtain ⟨-, hoff, -, -, hbpp, hcomp, -⟩ := header_result_fields mem p_bmp hlen hrem
  rw [header_result_img_data_offset] at hoff
  have h32 : le_u32 p_bmp.data 10 < 2 ^ 32 := by
    have h0 : file_byte p_bmp.data 10 < 256 := (p_bmp.data.getD 10 0).isLt
    have h1 : file_byte p_bmp.data (10 + 1) < 256 := (p_bmp.data.getD (10 + 1) 0).isLt
    have h2 : file_byte p_bmp.data (10 + 2) < 256 := (p_bmp.data.getD (10 + 2) 0).isLt
    have h3 : file_byte p_bmp.data (10 + 3) < 256 := (p_bmp.data.getD (10 + 3) 0).isLt
    simp only [le_u32]
    omega
  refine ⟨fun h14 => ?_, fun h14 => ?_, fun hdr stream hsome => ?_⟩
  · refine ⟨_, _, get_bmp_header_eq_some mem p_bmp ?_⟩
    rw [hoff]
    simp only [remainig_header_size, FILE_HEADER_SIZE] at hrem
    omega
  · apply get_bmp_header_eq_none
    rw [hoff]
    omega
  · obtain ⟨-, hr⟩ := (get_bmp_header_some_iff mem p_bmp (hdr, stream)).mp hsome
    have hh : hdr = (header_result mem p_bmp).1 := congrArg Prod.fst hr
    subst hh
    refine ⟨?_, fun hne h24 => ?_⟩
    · rw [hcomp]
      have : file_byte p_bmp.data 30 < 256 := (p_bmp.data.getD 30 0).isLt
      simp only [le_u32]
      omega
    · have hb24 : (header_result mem p_bmp).1.bits_per_pixel = 24 := by rw [hbpp, h24]
      simp [validate_header, hb24, hne]

/-- The amended C6 on a BMP whose compression field is 1. -/
theorem compression_is_low_byte_witness :
    (14 ≤ le_u32 (sample_bmp 54 1 0 0 0 255).data 10 →
      ∃ hdr stream,
        get_bmp_header (fun _ => 0) (sample_bmp 54 1 0 0 0 255) = some (hdr, stream)) ∧
    (le_u32 (sample_bmp 54 1 0 0 0 255).data 10 < 14 →
      get_bmp_header (fun _ => 0) (sample_bmp 54 1 0 0 0 255) = none) ∧
    ∀ hdr stream,
      get_bmp_header (fun _ => 0) (sample_bmp 54 1 0 0 0 255) = some (hdr, stream) →
      hdr.compression_type = le_u32 (sample_bmp 54 1 0 0 0 255).data 30 % 256 ∧
      (hdr.compression_type ≠ 0 → file_byte (sample_bmp 54 1 0 0 0 255).data 28 = 24 →
        validate_header hdr = ERR_COMPRESSION) :=
  compression_is_low_byte (fun _ => 0) (sample_bmp 54 1 0 0 0 255)
    (by rw [sample_bmp_length]; norm_num) (by decide)

/-- C7 at its failing input: for a 318-byte BMP whose pixel data offset is 270,
`offset - 14 = 256` is cut to the eight-bit count 0, so no further byte is read:
the call returns with the cursor left at 14, not at 270, and byte 18 of the
block is not the file's. -/
theorem get_bmp_header_offset_270_cursor :
    le_u32 (sample_bmp 270 0 0 0 0 255).data 10 = 270 ∧
    remainig_header_size 270 = 0 ∧
    (sample_bmp 270 0 0 0 0 255).data.getD 18 0 = 4 ∧
    ∃ hdr stream,
      get_bmp_header (fun _ => 170) (sample_bmp 270 0 0 0 0 255) = some (hdr, stream) ∧
      stream.pos = 14 ∧ hdr.header_array 18 = 170 := by
  exact ⟨by decide, by decide, by decide, _, _, get_bmp_header_eq_some _ _ (by decide),
    by decide, by decide⟩

/-- C8 fails on the code, which has no `Truncated` result.  For the sample BMP
cut off after 20 bytes (pixel data offset 54) the call returns a header,
whatever the block held before, with the cursor at the end of the input; the
width is decoded from bytes 18..21 of the block, of which the input supplies
the first two and the block's previous content the other two.  For the 10-byte
input the pixel data offset itself is decoded from the block's previous
content: with bytes `0x01` there the call returns a header with offset and
width 16843009, and with zero bytes the offset is 0 and the behaviour is
undefined. -/
theorem truncated_input_counterexample :
    truncated_dib_bmp.data.length = 20 ∧
    le_u32 truncated_dib_bmp.data 10 = 54 ∧
    (∀ mem : block, ∃ hdr stream,
      get_bmp_header mem truncated_dib_bmp = some (hdr, stream) ∧
      hdr.img_data_offset = 54 ∧ stream.pos = 20 ∧
      hdr.header_array 18 = 4 ∧ hdr.header_array 19 = 0 ∧
      ∀ i, 20 ≤ i → hdr.header_array i = mem i) ∧
    truncated_bmp.data.length = 10 ∧
    (∃ hdr stream, get_bmp_header (fun _ => 1) truncated_bmp = some (hdr, stream) ∧
      hdr.size_bmp = 102 ∧ hdr.img_data_offset = 16843009 ∧ hdr.img_width = 16843009 ∧
      stream.pos = 10) ∧
    get_bmp_header (fun _ => 0) truncated_bmp = none := by
  refine ⟨by decide, by decide, ?_, by decide, ?_, ?_⟩
  · intro mem
    have hlen : 14 ≤ truncated_dib_bmp.data.length := by decide
    have hoff : read_u32 (file_header_read mem truncated_dib_bmp).1 10 = 54 := by
      rw [file_header_read_offset mem truncated_dib_bmp hlen]
      decide
    refine ⟨(header_result mem truncated_dib_bmp).1, (header_result mem truncated_dib_bmp).2,
      get_bmp_header_eq_pair mem truncated_dib_bmp (by rw [hoff]; norm_num), ?_, ?_, ?_⟩
    · rw [header_result_img_data_offset, hoff]
    · rw [header_result_pos mem truncated_dib_bmp hlen]
      decide
    · rw [header_result_header_array]
      have h1 : le_u32 truncated_dib_bmp.data 10 = 54 := by decide
      have h2 : remainig_header_size 54 = 40 := by decide
      have h3 : truncated_dib_bmp.data.length = 20 := by decide
      refine ⟨?_, ?_, fun i hi => ?_⟩
      · rw [header_array_read mem truncated_dib_bmp 18 hlen (by rw [h1, h2, h3]; decide)]
        decide
      · rw [header_array_read mem truncated_dib_bmp 19 hlen (by rw [h1, h2, h3]; decide)]
        decide
      · unfold full_header_read
        rw [fread_keep _ _ _ _ _ (by
          rw [file_header_read_pos, file_header_read_data, h3]
          simp only [FILE_HEADER_SIZE]
          right
          omega)]
        exact file_header_read_keep _ _ _ (by rw [h3]; omega)
  · exact ⟨_, _, get_bmp_header_eq_some _ _ (by decide), by decide, by decide, by decide,
      by decide⟩
  · exact get_bmp_header_eq_none _ _ (by decide)

/-- C8 as amended: `get_bmp_header` has no failure result; a call returns a
header or its behaviour is undefined.  It returns exactly when the pixel data
offset it decodes from bytes 10..13 of the block is at least 38.  For an input
shorter than the 14-byte file header those bytes, and every other byte beyond
the input, are the block's previous content, and a call that returns leaves the
cursor at the end of the input.  For an input of at least 14 bytes the offset
is the input's: from 38 on the call returns a header with that offset, having
read as many of the `(offset - 14) mod 256` further bytes as the input has, and
below 38 (in particular below 14) the behaviour is undefined. -/
theorem get_bmp_header_truncated_input (mem : block) (p_bmp : FILE) :
    ((∃ r, get_bmp_header mem p_bmp = some r) ↔
      38 ≤ read_u32 (file_header_read mem p_bmp).1 10) ∧
    (p_bmp.data.length < 14 →
      (∀ i, (file_header_read mem p_bmp).1 i
        = if i < p_bmp.data.length then p_bmp.data.getD i 0 else mem i) ∧
      ∀ hdr stream, get_bmp_header mem p_bmp = some (hdr, stream) →
        stream.pos = p_bmp.data.length ∧
        (∀ i, hdr.header_array i
          = if i < p_bmp.data.length then p_bmp.data.getD i 0 else mem i) ∧
        hdr.img_data_offset = read_u32 hdr.header_array 10 ∧
        hdr.img_width = read_i32 hdr.header_array 18) ∧
    (14 ≤ p_bmp.data.length → 38 ≤ le_u32 p_bmp.data 10 →
      ∃ hdr stream, get_bmp_header mem p_bmp = some (hdr, stream) ∧
        hdr.img_data_offset = le_u32 p_bmp.data 10 ∧
        stream.pos = 14 + min (remainig_header_size (le_u32 p_bmp.data 10))
          (p_bmp.data.length - 14) ∧
        ∀ i, stream.pos ≤ i → hdr.header_array i = mem i) ∧
    (14 ≤ p_bmp.data.length → le_u32 p_bmp.data 10 < 38 →
      get_bmp_header mem p_bmp = none) := by
  refine ⟨?_, ?_, ?_, ?_⟩
  · constructor
    · rintro ⟨r, hr⟩
      exact ((get_bmp_header_some_iff mem p_bmp r).mp hr).1
    · intro h
      exact ⟨_, get_bmp_header_eq_some mem p_bmp h⟩
  · intro hshort
    have hmin : min 14 p_bmp.data.length = p_bmp.data.length := min_eq_right (by omega)
    have hkeep : ∀ i, (full_header_read mem p_bmp).1 i = (file_header_read mem p_bmp).1 i := by
      intro i
      unfold full_header_read
      exact fread_keep _ _ _ _ _
        (by rw [file_header_read_pos, file_header_read_data, hmin]; omega)
    have hfile : ∀ i, (file_header_read mem p_bmp).1 i
        = if i < p_bmp.data.length then p_bmp.data.getD i 0 else mem i := by
      intro i
      by_cases hi : i < p_bmp.data.length
      · rw [if_pos hi, file_header_read_get _ _ _ (by rw [hmin]; exact hi)]
      · rw [if_neg hi, file_header_read_keep _ _ _ (by rw [hmin]; omega)]
    refine ⟨hfile, fun hdr stream hsome => ?_⟩
    obtain ⟨-, hr⟩ := (get_bmp_header_some_iff mem p_bmp (hdr, stream)).mp hsome
    have hh : hdr = (header_result mem p_bmp).1 := congrArg Prod.fst hr
    have hs : stream = (header_result mem p_bmp).2 := congrArg Prod.snd hr
    subst hh hs
    rw [header_result_stream, header_result_header_array, header_result_img_data_offset,
      header_result_img_width]
    refine ⟨?_, ?_, ?_, rfl⟩
    · rw [full_header_read_pos, hmin]
      omega
    · intro i
      rw [hkeep]
      exact hfile i
    · simp only [read_u32, hkeep]
  · intro hlen hoff
    have he : read_u32 (file_header_read mem p_bmp).1 10 = le_u32 p_bmp.data 10 :=
      file_header_read_offset mem p_bmp hlen
    refine ⟨(header_result mem p_bmp).1, (header_result mem p_bmp).2,
      get_bmp_header_eq_pair mem p_bmp (by rw [he]; exact hoff), ?_, ?_, ?_⟩
    · rw [header_result_img_data_offset]
      exact he
    · exact header_result_pos mem p_bmp hlen
    · intro i hi
      rw [header_result_pos mem p_bmp hlen] at hi
      rw [header_result_header_array]
      unfold full_header_read
      rw [fread_keep _ _ _ _ _ (by
        rw [file_header_read_pos, file_header_read_data, min_eq_left hlen, he]
        simp only [FILE_HEADER_SIZE]
        right
        omega)]
      exact file_header_read_keep _ _ _ (by rw [min_eq_left hlen]; omega)
  · intro hlen hoff
    apply get_bmp_header_eq_none
    rw [file_header_read_offset mem p_bmp hlen]
    exact hoff

/-- The amended C8 on the 10-byte input, the block holding bytes `0x01`
beforehand. -/
theorem get_bmp_header_truncated_input_witness :
    ((∃ r, get_bmp_header (fun _ => 1) truncated_bmp = some r) ↔
      38 ≤ read_u32 (file_header_read (fun _ => 1) truncated_bmp).1 10) ∧
    (truncated_bmp.data.length < 14 →
      (∀ i, (file_header_read (fun _ => 1) truncated_bmp).1 i
        = if i < truncated_bmp.data.length then truncated_bmp.data.getD i 0 else 1) ∧
      ∀ hdr stream, get_bmp_header (fun _ => 1) truncated_bmp = some (hdr, stream) →
        stream.pos = truncated_bmp.data.length ∧
        (∀ i, hdr.header_array i
          = if i < truncated_bmp.data.length then truncated_bmp.data.getD i 0 else 1) ∧
        hdr.img_data_offset = read_u32 hdr.header_array 10 ∧
        hdr.img_width = read_i32 hdr.header_array 18) ∧
    (14 ≤ truncated_bmp.data.length → 38 ≤ le_u32 truncated_bmp.data 10 →
      ∃ hdr stream, get_bmp_header (fun _ => 1) truncated_bmp = some (hdr, stream) ∧
        hdr.img_data_offset = le_u32 truncated_bmp.data 10 ∧
        stream.pos = 14 + min (remainig_header_size (le_u32 truncated_bmp.data 10))
          (truncated_bmp.data.length - 14) ∧
        ∀ i, stream.pos ≤ i → hdr.header_array i = 1) ∧
    (14 ≤ truncated_bmp.data.length → le_u32 truncated_bmp.data 10 < 38 →
      get_bmp_header (fun _ => 1) truncated_bmp = none) :=
  get_bmp_header_truncated_input (fun _ => 1) truncated_bmp
/-! ## Lemmas on rounding -/

theorem abs_eq_natAbs_div_den (x : ℚ) : |x| = (x.num.natAbs : ℚ) / (x.den : ℚ) := by
  have h2 : (x.num.natAbs : ℚ) = |(x.num : ℚ)| := by
    rw [Nat.cast_natAbs, Int.cast_abs]
  conv_lhs => rw [← Rat.num_div_den x]
  rw [abs_div, h2, abs_of_pos (by exact_mod_cast x.den_pos : (0 : ℚ) < (x.den : ℚ))]

theorem log2_steps_spec (fuel : ℕ) : ∀ n, n ≤ fuel → n ≠ 0 →
    2 ^ log2_steps fuel n ≤ n ∧ n < 2 ^ (log2_steps fuel n + 1) := by
  induction fuel with
  | zero => intro n h h0; omega
  | succ f ih =>
    intro n h h0
    unfold log2_steps
    split_ifs with h2
    · constructor <;> simp <;> omega
    · obtain ⟨a, b⟩ := ih (n / 2) (by omega) (by omega)
      rw [pow_succ] at b ⊢
      constructor <;> omega

theorem nat_log2_spec (n : ℕ) (h0 : n ≠ 0) :
    2 ^ nat_log2 n ≤ n ∧ n < 2 ^ (nat_log2 n + 1) :=
  log2_steps_spec n n le_rfl h0

theorem ilog2_spec (x : ℚ) (hx : x ≠ 0) :
    (2 : ℚ) ^ ilog2 x ≤ |x| ∧ |x| < (2 : ℚ) ^ (ilog2 x + 1) := by
  have hn : x.num.natAbs ≠ 0 := by
    simpa [Int.natAbs_eq_zero] using hx
  have hd : x.den ≠ 0 := x.den_nz
  have hn1 : (2 : ℚ) ^ (nat_log2 x.num.natAbs) ≤ (x.num.natAbs : ℚ) := by
    exact_mod_cast (nat_log2_spec _ hn).1
  have hn2 : (x.num.natAbs : ℚ) < (2 : ℚ) ^ (nat_log2 x.num.natAbs + 1) := by
    exact_mod_cast (nat_log2_spec _ hn).2
  have hd1 : (2 : ℚ) ^ (nat_log2 x.den) ≤ (x.den : ℚ) := by
    exact_mod_cast (nat_log2_spec _ hd).1
  have hd2 : (x.den : ℚ) < (2 : ℚ) ^ (nat_log2 x.den + 1) := by
    exact_mod_cast (nat_log2_spec _ hd).2
  have hdpos : (0 : ℚ) < (x.den : ℚ) := by exact_mod_cast x.den_pos
  have h2 : (0 : ℚ) < 2 := by norm_num
  have habs := abs_eq_natAbs_div_den x
  -- bounds in terms of the difference of logarithms
  have hlow : (2 : ℚ) ^ ((nat_log2 x.num.natAbs : ℤ) - (nat_log2 x.den : ℤ) - 1) ≤ |x| := by
    rw [habs, le_div_iff₀ hdpos]
    have e : (2 : ℚ) ^ ((nat_log2 x.num.natAbs : ℤ) - (nat_log2 x.den : ℤ) - 1)
        * (2 : ℚ) ^ (nat_log2 x.den + 1) = (2 : ℚ) ^ (nat_log2 x.num.natAbs) := by
      rw [← zpow_natCast (2 : ℚ) (nat_log2 x.den + 1), ← zpow_add₀ (by norm_num : (2 : ℚ) ≠ 0),
        ← zpow_natCast]
      congr 1
      push_cast
      ring
    calc (2 : ℚ) ^ ((nat_log2 x.num.natAbs : ℤ) - (nat_log2 x.den : ℤ) - 1) * (x.den : ℚ)
        ≤ (2 : ℚ) ^ ((nat_log2 x.num.natAbs : ℤ) - (nat_log2 x.den : ℤ) - 1)
          * (2 : ℚ) ^ (nat_log2 x.den + 1) :=
          mul_le_mul_of_nonneg_left hd2.le (zpow_nonneg h2.le _)
      _ = (2 : ℚ) ^ (nat_log2 x.num.natAbs) := e
      _ ≤ _ := hn1
  have hhigh : |x| < (2 : ℚ) ^ ((nat_log2 x.num.natAbs : ℤ) - (nat_log2 x.den : ℤ) + 1) := by
    rw [habs, div_lt_iff₀ hdpos]
    have e : (2 : ℚ) ^ ((nat_log2 x.num.natAbs : ℤ) - (nat_log2 x.den : ℤ) + 1)
        * (2 : ℚ) ^ (nat_log2 x.den) = (2 : ℚ) ^ (nat_log2 x.num.natAbs + 1) := by
      rw [← zpow_natCast (2 : ℚ) (nat_log2 x.den), ← zpow_add₀ (by norm_num : (2 : ℚ) ≠ 0),
        ← zpow_natCast]
      congr 1
      push_cast
      ring
    calc (x.num.natAbs : ℚ) < (2 : ℚ) ^ (nat_log2 x.num.natAbs + 1) := hn2
      _ = (2 : ℚ) ^ ((nat_log2 x.num.natAbs : ℤ) - (nat_log2 x.den : ℤ) + 1)
          * (2 : ℚ) ^ (nat_log2 x.den) := e.symm
      _ ≤ _ := mul_le_mul_of_nonneg_left hd1 (zpow_nonneg h2.le _)
  unfold ilog2
  simp only
  split_ifs with hc
  · exact ⟨hc, hhigh⟩
  · refine ⟨hlow, ?_⟩
    have : (nat_log2 x.num.natAbs : ℤ) - (nat_log2 x.den : ℤ) - 1 + 1
        = (nat_log2 x.num.natAbs : ℤ) - (nat_log2 x.den : ℤ) := by ring
    rw [this]
    exact lt_of_not_le hc

theorem round_half_even_err (y : ℚ) : |(round_half_even y : ℚ) - y| ≤ 1 / 2 := by
  have h1 : (⌊y⌋ : ℚ) ≤ y := Int.floor_le y
  have h2 : y < (⌊y⌋ : ℚ) + 1 := Int.lt_floor_add_one y
  unfold round_half_even
  split_ifs with ha hb hc
  · rw [abs_le]; constructor <;> linarith
  · rw [abs_le]; push_cast; constructor <;> linarith
  · rw [abs_le]; constructor <;> linarith
  · rw [abs_le]; push_cast; constructor <;> linarith

theorem round_half_even_intCast (n : ℤ) : round_half_even (n : ℚ) = n := by
  unfold round_half_even
  simp

/-- The rounding error is at most half a unit in the last place. -/
theorem round_to_err (p : ℕ) (emin : ℤ) (x : ℚ) (hx : x ≠ 0) :
    |round_to p emin x - x| ≤ (2 : ℚ) ^ max (ilog2 x - ((p : ℤ) - 1)) emin / 2 := by
  have hpos : (0 : ℚ) < (2 : ℚ) ^ max (ilog2 x - ((p : ℤ) - 1)) emin :=
    zpow_pos (by norm_num) _
  have e : round_to p emin x - x
      = ((round_half_even (x / (2 : ℚ) ^ max (ilog2 x - ((p : ℤ) - 1)) emin) : ℚ)
          - x / (2 : ℚ) ^ max (ilog2 x - ((p : ℤ) - 1)) emin)
        * (2 : ℚ) ^ max (ilog2 x - ((p : ℤ) - 1)) emin := by
    unfold round_to
    rw [if_neg hx]
    field_simp
  rw [e, abs_mul, abs_of_pos hpos]
  have := round_half_even_err (x / (2 : ℚ) ^ max (ilog2 x - ((p : ℤ) - 1)) emin)
  calc _ ≤ 1 / 2 * (2 : ℚ) ^ max (ilog2 x - ((p : ℤ) - 1)) emin :=
        mul_le_mul_of_nonneg_right this hpos.le
    _ = _ := by ring

/-- In the normal range the relative rounding error is at most `2 ^ (-p)`. -/
theorem round_to_rel_err (p : ℕ) (emin : ℤ) (x : ℚ)
    (hnorm : (2 : ℚ) ^ (emin + (p : ℤ) - 1) ≤ |x|) :
    |round_to p emin x - x| ≤ |x| / (2 : ℚ) ^ p := by
  have hx : x ≠ 0 := by
    intro h
    rw [h, abs_zero] at hnorm
    exact absurd hnorm (not_le.mpr (zpow_pos (by norm_num) _))
  obtain ⟨hlo, hhi⟩ := ilog2_spec x hx
  have hk : emin + (p : ℤ) - 1 < ilog2 x + 1 :=
    (zpow_lt_zpow_iff_right₀ (by norm_num : (1 : ℚ) < 2)).mp (lt_of_le_of_lt hnorm hhi)
  have hmax : max (ilog2 x - ((p : ℤ) - 1)) emin = ilog2 x - ((p : ℤ) - 1) :=
    max_eq_left (by omega)
  have h := round_to_err p emin x hx
  rw [hmax] at h
  have e : (2 : ℚ) ^ (ilog2 x - ((p : ℤ) - 1)) / 2 = (2 : ℚ) ^ ilog2 x / (2 : ℚ) ^ p := by
    rw [zpow_sub₀ (by norm_num : (2 : ℚ) ≠ 0), zpow_sub₀ (by norm_num : (2 : ℚ) ≠ 0),
      zpow_natCast, zpow_one]
    field_simp
    ring
  rw [e] at h
  exact h.trans (div_le_div_of_nonneg_right hlo (by positivity))

theorem round_to_zero (p : ℕ) (emin : ℤ) : round_to p emin 0 = 0 := by
  simp [round_to]

/-- Integers of fewer than `p` bits are representable: rounding leaves them alone. -/
theorem round_to_intCast (p : ℕ) (emin : ℤ) (n : ℤ) (he : emin ≤ 0)
    (hn : |n| < 2 ^ p) : round_to p emin (n : ℚ) = n := by
  by_cases h0 : n = 0
  · rw [h0, Int.cast_zero, round_to_zero]
  have hx : (n : ℚ) ≠ 0 := by exact_mod_cast h0
  have key : ∀ e : ℤ, e ≤ 0 → (round_half_even ((n : ℚ) / (2 : ℚ) ^ e) : ℚ) * (2 : ℚ) ^ e = n := by
    intro e he0
    obtain ⟨m, rfl⟩ : ∃ m : ℕ, e = -(m : ℤ) := ⟨(-e).toNat, by omega⟩
    have h2 : (n : ℚ) / (2 : ℚ) ^ (-(m : ℤ)) = ((n * 2 ^ m : ℤ) : ℚ) := by
      rw [zpow_neg, zpow_natCast]
      push_cast
      field_simp
    rw [h2, round_half_even_intCast, zpow_neg, zpow_natCast]
    push_cast
    field_simp
  obtain ⟨hlo, -⟩ := ilog2_spec (n : ℚ) hx
  have hlt : (2 : ℚ) ^ ilog2 (n : ℚ) < (2 : ℚ) ^ (p : ℤ) := by
    have : |(n : ℚ)| < (2 : ℚ) ^ p := by exact_mod_cast hn
    rw [zpow_natCast]
    exact lt_of_le_of_lt hlo this
  have hk : ilog2 (n : ℚ) < (p : ℤ) := (zpow_lt_zpow_iff_right₀ (by norm_num : (1 : ℚ) < 2)).mp hlt
  unfold round_to
  rw [if_neg hx]
  exact key _ (max_le (by omega) he)

theorem f32_intCast (n : ℤ) (hn : |n| < 2 ^ 24) : f32 (n : ℚ) = some (n : ℚ) := by
  unfold f32
  rw [round_to_intCast 24 (-149) n (by norm_num) hn, if_pos]
  have h1 : |(n : ℚ)| < (2 : ℚ) ^ 24 := by exact_mod_cast hn
  exact h1.trans (by norm_num)

theorem f32_natCast (n : ℕ) (hn : n < 2 ^ 24) : f32 (n : ℚ) = some (n : ℚ) := by
  have h := f32_intCast (n : ℤ) (by rw [abs_of_nonneg (by positivity)]; exact_mod_cast hn)
  simpa using h

/-- A positive value in the normal range of `float` rounds to a `float` within a
relative error of `2 ^ (-24)`. -/
theorem f32_of_pos (x : ℚ) (h1 : 1 / 2 ^ 100 ≤ x) (h2 : x ≤ 2 ^ 100) :
    f32 x = some (round_to 24 (-149) x) ∧
    x * (1 - 1 / 2 ^ 24) ≤ round_to 24 (-149) x ∧
    round_to 24 (-149) x ≤ x * (1 + 1 / 2 ^ 24) := by
  have hpos : 0 < x := lt_of_lt_of_le (by positivity) h1
  have hnorm : (2 : ℚ) ^ ((-149 : ℤ) + ((24 : ℕ) : ℤ) - 1) ≤ |x| := by
    rw [abs_of_pos hpos]
    refine le_trans ?_ h1
    rw [one_div, ← zpow_natCast, ← zpow_neg]
    exact zpow_le_zpow_right₀ (by norm_num) (by norm_num)
  have h := round_to_rel_err 24 (-149) x hnorm
  rw [abs_of_pos hpos, abs_le] at h
  have hlo : x * (1 - 1 / 2 ^ 24) ≤ round_to 24 (-149) x := by
    have e : x * (1 - 1 / 2 ^ 24) = x - x / 2 ^ 24 := by ring
    rw [e]; linarith [h.1]
  have hhi : round_to 24 (-149) x ≤ x * (1 + 1 / 2 ^ 24) := by
    have e : x * (1 + 1 / 2 ^ 24) = x + x / 2 ^ 24 := by ring
    rw [e]; linarith [h.2]
  refine ⟨?_, hlo, hhi⟩
  unfold f32
  rw [if_pos]
  have hr0 : 0 ≤ round_to 24 (-149) x :=
    le_trans (mul_nonneg hpos.le (by norm_num)) hlo
  rw [abs_of_nonneg hr0]
  calc round_to 24 (-149) x ≤ x * (1 + 1 / 2 ^ 24) := hhi
    _ ≤ 2 ^ 100 * (1 + 1 / 2 ^ 24) := mul_le_mul_of_nonneg_right h2 (by norm_num)
    _ < 2 ^ (128 : ℕ) := by norm_num

theorem f64_of_pos (x : ℚ) (h1 : 1 / 2 ^ 100 ≤ x) (h2 : x ≤ 2 ^ 100) :
    f64 x = some (round_to 53 (-1074) x) ∧
    x * (1 - 1 / 2 ^ 53) ≤ round_to 53 (-1074) x ∧
    round_to 53 (-1074) x ≤ x * (1 + 1 / 2 ^ 53) := by
  have hpos : 0 < x := lt_of_lt_of_le (by positivity) h1
  have hnorm : (2 : ℚ) ^ ((-1074 : ℤ) + ((53 : ℕ) : ℤ) - 1) ≤ |x| := by
    rw [abs_of_pos hpos]
    refine le_trans ?_ h1
    rw [one_div, ← zpow_natCast, ← zpow_neg]
    exact zpow_le_zpow_right₀ (by norm_num) (by norm_num)
  have h := round_to_rel_err 53 (-1074) x hnorm
  rw [abs_of_pos hpos, abs_le] at h
  have hlo : x * (1 - 1 / 2 ^ 53) ≤ round_to 53 (-1074) x := by
    have e : x * (1 - 1 / 2 ^ 53) = x - x / 2 ^ 53 := by ring
    rw [e]; linarith [h.1]
  have hhi : round_to 53 (-1074) x ≤ x * (1 + 1 / 2 ^ 53) := by
    have e : x * (1 + 1 / 2 ^ 53) = x + x / 2 ^ 53 := by ring
    rw [e]; linarith [h.2]
  refine ⟨?_, hlo, hhi⟩
  unfold f64
  rw [if_pos]
  have hr0 : 0 ≤ round_to 53 (-1074) x :=
    le_trans (mul_nonneg hpos.le (by norm_num)) hlo
  rw [abs_of_nonneg hr0]
  calc round_to 53 (-1074) x ≤ x * (1 + 1 / 2 ^ 53) := hhi
    _ ≤ 2 ^ 100 * (1 + 1 / 2 ^ 53) := mul_le_mul_of_nonneg_right h2 (by norm_num)
    _ < 2 ^ (1024 : ℕ) := by norm_num

theorem f32_zero : f32 0 = some 0 := by
  unfold f32
  rw [round_to_zero, if_pos]
  norm_num

/-- A non-negative value below `2 ^ bits` converts to its integral part. -/
theorem to_unsigned_of_nonneg (bits : ℕ) (x : ℚ) (h0 : 0 ≤ x) (h1 : x < 2 ^ bits) :
    to_unsigned bits x = some ⌊x⌋.toNat := by
  have hf0 : 0 ≤ ⌊x⌋ := Int.floor_nonneg.mpr h0
  have hf1 : ⌊x⌋ < 2 ^ bits := by
    rw [Int.floor_lt]
    exact_mod_cast h1
  unfold to_unsigned
  simp only [if_pos h0]
  rw [if_pos ⟨hf0, hf1⟩]

/-! ## Lemmas on the renderer -/

theorem f32_nonneg_bound (x : ℚ) (h0 : x = 0 ∨ 1 / 2 ^ 100 ≤ x) (h2 : x ≤ 2 ^ 100) :
    ∃ r, f32 x = some r ∧ 0 ≤ r ∧ r ≤ x * (1 + 1 / 2 ^ 24) ∧ x * (1 - 1 / 2 ^ 24) ≤ r := by
  rcases h0 with h0 | h0
  · exact ⟨0, by rw [h0, f32_zero], le_rfl, by rw [h0]; norm_num, by rw [h0]; norm_num⟩
  · obtain ⟨ha, hb, hc⟩ := f32_of_pos x h0 h2
    have hpos : 0 < x := lt_of_lt_of_le (by positivity) h0
    exact ⟨_, ha, le_trans (mul_nonneg hpos.le (by norm_num)) hb, hc, hb⟩

/-- The scaling ratio of a header with width and height in `(0, 2000]`. -/
theorem best_scaling_ratio_valid (p_header : bmp_header_t)
    (hw0 : 0 < p_header.img_width) (hw : p_header.img_width ≤ 2000)
    (hh0 : 0 < p_header.img_height) (hh : p_header.img_height ≤ 2000) :
    ∃ best, best_scaling_ratio p_header = some best ∧ 9 / 100 ≤ best ∧ best ≤ 201 ∧
      best * p_header.img_width ≤ 201 ∧ best * p_header.img_height ≤ 201 := by
  have key : ∀ n : ℤ, 0 < n → n ≤ 2000 →
      f32 (n : ℚ) = some (n : ℚ) ∧ ∃ r, f32_div 200 (n : ℚ) = some r ∧ 9 / 100 ≤ r ∧
        r * n ≤ 201 := by
    intro n h0 h1
    have hn0 : (0 : ℚ) < n := by exact_mod_cast h0
    have hn1 : (n : ℚ) ≤ 2000 := by exact_mod_cast h1
    refine ⟨f32_intCast n (by rw [abs_of_pos h0]; omega), ?_⟩
    have hq1 : (1 : ℚ) / 10 ≤ 200 / n := by
      rw [le_div_iff₀ hn0]; linarith
    have hq2 : (200 : ℚ) / n ≤ 200 := by
      rw [div_le_iff₀ hn0]
      have : (1 : ℚ) ≤ n := by exact_mod_cast h0
      nlinarith
    obtain ⟨ha, hb, hc⟩ := f32_of_pos (200 / n) (le_trans (by norm_num) hq1)
      (le_trans hq2 (by norm_num))
    refine ⟨_, by rw [f32_div, if_neg hn0.ne', ha], ?_, ?_⟩
    · refine le_trans ?_ hb
      calc (9 : ℚ) / 100 ≤ 1 / 10 * (1 - 1 / 2 ^ 24) := by norm_num
        _ ≤ 200 / n * (1 - 1 / 2 ^ 24) := mul_le_mul_of_nonneg_right hq1 (by norm_num)
    · calc round_to 24 (-149) (200 / n) * n ≤ 200 / n * (1 + 1 / 2 ^ 24) * n :=
            mul_le_mul_of_nonneg_right hc hn0.le
        _ = 200 * (1 + 1 / 2 ^ 24) := by field_simp; ring
        _ ≤ 201 := by norm_num
  obtain ⟨ew, rw_, erw, hrw1, hrw2⟩ := key _ hw0 hw
  obtain ⟨eh, rh_, erh, hrh1, hrh2⟩ := key _ hh0 hh
  have e200 : f32 ((200 : ℤ) : ℚ) = some 200 := by
    have := f32_intCast 200 (by norm_num)
    simpa using this
  have hw0q : (0 : ℚ) < p_header.img_width := by exact_mod_cast hw0
  have hh0q : (0 : ℚ) < p_header.img_height := by exact_mod_cast hh0
  have hw1q : (1 : ℚ) ≤ p_header.img_width := by exact_mod_cast hw0
  have hbw : (if rw_ < rh_ then rw_ else rh_) * p_header.img_width ≤ 201 := by
    split_ifs with hc
    · exact hrw2
    · exact le_trans (mul_le_mul_of_nonneg_right (not_lt.mp hc) hw0q.le) hrw2
  have hb9 : 9 / 100 ≤ (if rw_ < rh_ then rw_ else rh_) := by
    split_ifs <;> assumption
  refine ⟨if rw_ < rh_ then rw_ else rh_, ?_, hb9, ?_, hbw, ?_⟩
  · simp only [best_scaling_ratio, NEW_MAX_WIDTH, NEW_MAX_HEIGHT, e200, ew, eh, erw, erh,
      Option.bind_eq_bind, Option.some_bind, Option.pure_def]
  · nlinarith
  · split_ifs with hc
    · exact le_trans (mul_le_mul_of_nonneg_right hc.le hh0q.le) hrh2
    · exact hrh2

/-- The scaled size `trunc (n * best)` of a dimension `n` in `(0, 2000]`. -/
theorem scaled_dimension_valid (best : ℚ) (n : ℤ) (hb : 9 / 100 ≤ best)
    (h0 : 0 < n) (h1 : n ≤ 2000) (hbn : best * n ≤ 201) :
    ∃ m : ℕ, (f32 (n : ℚ)).bind (fun a => (f32_mul a best).bind (to_unsigned 16)) = some m ∧
      m ≤ 201 := by
  have hn0 : (1 : ℚ) ≤ n := by exact_mod_cast h0
  have hpos : (9 : ℚ) / 100 ≤ n * best := by nlinarith
  obtain ⟨ha, -, hc⟩ := f32_of_pos (n * best) (le_trans (by norm_num) hpos)
    (by rw [mul_comm]; exact le_trans hbn (by norm_num))
  have hr0 : 0 ≤ round_to 24 (-149) (n * best) := by
    obtain ⟨-, hb', -⟩ := f32_of_pos (n * best) (le_trans (by norm_num) hpos)
      (by rw [mul_comm]; exact le_trans hbn (by norm_num))
    exact le_trans (mul_nonneg (by linarith) (by norm_num)) hb'
  have hr1 : round_to 24 (-149) (n * best) < 202 := by
    have : (n : ℚ) * best * (1 + 1 / 2 ^ 24) ≤ 201 * (1 + 1 / 2 ^ 24) :=
      mul_le_mul_of_nonneg_right (by rw [mul_comm]; exact hbn) (by norm_num)
    have : (201 : ℚ) * (1 + 1 / 2 ^ 24) < 202 := by norm_num
    linarith
  refine ⟨⌊round_to 24 (-149) (n * best)⌋.toNat, ?_, ?_⟩
  · rw [f32_intCast n (by rw [abs_of_pos h0]; omega), Option.some_bind, f32_mul, ha,
      Option.some_bind]
    exact to_unsigned_of_nonneg 16 _ hr0 (hr1.trans (by norm_num))
  · have hfl : ⌊round_to 24 (-149) (n * best)⌋ < 202 := by
      rw [Int.floor_lt]; exact_mod_cast hr1
    omega

/-- The source coordinate `trunc (a / best)` of a destination index `a ≤ 201`. -/
theorem source_coordinate_valid (best : ℚ) (a : ℤ) (hb : 9 / 100 ≤ best) (hb2 : best ≤ 201)
    (h0 : 0 ≤ a) (h1 : a ≤ 201) :
    ∃ m : ℕ, (f32 (a : ℚ)).bind (fun x => (f32_div x best).bind (to_unsigned 16)) = some m := by
  have hbpos : (0 : ℚ) < best := lt_of_lt_of_le (by norm_num) hb
  have ha0 : (0 : ℚ) ≤ a := by exact_mod_cast h0
  have ha1 : (a : ℚ) ≤ 201 := by exact_mod_cast h1
  have hq : (a : ℚ) / best ≤ 2234 := by
    rw [div_le_iff₀ hbpos]; nlinarith
  have hq0 : (a : ℚ) / best = 0 ∨ 1 / 2 ^ 100 ≤ (a : ℚ) / best := by
    rcases eq_or_lt_of_le h0 with h | h
    · left; rw [← h]; simp
    · right
      have h1a : (1 : ℚ) ≤ a := by exact_mod_cast h
      rw [le_div_iff₀ hbpos]
      have : (1 : ℚ) / 2 ^ 100 * best ≤ 1 / 2 ^ 100 * 201 :=
        mul_le_mul_of_nonneg_left hb2 (by norm_num)
      have : (1 : ℚ) / 2 ^ 100 * 201 ≤ 1 := by norm_num
      linarith
  obtain ⟨r, hr, hr0, hr1, -⟩ := f32_nonneg_bound ((a : ℚ) / best) hq0
    (le_trans hq (by norm_num))
  have hr2 : r < 2 ^ 16 := by
    have : (a : ℚ) / best * (1 + 1 / 2 ^ 24) ≤ 2234 * (1 + 1 / 2 ^ 24) :=
      mul_le_mul_of_nonneg_right hq (by norm_num)
    have : (2234 : ℚ) * (1 + 1 / 2 ^ 24) < 2 ^ 16 := by norm_num
    linarith
  refine ⟨⌊r⌋.toNat, ?_⟩
  rw [f32_intCast a (by rw [abs_of_nonneg h0]; omega), Option.some_bind, f32_div,
    if_neg hbpos.ne', hr, Option.some_bind]
  exact to_unsigned_of_nonneg 16 r hr0 hr2

set_option maxRecDepth 100000 in
/-- The index computed in `double` arithmetic, for every byte value. -/
theorem lut_index_table :
    (List.range 256).map lut_index = (List.range 256).map (fun g => some (g * 9 / 255)) := by
  decide!

theorem lut_index_eq (g : ℕ) (hg : g < 256) : lut_index g = some (g * 9 / 255) :=
  List.map_inj_left.mp lut_index_table g (List.mem_range.mpr hg)

theorem ascii_ramp_lut_no_zero : ∀ c ∈ ascii_ramp_lut, c ≠ Char.ofNat 0 := by
  decide

/-- Every byte value has a glyph, and the glyph is an entry of the ramp. -/
theorem out_char_valid (g : ℕ) (hg : g < 256) :
    ∃ c, out_char g = some c ∧ c ∈ ascii_ramp_lut := by
  have hi : g * 9 / 255 < 10 := by omega
  have hlen : g * 9 / 255 < ascii_ramp_lut.length := by
    simpa [ascii_ramp_lut] using hi
  refine ⟨ascii_ramp_lut.get ⟨g * 9 / 255, hlen⟩, ?_, List.get_mem _ _ _⟩
  simp only [out_char, lut_index_eq g hg, Option.bind_eq_bind, Option.some_bind]
  exact List.get?_eq_get hlen

theorem greyscale_value_lt (img : block) (src : ℕ) : greyscale_value img src < 256 :=
  Nat.mod_lt _ (by norm_num)

theorem for_each_eq_some {α : Type} (l : List ℕ) (body : ℕ → Option α) (g : ℕ → α)
    (h : ∀ i ∈ l, body i = some (g i)) : for_each l body = some (l.map g) := by
  induction l with
  | nil => rfl
  | cons i is ih =>
    have h1 := h i (List.mem_cons_self _ _)
    have h2 := ih (fun j hj => h j (List.mem_cons_of_mem _ hj))
    simp only [for_each, h1, h2, Option.map_some', List.map_cons]

theorem for_each_exists {α : Type} (l : List ℕ) (body : ℕ → Option α) (P : α → Prop)
    (h : ∀ i ∈ l, ∃ a, body i = some a ∧ P a) :
    ∃ as, for_each l body = some as ∧ as.length = l.length ∧ ∀ a ∈ as, P a := by
  induction l with
  | nil => exact ⟨[], rfl, rfl, by simp⟩
  | cons i is ih =>
    obtain ⟨a, ha, hPa⟩ := h i (List.mem_cons_self _ _)
    obtain ⟨as, has, hlen, hP⟩ := ih (fun j hj => h j (List.mem_cons_of_mem _ hj))
    refine ⟨a :: as, ?_, by simp [hlen], ?_⟩
    · simp only [for_each, ha, has, Option.map_some']
    · intro b hb
      rcases List.mem_cons.mp hb with rfl | hb
      · exact hPa
      · exact hP b hb

/-- Keeping the rows with `i & 1` set keeps rows `1, 3, 5, ...`, in this order. -/
theorem flatten_odd_rows {α : Type} (t : ℕ → α) (n : ℕ) :
    ((List.range n).map (fun i => if i &&& 1 ≠ 0 then [t i] else [])).flatten
      = (List.range (n / 2)).map (fun k => t (2 * k + 1)) := by
  induction n with
  | zero => rfl
  | succ n ih =>
    rw [List.range_succ, List.map_append, List.flatten_append, ih]
    rcases Nat.even_or_odd n with he | ho
    · have h0 : n % 2 = 0 := Nat.even_iff.mp he
      have h1 : (n + 1) / 2 = n / 2 := by omega
      simp [Nat.and_one_is_mod, h0, h1]
    · have h0 : n % 2 = 1 := Nat.odd_iff.mp ho
      have h1 : (n + 1) / 2 = n / 2 + 1 := by omega
      have h2 : 2 * (n / 2) + 1 = n := by omega
      simp [Nat.and_one_is_mod, h0, h1, List.range_succ, h2]

/-- What `%s` prints of a row buffer whose glyphs come from the ramp. -/
theorem printed_row (glyphs : List Char) (h : ∀ c ∈ glyphs, c ∈ ascii_ramp_lut) :
    printed (glyphs ++ [Char.ofNat 10, Char.ofNat 0]) = glyphs ++ [Char.ofNat 10] := by
  unfold printed
  rw [List.takeWhile_append_of_pos]
  · congr 1
  · intro c hc
    simpa using ascii_ramp_lut_no_zero c (h c hc)

/-- Every destination row of a bottom-up image with a valid scaling ratio is
filled with `new_width` glyphs of the ramp. -/
theorem ascii_row_buff_valid (p_header : bmp_header_t) (img : block) (best : ℚ)
    (new_width new_height i : ℕ) (hh0 : 0 < p_header.img_height)
    (hb : 9 / 100 ≤ best) (hb2 : best ≤ 201) (hnw : new_width ≤ 201) (hnh : new_height ≤ 201)
    (hi : i < new_height) :
    ∃ glyphs, ascii_row_buff out_char p_header img best new_width new_height i
        = some (glyphs ++ [Char.ofNat 10, Char.ofNat 0]) ∧
      glyphs.length = new_width ∧ ∀ c ∈ glyphs, c ∈ ascii_ramp_lut := by
  obtain ⟨y, hy⟩ := source_coordinate_valid best ((new_height : ℤ) - (i : ℤ) - 1) hb hb2
    (by omega) (by omega)
  have hy' : y_new p_header best new_height i = some y := by
    unfold y_new
    rw [if_pos hh0]
    simpa [Option.bind_eq_bind] using hy
  have hpix : ∀ j ∈ List.range new_width, ∃ c,
      pixel_char out_char p_header img best new_height i j = some c ∧ c ∈ ascii_ramp_lut := by
    intro j hj
    have hj' : j < new_width := List.mem_range.mp hj
    obtain ⟨x, hx⟩ := source_coordinate_valid best (j : ℤ) hb hb2 (by omega) (by omega)
    have hx' : x_new best j = some x := by
      unfold x_new
      simpa [Option.bind_eq_bind] using hx
    obtain ⟨c, hc, hmem⟩ := out_char_valid
      (greyscale_value img (src_subpixel_base p_header y x)) (greyscale_value_lt _ _)
    exact ⟨c, by simp only [pixel_char, pixel_grey, hx', hy', Option.bind_eq_bind, Option.some_bind,
      Option.pure_def, hc], hmem⟩
  obtain ⟨glyphs, hg, hlen, hP⟩ := for_each_exists _ _ _ hpix
  refine ⟨glyphs, ?_, by simpa using hlen, hP⟩
  unfold ascii_row_buff
  simp only [hg, Option.bind_eq_bind, Option.some_bind, Option.pure_def]

theorem img_new_width_valid (p_header : bmp_header_t) (best : ℚ)
    (hbest : best_scaling_ratio p_header = some best) (hb : 9 / 100 ≤ best)
    (hw0 : 0 < p_header.img_width) (hw : p_header.img_width ≤ 2000)
    (hbw : best * p_header.img_width ≤ 201) :
    ∃ m, img_new_width p_header = some m ∧ m ≤ 201 := by
  obtain ⟨m, hm, hle⟩ := scaled_dimension_valid best _ hb hw0 hw hbw
  exact ⟨m, by simpa only [img_new_width, hbest, Option.bind_eq_bind, Option.some_bind] using hm,
    hle⟩

theorem img_new_height_valid (p_header : bmp_header_t) (best : ℚ)
    (hbest : best_scaling_ratio p_header = some best) (hb : 9 / 100 ≤ best)
    (hh0 : 0 < p_header.img_height) (hh : p_header.img_height ≤ 2000)
    (hbh : best * p_header.img_height ≤ 201) :
    ∃ m, img_new_height p_header = some m ∧ m ≤ 201 := by
  obtain ⟨m, hm, hle⟩ := scaled_dimension_valid best _ hb hh0 hh hbh
  refine ⟨m, ?_, hle⟩
  simp only [img_new_height, hbest, Option.bind_eq_bind, Option.some_bind, abs_of_pos hh0]
  exact hm

/-- The renderer with the `return out_char;` that `get_char_for_greyscale` lacks
supplied: for every 24-bit uncompressed header with width and height in
`(0, 2000]` and a file that holds the whole pixel array, it (both allocations
having succeeded) produces a result; it writes exactly `new_height / 2` lines,
line `k` being the printed text of destination row `2 * k + 1`, and every line
is `new_width` characters of the ramp followed by one newline. -/
theorem rendered_lines (mem : block) (p_bmp : FILE) (p_header : bmp_header_t)
    (_hbpp : p_header.bits_per_pixel = 24) (_hcomp : p_header.compression_type = 0)
    (hw0 : 0 < p_header.img_width) (hw : p_header.img_width ≤ 2000)
    (hh0 : 0 < p_header.img_height) (hh : p_header.img_height ≤ 2000)
    (_hbuf : p_header.img_data_offset + img_data_bytes_with_padding p_header
      ≤ p_bmp.data.length) :
    ∃ best new_width new_height lines,
      best_scaling_ratio p_header = some best ∧
      img_new_width p_header = some new_width ∧
      img_new_height p_header = some new_height ∧
      image_to_ascii_with out_char true mem p_bmp p_header = some lines ∧
      lines.length = new_height / 2 ∧
      (∀ k, k < new_height / 2 → ∃ buff,
        ascii_row_buff out_char p_header
          (fread mem 0 (img_data_bytes_with_padding p_header)
            (fseek p_bmp p_header.img_data_offset)).1
          best new_width new_height (2 * k + 1) = some buff ∧
        lines.get? k = some (printed buff)) ∧
      ∀ line ∈ lines, ∃ glyphs, line = glyphs ++ [Char.ofNat 10] ∧
        glyphs.length = new_width ∧ ∀ c ∈ glyphs, c ∈ ascii_ramp_lut := by
  obtain ⟨best, hbest, hb, hb2, hbw, hbh⟩ := best_scaling_ratio_valid p_header hw0 hw hh0 hh
  obtain ⟨nw, hnw, hnw201⟩ := img_new_width_valid p_header best hbest hb hw0 hw hbw
  obtain ⟨nh, hnh, hnh201⟩ := img_new_height_valid p_header best hbest hb hh0 hh hbh
  generalize himg : (fread mem 0 (img_data_bytes_with_padding p_header)
    (fseek p_bmp p_header.img_data_offset)).1 = img
  have hrow := fun i (hi : i < nh) =>
    ascii_row_buff_valid p_header img best nw nh i hh0 hb hb2 hnw201 hnh201 hi
  -- the row buffers, as a function of the row index
  obtain ⟨rowf, hrowf⟩ : ∃ rowf : ℕ → List Char,
      rowf = fun i => (ascii_row_buff out_char p_header img best nw nh i).getD [] := ⟨_, rfl⟩
  have hsome : ∀ i, i < nh → ascii_row_buff out_char p_header img best nw nh i = some (rowf i) := by
    intro i hi
    obtain ⟨glyphs, hg, -, -⟩ := hrow i hi
    rw [hrowf]
    simp only [hg, Option.getD_some]
  have hemit : ∀ i ∈ List.range nh, emit_row out_char p_header img best nw nh i
      = some (if i &&& 1 ≠ 0 then [printed (rowf i)] else []) := by
    intro i hi
    simp only [emit_row, hsome i (List.mem_range.mp hi), Option.bind_eq_bind, Option.some_bind,
      Option.pure_def]
  have hloop := for_each_eq_some _ _ _ hemit
  have hlines : image_to_ascii_with out_char true mem p_bmp p_header
      = some ((List.range (nh / 2)).map (fun k => printed (rowf (2 * k + 1)))) := by
    simp only [image_to_ascii_with, hbest, hnw, hnh, himg, Option.bind_eq_bind, Option.some_bind,
      if_true, hloop, Option.pure_def]
    rw [flatten_odd_rows (fun i => printed (rowf i))]
  refine ⟨best, nw, nh, _, hbest, hnw, hnh, hlines, by simp, ?_, ?_⟩
  · intro k hk
    refine ⟨rowf (2 * k + 1), hsome _ (by omega), ?_⟩
    rw [List.get?_eq_getElem?, List.getElem?_map, List.getElem?_range hk]
    rfl
  · intro line hline
    obtain ⟨k, hk, rfl⟩ := List.mem_map.mp hline
    have hk' : k < nh / 2 := List.mem_range.mp hk
    obtain ⟨glyphs, hg, hlen, hP⟩ := hrow (2 * k + 1) (by omega)
    have e : rowf (2 * k + 1) = glyphs ++ [Char.ofNat 10, Char.ofNat 0] := by
      have := hsome (2 * k + 1) (by omega)
      rw [hg] at this
      exact (Option.some.inj this).symm
    exact ⟨glyphs, by rw [e, printed_row glyphs hP], hlen, hP⟩

/-! ## The all-white 4x4 image -/

theorem y_new_bottom_up (p_header : bmp_header_t) (best : ℚ) (new_height i : ℕ)
    (hh0 : 0 < p_header.img_height) (hi : i < new_height) :
    y_new p_header best new_height i = x_new best (new_height - i - 1) := by
  have e : ((new_height : ℚ) - (i : ℚ) - 1) = ((new_height - i - 1 : ℕ) : ℚ) := by
    have h1 : i + 1 ≤ new_height := hi
    rw [Nat.sub_sub, Nat.cast_sub h1]
    push_cast
    ring
  unfold y_new x_new
  rw [if_pos hh0]
  simp only [Int.cast_sub, Int.cast_natCast, Int.cast_one, e]

set_option maxRecDepth 100000 in
/-- At scale 50 destination column `j < 200` reads source column `j / 50`. -/
theorem x_new_50_table :
    (List.range 200).map (x_new 50) = (List.range 200).map (fun j => some (j / 50)) := by
  decide!

theorem x_new_50 (j : ℕ) (hj : j < 200) : x_new 50 j = some (j / 50) :=
  List.map_inj_left.mp x_new_50_table j (List.mem_range.mpr hj)

theorem out_char_255 : out_char 255 = some ' ' := by
  simp only [out_char, lut_index_eq 255 (by norm_num), Option.bind_eq_bind,
    Option.some_bind]
  rfl

/-- The renderer with the `return out_char;` that `get_char_for_greyscale` lacks
supplied, on a 4x4, 24-bit, uncompressed, bottom-up BMP whose 48 pixel bytes
are all 255: it uses the scaling ratio 50 and the new size 200x200, and writes
exactly 100 lines, each made of 200 blanks (the last entry of the ramp) and the
newline. -/
theorem rendered_white_4x4 (mem : block) (p_bmp : FILE) (p_header : bmp_header_t)
    (hw : p_header.img_width = 4) (hh : p_header.img_height = 4)
    (hbpp : p_header.bits_per_pixel = 24) (_hcomp : p_header.compression_type = 0)
    (hpix : ∀ k, k < 48 → p_bmp.data.get? (p_header.img_data_offset + k) = some 255) :
    best_scaling_ratio p_header = some 50 ∧
    img_new_width p_header = some 200 ∧
    img_new_height p_header = some 200 ∧
    image_to_ascii_with out_char true mem p_bmp p_header
      = some (List.replicate 100 (List.replicate 200 ' ' ++ [Char.ofNat 10])) ∧
    ascii_ramp_lut.getLast? = some ' ' := by
  have hbest : best_scaling_ratio p_header = some 50 := by
    unfold best_scaling_ratio
    rw [hw, hh]
    decide!
  have hnw : img_new_width p_header = some 200 := by
    unfold img_new_width
    rw [hbest, hw]
    decide!
  have hnh : img_new_height p_header = some 200 := by
    unfold img_new_height
    rw [hbest, hh]
    decide!
  have hh0 : 0 < p_header.img_height := by rw [hh]; norm_num
  have hstride : img_row_bytes_with_padding p_header = 12 := by
    unfold img_row_bytes_with_padding img_row_bytes
    rw [hw, hbpp]
    decide
  have hsize : img_data_bytes_with_padding p_header = 48 := by
    unfold img_data_bytes_with_padding
    rw [hstride, hh]
    decide
  generalize himg : (fread mem 0 (img_data_bytes_with_padding p_header)
    (fseek p_bmp p_header.img_data_offset)).1 = img
  have hlen : p_header.img_data_offset + 48 ≤ p_bmp.data.length := by
    have h47 := hpix 47 (by norm_num)
    rw [List.get?_eq_some] at h47
    obtain ⟨hlt, -⟩ := h47
    omega
  have hwhite : ∀ k, k < 48 → img k = 255 := by
    intro k hk
    rw [← himg, hsize, fread_read _ _ _ _ _ (Nat.zero_le _) (by simp only [fseek]; omega)]
    have := hpix k hk
    simp only [fseek, Nat.sub_zero]
    rw [List.getD_eq_getElem?_getD, ← List.get?_eq_getElem?, this]
    rfl
  have hpixel : ∀ i, i < 200 → ∀ j, j < 200 → pixel_char out_char p_header img 50 200 i j = some ' ' := by
    intro i hi j hj
    have hx := x_new_50 j hj
    have hy : y_new p_header 50 200 i = some ((200 - i - 1) / 50) := by
      rw [y_new_bottom_up p_header 50 200 i hh0 hi]
      exact x_new_50 _ (by omega)
    have hy3 : (200 - i - 1) / 50 ≤ 3 := by omega
    have hx3 : j / 50 ≤ 3 := by omega
    have hsrc : src_subpixel_base p_header ((200 - i - 1) / 50) (j / 50) < 46 := by
      unfold src_subpixel_base
      rw [hstride]
      exact lt_of_le_of_lt (Nat.mod_le _ _) (by omega)
    have hgrey : greyscale_value img (src_subpixel_base p_header ((200 - i - 1) / 50) (j / 50))
        = 255 := by
      unfold greyscale_value
      rw [Nat.mod_eq_of_lt (by omega : _ + 1 < 2 ^ 32), Nat.mod_eq_of_lt (by omega : _ + 2 < 2 ^ 32),
        hwhite _ (by omega), hwhite _ (by omega), hwhite _ (by omega)]
      rfl
    simp only [pixel_char, pixel_grey, hx, hy, Option.bind_eq_bind, Option.some_bind,
      Option.pure_def, hgrey,
      out_char_255]
  have hrow : ∀ i, i < 200 → ascii_row_buff out_char p_header img 50 200 200 i
      = some (List.replicate 200 ' ' ++ [Char.ofNat 10, Char.ofNat 0]) := by
    intro i hi
    have := for_each_eq_some (List.range 200) (pixel_char out_char p_header img 50 200 i) (fun _ => ' ')
      (fun j hj => hpixel i hi j (List.mem_range.mp hj))
    simp only [ascii_row_buff, this, Option.bind_eq_bind, Option.some_bind, Option.pure_def]
    rw [List.map_const', List.length_range]
  have hprinted : printed (List.replicate 200 ' ' ++ [Char.ofNat 10, Char.ofNat 0])
      = List.replicate 200 ' ' ++ [Char.ofNat 10] :=
    printed_row _ (fun c hc => by
      rw [List.eq_of_mem_replicate hc]
      decide)
  have hemit : ∀ i ∈ List.range 200, emit_row out_char p_header img 50 200 200 i
      = some (if i &&& 1 ≠ 0 then [(fun _ => List.replicate 200 ' ' ++ [Char.ofNat 10]) i]
          else []) := by
    intro i hi
    simp only [emit_row, hrow i (List.mem_range.mp hi), Option.bind_eq_bind, Option.some_bind,
      Option.pure_def, hprinted]
  have hloop := for_each_eq_some _ _ _ hemit
  refine ⟨hbest, hnw, hnh, ?_, by decide⟩
  simp only [image_to_ascii_with, hbest, hnw, hnh, himg, Option.bind_eq_bind, Option.some_bind,
    if_true, hloop, Option.pure_def]
  rw [flatten_odd_rows (fun _ => List.replicate 200 ' ' ++ [Char.ofNat 10]), List.map_const',
    List.length_range]

/-! ## Rounding never crosses an integer -/

theorem floor_le_round_half_even (y : ℚ) : ⌊y⌋ ≤ round_half_even y := by
  unfold round_half_even
  split_ifs <;> omega

theorem round_half_even_le_ceil (y : ℚ) : round_half_even y ≤ ⌈y⌉ := by
  have hfc : ⌊y⌋ ≤ ⌈y⌉ := Int.floor_le_ceil y
  have hstep : (⌊y⌋ : ℚ) < y → ⌊y⌋ + 1 ≤ ⌈y⌉ := fun h => Int.lt_ceil.mpr h
  unfold round_half_even
  split_ifs with h1 h2 h3
  · exact hfc
  · exact hstep (by linarith)
  · exact hfc
  · exact hstep (by linarith)

/-- A value of magnitude below `2 ^ p` is rounded to a value on the same side of
every integer. -/
theorem round_to_int_bounds (p : ℕ) (emin : ℤ) (x : ℚ) (n : ℤ) (he : emin ≤ 0)
    (hx : |x| < (2 : ℚ) ^ p) :
    ((n : ℚ) ≤ x → (n : ℚ) ≤ round_to p emin x) ∧ (x ≤ n → round_to p emin x ≤ n) := by
  by_cases h0 : x = 0
  · rw [h0, round_to_zero]
    exact ⟨id, id⟩
  obtain ⟨hlo, -⟩ := ilog2_spec x h0
  have hlt : (2 : ℚ) ^ ilog2 x < (2 : ℚ) ^ (p : ℤ) := by
    rw [zpow_natCast]
    exact lt_of_le_of_lt hlo hx
  have hk : ilog2 x < (p : ℤ) := (zpow_lt_zpow_iff_right₀ (by norm_num : (1 : ℚ) < 2)).mp hlt
  have he0 : max (ilog2 x - ((p : ℤ) - 1)) emin ≤ 0 := max_le (by omega) he
  have key : ∀ e : ℤ, e ≤ 0 →
      ((n : ℚ) ≤ x → (n : ℚ) ≤ (round_half_even (x / (2 : ℚ) ^ e) : ℚ) * (2 : ℚ) ^ e) ∧
      (x ≤ n → (round_half_even (x / (2 : ℚ) ^ e) : ℚ) * (2 : ℚ) ^ e ≤ n) := by
    intro e he0
    obtain ⟨m, rfl⟩ : ∃ m : ℕ, e = -(m : ℤ) := ⟨(-e).toNat, by omega⟩
    have hpow : (0 : ℚ) < (2 : ℚ) ^ m := by positivity
    have hdiv : x / (2 : ℚ) ^ (-(m : ℤ)) = x * (2 : ℚ) ^ m := by
      rw [zpow_neg, zpow_natCast]
      field_simp
    have hmul : ∀ r : ℚ, r * (2 : ℚ) ^ (-(m : ℤ)) = r / (2 : ℚ) ^ m := by
      intro r
      rw [zpow_neg, zpow_natCast]
      field_simp
    rw [hdiv, hmul]
    constructor
    · intro hnx
      rw [le_div_iff₀ hpow]
      have h1 : ((n * 2 ^ m : ℤ) : ℚ) ≤ x * (2 : ℚ) ^ m := by
        push_cast
        exact mul_le_mul_of_nonneg_right hnx hpow.le
      have h2 : n * 2 ^ m ≤ round_half_even (x * (2 : ℚ) ^ m) :=
        le_trans (Int.le_floor.mpr h1) (floor_le_round_half_even _)
      have h3 : ((n * 2 ^ m : ℤ) : ℚ) ≤ (round_half_even (x * (2 : ℚ) ^ m) : ℚ) := by
        exact_mod_cast h2
      push_cast at h3
      exact h3
    · intro hxn
      rw [div_le_iff₀ hpow]
      have h1 : x * (2 : ℚ) ^ m ≤ ((n * 2 ^ m : ℤ) : ℚ) := by
        push_cast
        exact mul_le_mul_of_nonneg_right hxn hpow.le
      have h2 : round_half_even (x * (2 : ℚ) ^ m) ≤ n * 2 ^ m :=
        le_trans (round_half_even_le_ceil _) (Int.ceil_le.mpr h1)
      have h3 : (round_half_even (x * (2 : ℚ) ^ m) : ℚ) ≤ ((n * 2 ^ m : ℤ) : ℚ) := by
        exact_mod_cast h2
      push_cast at h3
      exact h3
  unfold round_to
  rw [if_neg h0]
  exact key _ he0

/-- Truncating the `float` nearest to a non-negative `x` below `2 ^ 16` gives the
floor or the ceiling of `x`. -/
theorem floor_round_bounds (x : ℚ) (h0 : 0 ≤ x) (h1 : x < 2 ^ 16) :
    0 ≤ round_to 24 (-149) x ∧ round_to 24 (-149) x ≤ 2 ^ 16 ∧
    ⌊x⌋ ≤ ⌊round_to 24 (-149) x⌋ ∧ ⌊round_to 24 (-149) x⌋ ≤ ⌈x⌉ := by
  have hx : |x| < (2 : ℚ) ^ 24 := by
    rw [abs_of_nonneg h0]
    exact h1.trans (by norm_num)
  have hb := fun n => round_to_int_bounds 24 (-149) x n (by norm_num) hx
  refine ⟨?_, ?_, ?_, ?_⟩
  · have := (hb 0).1 (by simpa using h0)
    simpa using this
  · have := (hb (2 ^ 16)).2 (by push_cast; exact h1.le)
    simpa using this
  · exact Int.le_floor.mpr ((hb ⌊x⌋).1 (Int.floor_le x))
  · have h2 : round_to 24 (-149) x ≤ (⌈x⌉ : ℚ) := (hb ⌈x⌉).2 (Int.le_ceil x)
    have h3 : (⌊round_to 24 (-149) x⌋ : ℚ) ≤ (⌈x⌉ : ℚ) := le_trans (Int.floor_le _) h2
    exact_mod_cast h3

/-! ## The scaling ratio and the new size -/

theorem ite_lt_eq_min (a b : ℚ) : (if a < b then a else b) = min a b := by
  rcases lt_or_le a b with h | h
  · rw [if_pos h, min_eq_left h.le]
  · rw [if_neg (not_lt.mpr h), min_eq_right h]

/-- The ratio `200 / (float)n` for a dimension `n` that `float` holds exactly. -/
theorem ratio_of_pos (n : ℤ) (h0 : 0 < n) (h1 : n < 2 ^ 24) :
    f32 (n : ℚ) = some (n : ℚ) ∧
    f32_div 200 (n : ℚ) = some (round_to 24 (-149) (200 / n)) ∧
    200 / (n : ℚ) * (1 - 1 / 2 ^ 24) ≤ round_to 24 (-149) (200 / n) ∧
    round_to 24 (-149) (200 / n) ≤ 200 / (n : ℚ) * (1 + 1 / 2 ^ 24) := by
  have hn0 : (0 : ℚ) < n := by exact_mod_cast h0
  have hn1 : (n : ℚ) ≤ 2 ^ 24 := by exact_mod_cast h1.le
  have hn2 : (1 : ℚ) ≤ n := by exact_mod_cast h0
  have hq1 : (1 : ℚ) / 2 ^ 100 ≤ 200 / n := by
    rw [le_div_iff₀ hn0]
    calc (1 : ℚ) / 2 ^ 100 * n ≤ 1 / 2 ^ 100 * 2 ^ 24 :=
          mul_le_mul_of_nonneg_left hn1 (by norm_num)
      _ ≤ 200 := by norm_num
  have hq2 : (200 : ℚ) / n ≤ 2 ^ 100 := by
    rw [div_le_iff₀ hn0]
    calc (200 : ℚ) ≤ 2 ^ 100 * 1 := by norm_num
      _ ≤ 2 ^ 100 * n := mul_le_mul_of_nonneg_left hn2 (by norm_num)
  obtain ⟨ha, hb, hc⟩ := f32_of_pos (200 / n) hq1 hq2
  exact ⟨f32_intCast n (by rw [abs_of_pos h0]; exact h1),
    by rw [f32_div, if_neg hn0.ne', ha], hb, hc⟩

/-- The scaling ratio of a header whose width and height are positive and below
`2 ^ 24`: the smaller of the two rounded quotients, within a relative error of
`2 ^ (-24)` of the specification's scale. -/
theorem best_scaling_ratio_spec (p_header : bmp_header_t)
    (hw0 : 0 < p_header.img_width) (hw : p_header.img_width < 2 ^ 24)
    (hh0 : 0 < p_header.img_height) (hh : p_header.img_height < 2 ^ 24) :
    best_scaling_ratio p_header
      = some (min (round_to 24 (-149) (200 / p_header.img_width))
          (round_to 24 (-149) (200 / p_header.img_height))) ∧
    exact_scale p_header.img_width p_header.img_height * (1 - 1 / 2 ^ 24)
      ≤ min (round_to 24 (-149) (200 / p_header.img_width))
          (round_to 24 (-149) (200 / p_header.img_height)) ∧
    min (round_to 24 (-149) (200 / p_header.img_width))
        (round_to 24 (-149) (200 / p_header.img_height))
      ≤ exact_scale p_header.img_width p_header.img_height * (1 + 1 / 2 ^ 24) := by
  obtain ⟨ew, erw, hw1, hw2⟩ := ratio_of_pos _ hw0 hw
  obtain ⟨eh, erh, hh1, hh2⟩ := ratio_of_pos _ hh0 hh
  have e200 : f32 ((200 : ℤ) : ℚ) = some 200 := by
    have := f32_intCast 200 (by norm_num)
    simpa using this
  have habs : ((|p_header.img_height| : ℤ) : ℚ) = p_header.img_height := by
    rw [abs_of_pos hh0]
  refine ⟨?_, ?_, ?_⟩
  · simp only [best_scaling_ratio, NEW_MAX_WIDTH, NEW_MAX_HEIGHT, e200, ew, eh, erw, erh,
      Option.bind_eq_bind, Option.some_bind, Option.pure_def, ite_lt_eq_min]
  · unfold exact_scale
    rw [habs, le_min_iff]
    constructor
    · exact le_trans (mul_le_mul_of_nonneg_right (min_le_left _ _) (by norm_num)) hw1
    · exact le_trans (mul_le_mul_of_nonneg_right (min_le_right _ _) (by norm_num)) hh1
  · unfold exact_scale
    rw [habs]
    rcases le_total (200 / (p_header.img_width : ℚ)) (200 / (p_header.img_height : ℚ)) with h | h
    · rw [min_eq_left h]
      exact le_trans (min_le_left _ _) hw2
    · rw [min_eq_right h]
      exact le_trans (min_le_right _ _) hh2

/-- The new size `trunc (n * best)` of a dimension `n`: the floor of the rounded
product, which is the floor or the ceiling of the exact product and at most 200. -/
theorem scaled_dimension_spec (best : ℚ) (n : ℤ) (hb : 1 / 2 ^ 20 ≤ best)
    (h0 : 0 < n) (h1 : n < 2 ^ 24) (hbn : best * n ≤ 200 * (1 + 1 / 2 ^ 24)) :
    (f32 (n : ℚ)).bind (fun a => (f32_mul a best).bind (to_unsigned 16))
      = some ⌊round_to 24 (-149) (n * best)⌋.toNat ∧
    0 ≤ ⌊round_to 24 (-149) (n * best)⌋ ∧
    ⌊(n : ℚ) * best⌋ ≤ ⌊round_to 24 (-149) (n * best)⌋ ∧
    ⌊round_to 24 (-149) (n * best)⌋ ≤ ⌈(n : ℚ) * best⌉ ∧
    ⌊round_to 24 (-149) (n * best)⌋ ≤ 200 ∧
    round_to 24 (-149) (n * best) ≤ n * best * (1 + 1 / 2 ^ 24) := by
  have hn0 : (1 : ℚ) ≤ n := by exact_mod_cast h0
  have hbpos : (0 : ℚ) < best := lt_of_lt_of_le (by norm_num) hb
  have hx0 : (1 : ℚ) / 2 ^ 100 ≤ n * best := by
    calc (1 : ℚ) / 2 ^ 100 ≤ 1 * (1 / 2 ^ 20) := by norm_num
      _ ≤ n * best := mul_le_mul hn0 hb (by norm_num) (by linarith)
  have hx1 : (n : ℚ) * best ≤ 200 * (1 + 1 / 2 ^ 24) := by rw [mul_comm]; exact hbn
  obtain ⟨ha, -, hc⟩ := f32_of_pos (n * best) hx0 (le_trans hx1 (by norm_num))
  obtain ⟨hr0, -, hfl, hcl⟩ := floor_round_bounds (n * best) (le_trans (by norm_num) hx0)
    (lt_of_le_of_lt hx1 (by norm_num))
  have hr1 : round_to 24 (-149) (n * best) < 201 := by
    have h2 : (n : ℚ) * best * (1 + 1 / 2 ^ 24) ≤ 200 * (1 + 1 / 2 ^ 24) * (1 + 1 / 2 ^ 24) :=
      mul_le_mul_of_nonneg_right hx1 (by norm_num)
    have h3 : (200 : ℚ) * (1 + 1 / 2 ^ 24) * (1 + 1 / 2 ^ 24) < 201 := by norm_num
    linarith
  have hfl0 : 0 ≤ ⌊round_to 24 (-149) (n * best)⌋ := Int.floor_nonneg.mpr hr0
  refine ⟨?_, hfl0, hfl, hcl, ?_, hc⟩
  · rw [f32_intCast n (by rw [abs_of_pos h0]; exact h1), Option.some_bind, f32_mul, ha,
      Option.some_bind]
    exact to_unsigned_of_nonneg 16 _ hr0 (hr1.trans (by norm_num))
  · have : ⌊round_to 24 (-149) (n * best)⌋ < 201 := by
      rw [Int.floor_lt]; exact_mod_cast hr1
    omega

theorem exact_scale_bounds (w h : ℤ) (hw0 : 0 < w) (hw : w < 2 ^ 24) (hh0 : 0 < h)
    (hh : h < 2 ^ 24) :
    1 / 2 ^ 17 ≤ exact_scale w h ∧ exact_scale w h * w ≤ 200 ∧ exact_scale w h * h ≤ 200 ∧
    (exact_scale w h * w = 200 ∨ exact_scale w h * h = 200) := by
  have hw0q : (0 : ℚ) < w := by exact_mod_cast hw0
  have hh0q : (0 : ℚ) < h := by exact_mod_cast hh0
  have hwq : (w : ℚ) ≤ 2 ^ 24 := by exact_mod_cast hw.le
  have hhq : (h : ℚ) ≤ 2 ^ 24 := by exact_mod_cast hh.le
  have habs : ((|h| : ℤ) : ℚ) = h := by rw [abs_of_pos hh0]
  have hlow : ∀ n : ℚ, 0 < n → n ≤ 2 ^ 24 → (1 : ℚ) / 2 ^ 17 ≤ 200 / n := by
    intro n hn0 hn1
    rw [le_div_iff₀ hn0]
    calc (1 : ℚ) / 2 ^ 17 * n ≤ 1 / 2 ^ 17 * 2 ^ 24 := mul_le_mul_of_nonneg_left hn1 (by norm_num)
      _ ≤ 200 := by norm_num
  have ew : (200 : ℚ) / w * w = 200 := by field_simp
  have eh : (200 : ℚ) / h * h = 200 := by field_simp
  unfold exact_scale
  rw [habs]
  refine ⟨le_min (hlow _ hw0q hwq) (hlow _ hh0q hhq), ?_, ?_, ?_⟩
  · exact le_trans (mul_le_mul_of_nonneg_right (min_le_left _ _) hw0q.le) ew.le
  · exact le_trans (mul_le_mul_of_nonneg_right (min_le_right _ _) hh0q.le) eh.le
  · rcases le_total (200 / (w : ℚ)) (200 / (h : ℚ)) with hle | hle
    · left; rw [min_eq_left hle, ew]
    · right; rw [min_eq_right hle, eh]

/-- The scaling ratio and the new size of a header whose width and height are
positive and below `2 ^ 24`. -/
theorem new_size_spec (p_header : bmp_header_t)
    (hw0 : 0 < p_header.img_width) (hw : p_header.img_width < 2 ^ 24)
    (hh0 : 0 < p_header.img_height) (hh : p_header.img_height < 2 ^ 24) :
    ∃ (best : ℚ) (nw nh : ℕ),
      best_scaling_ratio p_header = some best ∧
      best = min (round_to 24 (-149) (200 / p_header.img_width))
        (round_to 24 (-149) (200 / p_header.img_height)) ∧
      exact_scale p_header.img_width p_header.img_height * (1 - 1 / 2 ^ 24) ≤ best ∧
      best ≤ exact_scale p_header.img_width p_header.img_height * (1 + 1 / 2 ^ 24) ∧
      img_new_width p_header = some nw ∧
      (nw : ℤ) = ⌊round_to 24 (-149) (p_header.img_width * best)⌋ ∧
      ⌊(p_header.img_width : ℚ) * best⌋ ≤ nw ∧ (nw : ℤ) ≤ ⌈(p_header.img_width : ℚ) * best⌉ ∧
      nw ≤ 200 ∧
      (nw : ℚ) ≤ p_header.img_width * best * (1 + 1 / 2 ^ 24) ∧
      img_new_height p_header = some nh ∧
      (nh : ℤ) = ⌊round_to 24 (-149) (p_header.img_height * best)⌋ ∧
      ⌊(p_header.img_height : ℚ) * best⌋ ≤ nh ∧
      (nh : ℤ) ≤ ⌈(p_header.img_height : ℚ) * best⌉ ∧
      nh ≤ 200 ∧
      (nh : ℚ) ≤ p_header.img_height * best * (1 + 1 / 2 ^ 24) := by
  obtain ⟨hbest, hlo, hhi⟩ := best_scaling_ratio_spec p_header hw0 hw hh0 hh
  obtain ⟨hs0, hsw, hsh, -⟩ := exact_scale_bounds _ _ hw0 hw hh0 hh
  generalize hbdef : min (round_to 24 (-149) (200 / (p_header.img_width : ℚ)))
    (round_to 24 (-149) (200 / (p_header.img_height : ℚ))) = best at hbest hlo hhi
  have hw0q : (0 : ℚ) < p_header.img_width := by exact_mod_cast hw0
  have hh0q : (0 : ℚ) < p_header.img_height := by exact_mod_cast hh0
  have hb : (1 : ℚ) / 2 ^ 20 ≤ best := by
    refine le_trans ?_ hlo
    calc (1 : ℚ) / 2 ^ 20 ≤ 1 / 2 ^ 17 * (1 - 1 / 2 ^ 24) := by norm_num
      _ ≤ _ := mul_le_mul_of_nonneg_right hs0 (by norm_num)
  have hbw : best * p_header.img_width ≤ 200 * (1 + 1 / 2 ^ 24) := by
    calc best * p_header.img_width
        ≤ exact_scale p_header.img_width p_header.img_height * (1 + 1 / 2 ^ 24)
          * p_header.img_width := mul_le_mul_of_nonneg_right hhi hw0q.le
      _ = exact_scale p_header.img_width p_header.img_height * p_header.img_width
          * (1 + 1 / 2 ^ 24) := by ring
      _ ≤ 200 * (1 + 1 / 2 ^ 24) := mul_le_mul_of_nonneg_right hsw (by norm_num)
  have hbh : best * p_header.img_height ≤ 200 * (1 + 1 / 2 ^ 24) := by
    calc best * p_header.img_height
        ≤ exact_scale p_header.img_width p_header.img_height * (1 + 1 / 2 ^ 24)
          * p_header.img_height := mul_le_mul_of_nonneg_right hhi hh0q.le
      _ = exact_scale p_header.img_width p_header.img_height * p_header.img_height
          * (1 + 1 / 2 ^ 24) := by ring
      _ ≤ 200 * (1 + 1 / 2 ^ 24) := mul_le_mul_of_nonneg_right hsh (by norm_num)
  obtain ⟨ewd, ew0, ewfl, ewcl, ew200, ewr⟩ := scaled_dimension_spec best _ hb hw0 hw hbw
  obtain ⟨ehd, eh0, ehfl, ehcl, eh200, ehr⟩ := scaled_dimension_spec best _ hb hh0 hh hbh
  have cast_floor : ∀ r : ℚ, 0 ≤ ⌊r⌋ → ((⌊r⌋.toNat : ℕ) : ℚ) ≤ r := by
    intro r hr
    have h1 : ((⌊r⌋.toNat : ℕ) : ℤ) = ⌊r⌋ := Int.toNat_of_nonneg hr
    have h2 : ((⌊r⌋.toNat : ℕ) : ℚ) = ((⌊r⌋ : ℤ) : ℚ) := by exact_mod_cast h1
    rw [h2]
    exact Int.floor_le r
  refine ⟨best, ⌊round_to 24 (-149) (p_header.img_width * best)⌋.toNat,
    ⌊round_to 24 (-149) (p_header.img_height * best)⌋.toNat, hbest, rfl, hlo, hhi,
    ?_, ?_, ?_, ?_, ?_, ?_, ?_, ?_, ?_, ?_, ?_, ?_⟩
  · simp only [img_new_width, hbest, Option.bind_eq_bind, Option.some_bind]
    exact ewd
  · exact Int.toNat_of_nonneg ew0
  · rw [Int.toNat_of_nonneg ew0]; exact ewfl
  · rw [Int.toNat_of_nonneg ew0]; exact ewcl
  · omega
  · exact le_trans (cast_floor _ ew0) ewr
  · simp only [img_new_height, hbest, Option.bind_eq_bind, Option.some_bind, abs_of_pos hh0]
    exact ehd
  · exact Int.toNat_of_nonneg eh0
  · rw [Int.toNat_of_nonneg eh0]; exact ehfl
  · rw [Int.toNat_of_nonneg eh0]; exact ehcl
  · omega
  · exact le_trans (cast_floor _ eh0) ehr

/-! ## Source coordinates -/

theorem f32_eq_some (x r : ℚ) (h : f32 x = some r) : r = round_to 24 (-149) x := by
  unfold f32 at h
  split_ifs at h
  exact (Option.some.inj h).symm

/-- The source coordinate `trunc (a / best)` of a destination index `a` below the
new size `m` of a dimension `d`: it is the floor or the ceiling of the exact
quotient, and it is below `d`. -/
theorem source_coordinate_spec (best : ℚ) (d : ℤ) (m : ℕ) (a : ℤ)
    (hd0 : 0 < d) (hd : d ≤ 2000) (hb : 1 / 2 ^ 20 ≤ best)
    (hbd : best * d ≤ 200 * (1 + 1 / 2 ^ 24))
    (hm : (m : ℚ) ≤ d * best * (1 + 1 / 2 ^ 24)) (ha0 : 0 ≤ a) (ha : a < m) :
    ∃ c : ℕ, (f32 (a : ℚ)).bind (fun x => (f32_div x best).bind (to_unsigned 16)) = some c ∧
      (c : ℤ) = ⌊round_to 24 (-149) (a / best)⌋ ∧
      ⌊(a : ℚ) / best⌋ ≤ c ∧ (c : ℤ) ≤ ⌈(a : ℚ) / best⌉ ∧ (c : ℤ) < d := by
  have hbpos : (0 : ℚ) < best := lt_of_lt_of_le (by norm_num) hb
  have hd0q : (1 : ℚ) ≤ d := by exact_mod_cast hd0
  have hdq : (d : ℚ) ≤ 2000 := by exact_mod_cast hd
  have ha0q : (0 : ℚ) ≤ a := by exact_mod_cast ha0
  have ha1q : (a : ℚ) + 1 ≤ m := by exact_mod_cast ha
  have ht : (d : ℚ) * best ≤ 200 * (1 + 1 / 2 ^ 24) := by rw [mul_comm]; exact hbd
  -- the destination index, inflated by the rounding error, stays below `d * best`
  have hkey : (a : ℚ) * (1 + 1 / 2 ^ 24) < d * best := by
    have h1 : ((a : ℚ) + 1) * (1 + 1 / 2 ^ 24)
        ≤ d * best * (1 + 1 / 2 ^ 24) * (1 + 1 / 2 ^ 24) :=
      mul_le_mul_of_nonneg_right (le_trans ha1q hm) (by norm_num)
    norm_num at h1 ht ⊢
    linarith
  have hx0 : 0 ≤ (a : ℚ) / best := div_nonneg ha0q hbpos.le
  have hxd : (a : ℚ) / best * (1 + 1 / 2 ^ 24) < d := by
    rw [div_mul_eq_mul_div, div_lt_iff₀ hbpos]
    exact hkey
  have hx1 : (a : ℚ) / best < d := by
    have : (a : ℚ) / best ≤ a / best * (1 + 1 / 2 ^ 24) := by
      have := mul_le_mul_of_nonneg_left (by norm_num : (1 : ℚ) ≤ 1 + 1 / 2 ^ 24) hx0
      linarith
    linarith
  have ha201 : (a : ℚ) < 201 := by
    have h1 : (d : ℚ) * best * (1 + 1 / 2 ^ 24) ≤ 200 * (1 + 1 / 2 ^ 24) * (1 + 1 / 2 ^ 24) :=
      mul_le_mul_of_nonneg_right ht (by norm_num)
    have h2 : (200 : ℚ) * (1 + 1 / 2 ^ 24) * (1 + 1 / 2 ^ 24) < 202 := by norm_num
    linarith
  have ha201' : a < 201 := by exact_mod_cast ha201
  have hbest201 : best ≤ 201 := by
    have h1 : best * 1 ≤ best * d := mul_le_mul_of_nonneg_left hd0q hbpos.le
    have h2 : (200 : ℚ) * (1 + 1 / 2 ^ 24) ≤ 201 := by norm_num
    linarith
  have hxz : (a : ℚ) / best = 0 ∨ 1 / 2 ^ 100 ≤ (a : ℚ) / best := by
    rcases eq_or_lt_of_le ha0 with h | h
    · left; rw [← h]; simp
    · right
      have h1a : (1 : ℚ) ≤ a := by exact_mod_cast h
      rw [le_div_iff₀ hbpos]
      have h3 : (1 : ℚ) / 2 ^ 100 * best ≤ 1 / 2 ^ 100 * 201 :=
        mul_le_mul_of_nonneg_left hbest201 (by norm_num)
      have h4 : (1 : ℚ) / 2 ^ 100 * 201 ≤ 1 := by norm_num
      linarith
  obtain ⟨r, hr, hr0, hr1, -⟩ := f32_nonneg_bound ((a : ℚ) / best) hxz
    (le_trans hx1.le (le_trans hdq (by norm_num)))
  have hreq := f32_eq_some _ _ hr
  obtain ⟨-, -, hfl, hcl⟩ := floor_round_bounds ((a : ℚ) / best) hx0
    (lt_of_lt_of_le hx1 (le_trans hdq (by norm_num)))
  have hrd : r < d := lt_of_le_of_lt hr1 hxd
  have hfl0 : 0 ≤ ⌊r⌋ := Int.floor_nonneg.mpr hr0
  have hfld : ⌊r⌋ < d := by
    rw [Int.floor_lt]; exact hrd
  rw [← hreq] at hfl hcl
  refine ⟨⌊r⌋.toNat, ?_, ?_, ?_, ?_, ?_⟩
  · rw [f32_intCast a (by rw [abs_of_nonneg ha0]; omega), Option.some_bind, f32_div,
      if_neg hbpos.ne', hr, Option.some_bind]
    exact to_unsigned_of_nonneg 16 r hr0
      (lt_of_lt_of_le hrd (le_trans hdq (by norm_num)))
  · rw [Int.toNat_of_nonneg hfl0, hreq]
  · rw [Int.toNat_of_nonneg hfl0]; exact hfl
  · rw [Int.toNat_of_nonneg hfl0]; exact hcl
  · rw [Int.toNat_of_nonneg hfl0]; exact hfld

/-- The scaling ratio, the new size and the source coordinates of a bottom-up
header with width and height in `(0, 2000]`. -/
theorem render_facts (p_header : bmp_header_t)
    (hw0 : 0 < p_header.img_width) (hw : p_header.img_width ≤ 2000)
    (hh0 : 0 < p_header.img_height) (hh : p_header.img_height ≤ 2000) :
    ∃ (best : ℚ) (nw nh : ℕ),
      best_scaling_ratio p_header = some best ∧
      img_new_width p_header = some nw ∧ img_new_height p_header = some nh ∧
      nw ≤ 200 ∧ nh ≤ 200 ∧
      (∀ j, j < nw → ∃ x : ℕ, x_new best j = some x ∧
        (x : ℤ) = ⌊round_to 24 (-149) ((j : ℚ) / best)⌋ ∧
        x_src_floor best j ≤ x ∧ (x : ℤ) ≤ ⌈(j : ℚ) / best⌉ ∧ (x : ℤ) < p_header.img_width) ∧
      (∀ i, i < nh → ∃ y : ℕ, y_new p_header best nh i = some y ∧
        (y : ℤ) = ⌊round_to 24 (-149) ((((nh : ℤ) - (i : ℤ) - 1 : ℤ) : ℚ) / best)⌋ ∧
        y_src_floor best nh i ≤ y ∧
        (y : ℤ) ≤ ⌈(((nh : ℤ) - (i : ℤ) - 1 : ℤ) : ℚ) / best⌉ ∧
        (y : ℤ) < p_header.img_height) := by
  obtain ⟨best, nw, nh, hbest, -, hlo, hhi, hnw, -, -, -, hw200, hwr, hnh, -, -, -, hh200, hhr⟩ :=
    new_size_spec p_header hw0 (by omega) hh0 (by omega)
  obtain ⟨hs0, hsw, hsh, -⟩ := exact_scale_bounds p_header.img_width p_header.img_height hw0
    (by omega) hh0 (by omega)
  have hw0q : (0 : ℚ) < p_header.img_width := by exact_mod_cast hw0
  have hh0q : (0 : ℚ) < p_header.img_height := by exact_mod_cast hh0
  have hb : (1 : ℚ) / 2 ^ 20 ≤ best := by
    refine le_trans ?_ hlo
    calc (1 : ℚ) / 2 ^ 20 ≤ 1 / 2 ^ 17 * (1 - 1 / 2 ^ 24) := by norm_num
      _ ≤ _ := mul_le_mul_of_nonneg_right hs0 (by norm_num)
  have hbw : best * p_header.img_width ≤ 200 * (1 + 1 / 2 ^ 24) := by
    calc best * p_header.img_width
        ≤ exact_scale p_header.img_width p_header.img_height * (1 + 1 / 2 ^ 24)
          * p_header.img_width := mul_le_mul_of_nonneg_right hhi hw0q.le
      _ = exact_scale p_header.img_width p_header.img_height * p_header.img_width
          * (1 + 1 / 2 ^ 24) := by ring
      _ ≤ 200 * (1 + 1 / 2 ^ 24) := mul_le_mul_of_nonneg_right hsw (by norm_num)
  have hbh : best * p_header.img_height ≤ 200 * (1 + 1 / 2 ^ 24) := by
    calc best * p_header.img_height
        ≤ exact_scale p_header.img_width p_header.img_height * (1 + 1 / 2 ^ 24)
          * p_header.img_height := mul_le_mul_of_nonneg_right hhi hh0q.le
      _ = exact_scale p_header.img_width p_header.img_height * p_header.img_height
          * (1 + 1 / 2 ^ 24) := by ring
      _ ≤ 200 * (1 + 1 / 2 ^ 24) := mul_le_mul_of_nonneg_right hsh (by norm_num)
  refine ⟨best, nw, nh, hbest, hnw, hnh, hw200, hh200, ?_, ?_⟩
  · intro j hj
    obtain ⟨x, hx, hxr, hxfl, hxcl, hxw⟩ := source_coordinate_spec best p_header.img_width nw
      (j : ℤ) hw0 hw hb hbw hwr (by omega) (by omega)
    refine ⟨x, ?_, ?_, ?_, ?_, hxw⟩
    · unfold x_new
      simpa [Option.bind_eq_bind] using hx
    · simpa using hxr
    · unfold x_src_floor
      simpa using hxfl
    · simpa using hxcl
  · intro i hi
    obtain ⟨y, hy, hyr, hyfl, hycl, hyh⟩ := source_coordinate_spec best p_header.img_height nh
      ((nh : ℤ) - (i : ℤ) - 1) hh0 hh hb hbh hhr (by omega) (by omega)
    refine ⟨y, ?_, hyr, hyfl, hycl, hyh⟩
    unfold y_new
    rw [if_pos hh0]
    simpa only [Option.bind_eq_bind] using hy

/-! ## The pixel array -/

/-- The row stride of a 24-bit header of width in `(0, 2000]`. -/
theorem img_row_bytes_with_padding_eq (p_header : bmp_header_t)
    (hbpp : p_header.bits_per_pixel = 24)
    (hw0 : 0 < p_header.img_width) (hw : p_header.img_width ≤ 2000) :
    img_row_bytes p_header = 3 * p_header.img_width.toNat ∧
    img_row_bytes_with_padding p_header = (3 * p_header.img_width.toNat + 3) / 4 * 4 := by
  have h1 : img_row_bytes p_header = 3 * p_header.img_width.toNat := by
    unfold img_row_bytes
    rw [hbpp]
    norm_num
    omega
  refine ⟨h1, ?_⟩
  unfold img_row_bytes_with_padding
  rw [h1, Nat.mod_eq_of_lt (by omega)]

/-- The size of the pixel array when the product does not exceed 32 bits. -/
theorem img_data_bytes_with_padding_eq (p_header : bmp_header_t)
    (h : img_row_bytes_with_padding p_header * p_header.img_height.natAbs < 2 ^ 32) :
    img_data_bytes_with_padding p_header
      = img_row_bytes_with_padding p_header * p_header.img_height.natAbs := by
  rcases Nat.eq_zero_or_pos (img_row_bytes_with_padding p_header) with hz | hpos
  · unfold img_data_bytes_with_padding
    rw [hz, zero_mul, zero_mul]
    rfl
  · have h0 : p_header.img_height.natAbs < 2 ^ 32 :=
      calc p_header.img_height.natAbs
          ≤ img_row_bytes_with_padding p_header * p_header.img_height.natAbs :=
            Nat.le_mul_of_pos_left _ hpos
        _ < 2 ^ 32 := h
    have h1 : (|p_header.img_height| % 2 ^ 32).toNat = p_header.img_height.natAbs := by
      rw [Int.abs_eq_natAbs]
      omega
    unfold img_data_bytes_with_padding
    rw [h1, Nat.mod_eq_of_lt h]

/-- Source coordinates inside the image address three bytes inside the pixel
array, without wrap-around of the 32-bit index. -/
theorem pixel_index_facts (p_header : bmp_header_t) (hbpp : p_header.bits_per_pixel = 24)
    (hw0 : 0 < p_header.img_width) (hw : p_header.img_width ≤ 2000)
    (hh0 : 0 < p_header.img_height) (hh : p_header.img_height ≤ 2000)
    (x y : ℕ) (hx : (x : ℤ) < p_header.img_width) (hy : (y : ℤ) < p_header.img_height) :
    src_subpixel_base p_header y x = img_row_bytes_with_padding p_header * y + 3 * x ∧
    img_row_bytes_with_padding p_header * y + 3 * x + 2 < img_data_bytes_with_padding p_header ∧
    img_data_bytes_with_padding p_header
      = img_row_bytes_with_padding p_header * p_header.img_height.natAbs ∧
    img_data_bytes_with_padding p_header < 2 ^ 32 := by
  obtain ⟨-, hstride⟩ := img_row_bytes_with_padding_eq p_header hbpp hw0 hw
  have hs1 : 3 * x + 3 ≤ img_row_bytes_with_padding p_header := by omega
  have hs2 : img_row_bytes_with_padding p_header ≤ 6003 := by omega
  have hH : p_header.img_height.natAbs ≤ 2000 := by omega
  have hyH : y + 1 ≤ p_header.img_height.natAbs := by omega
  have hprod : img_row_bytes_with_padding p_header * p_header.img_height.natAbs
      ≤ 6003 * 2000 := Nat.mul_le_mul hs2 hH
  have hrow : img_row_bytes_with_padding p_header * y + img_row_bytes_with_padding p_header
      ≤ img_row_bytes_with_padding p_header * p_header.img_height.natAbs := by
    have := Nat.mul_le_mul_left (img_row_bytes_with_padding p_header) hyH
    rwa [Nat.mul_succ] at this
  have hsize : img_data_bytes_with_padding p_header
      = img_row_bytes_with_padding p_header * p_header.img_height.natAbs :=
    img_data_bytes_with_padding_eq p_header (lt_of_le_of_lt hprod (by norm_num))
  refine ⟨?_, ?_, hsize, ?_⟩
  · unfold src_subpixel_base
    rw [Nat.mul_comm y, Nat.mul_comm x, Nat.mod_eq_of_lt]
    omega
  · rw [hsize]
    omega
  · rw [hsize]
    omega

/-- With the whole pixel array present in the file, the block read by
`image_to_ascii` holds the file's bytes. -/
theorem img_data_padded_eq (mem : block) (p_bmp : FILE) (p_header : bmp_header_t)
    (hbuf : p_header.img_data_offset + img_data_bytes_with_padding p_header
      ≤ p_bmp.data.length)
    (k : ℕ) (hk : k < img_data_bytes_with_padding p_header) :
    ((fread mem 0 (img_data_bytes_with_padding p_header)
      (fseek p_bmp p_header.img_data_offset)).1 k).val = pixel_byte p_bmp p_header k := by
  rw [fread_read _ _ _ _ _ (Nat.zero_le _) (by simp only [fseek]; omega)]
  simp only [fseek, Nat.sub_zero, pixel_byte, file_byte]

/-- The greyscale value of three bytes inside the pixel array. -/
theorem greyscale_value_eq (mem : block) (p_bmp : FILE) (p_header : bmp_header_t)
    (hbuf : p_header.img_data_offset + img_data_bytes_with_padding p_header
      ≤ p_bmp.data.length)
    (hsize : img_data_bytes_with_padding p_header < 2 ^ 32)
    (s : ℕ) (hs : s + 2 < img_data_bytes_with_padding p_header) :
    greyscale_value (fread mem 0 (img_data_bytes_with_padding p_header)
      (fseek p_bmp p_header.img_data_offset)).1 s
      = (pixel_byte p_bmp p_header s + pixel_byte p_bmp p_header (s + 1)
          + pixel_byte p_bmp p_header (s + 2)) / 3 := by
  have hb : ∀ k, pixel_byte p_bmp p_header k < 256 := fun k =>
    (p_bmp.data.getD (p_header.img_data_offset + k) 0).isLt
  unfold greyscale_value
  rw [Nat.mod_eq_of_lt (by omega : s + 1 < 2 ^ 32), Nat.mod_eq_of_lt (by omega : s + 2 < 2 ^ 32),
    img_data_padded_eq mem p_bmp p_header hbuf s (by omega),
    img_data_padded_eq mem p_bmp p_header hbuf (s + 1) (by omega),
    img_data_padded_eq mem p_bmp p_header hbuf (s + 2) hs]
  have h0 := hb s
  have h1 := hb (s + 1)
  have h2 := hb (s + 2)
  omega

/-- The lines written by `image_to_ascii` when every character of the grid is
defined and taken from the ramp: line `k` is row `2 * k + 1` of the grid. -/
theorem image_to_ascii_rows (mem : block) (p_bmp : FILE) (p_header : bmp_header_t)
    (best : ℚ) (nw nh : ℕ) (hbest : best_scaling_ratio p_header = some best)
    (hnw : img_new_width p_header = some nw) (hnh : img_new_height p_header = some nh)
    (g : ℕ → ℕ → Char)
    (hpix : ∀ i, i < nh → ∀ j, j < nw →
      pixel_char out_char p_header (fread mem 0 (img_data_bytes_with_padding p_header)
        (fseek p_bmp p_header.img_data_offset)).1 best nh i j = some (g i j))
    (hramp : ∀ i, i < nh → ∀ j, j < nw → g i j ∈ ascii_ramp_lut) :
    image_to_ascii_with out_char true mem p_bmp p_header
      = some ((List.range (nh / 2)).map
          (fun k => (List.range nw).map (g (2 * k + 1)) ++ [Char.ofNat 10])) := by
  generalize himg : (fread mem 0 (img_data_bytes_with_padding p_header)
    (fseek p_bmp p_header.img_data_offset)).1 = img at hpix
  have hrow : ∀ i, i < nh → ascii_row_buff out_char p_header img best nw nh i
      = some ((List.range nw).map (g i) ++ [Char.ofNat 10, Char.ofNat 0]) := by
    intro i hi
    have := for_each_eq_some (List.range nw) (pixel_char out_char p_header img best nh i) (g i)
      (fun j hj => hpix i hi j (List.mem_range.mp hj))
    simp only [ascii_row_buff, this, Option.bind_eq_bind, Option.some_bind, Option.pure_def]
  have hprinted : ∀ i, i < nh →
      printed ((List.range nw).map (g i) ++ [Char.ofNat 10, Char.ofNat 0])
        = (List.range nw).map (g i) ++ [Char.ofNat 10] := by
    intro i hi
    apply printed_row
    intro c hc
    obtain ⟨j, hj, rfl⟩ := List.mem_map.mp hc
    exact hramp i hi j (List.mem_range.mp hj)
  have hemit : ∀ i ∈ List.range nh, emit_row out_char p_header img best nw nh i
      = some (if i &&& 1 ≠ 0 then
          [(fun i => (List.range nw).map (g i) ++ [Char.ofNat 10]) i] else []) := by
    intro i hi
    have hi' := List.mem_range.mp hi
    simp only [emit_row, hrow i hi', Option.bind_eq_bind, Option.some_bind, Option.pure_def,
      hprinted i hi']
  have hloop := for_each_eq_some _ _ _ hemit
  simp only [image_to_ascii_with, hbest, hnw, hnh, himg, Option.bind_eq_bind, Option.some_bind,
    if_true, hloop, Option.pure_def]
  rw [flatten_odd_rows (fun i => (List.range nw).map (g i) ++ [Char.ofNat 10])]

/-- The greyscale value of a grid position whose source coordinates are
defined. -/
theorem pixel_grey_eq (p_header : bmp_header_t) (img : block) (best : ℚ) (nh i j x y : ℕ)
    (hx : x_new best j = some x) (hy : y_new p_header best nh i = some y) :
    pixel_grey p_header img best nh i j
      = some (greyscale_value img (src_subpixel_base p_header y x)) := by
  simp only [pixel_grey, hx, hy, Option.bind_eq_bind, Option.some_bind, Option.pure_def]

/-- The character of a grid position whose source coordinates are defined: what
the call of the glyph function delivers for the greyscale value. -/
theorem pixel_char_eq {glyph : ℕ → Option Char} (p_header : bmp_header_t) (img : block)
    (best : ℚ) (nh i j x y : ℕ)
    (hx : x_new best j = some x) (hy : y_new p_header best nh i = some y) :
    pixel_char glyph p_header img best nh i j
      = glyph (greyscale_value img (src_subpixel_base p_header y x)) := by
  simp only [pixel_char, pixel_grey_eq p_header img best nh i j x y hx hy, Option.bind_eq_bind,
    Option.some_bind]

/-- With the whole pixel array present in the file, the greyscale value of a
grid position is the average of the three bytes of the source pixel at its
source coordinates. -/
theorem pixel_grey_sampled (mem : block) (p_bmp : FILE) (p_header : bmp_header_t)
    (hbpp : p_header.bits_per_pixel = 24)
    (hw0 : 0 < p_header.img_width) (hw : p_header.img_width ≤ 2000)
    (hh0 : 0 < p_header.img_height) (hh : p_header.img_height ≤ 2000)
    (hbuf : p_header.img_data_offset + img_data_bytes_with_padding p_header
      ≤ p_bmp.data.length)
    (best : ℚ) (nh i j x y : ℕ)
    (hx : x_new best j = some x) (hy : y_new p_header best nh i = some y)
    (hxw : (x : ℤ) < p_header.img_width) (hyh : (y : ℤ) < p_header.img_height) :
    pixel_grey p_header (fread mem 0 (img_data_bytes_with_padding p_header)
        (fseek p_bmp p_header.img_data_offset)).1 best nh i j
      = some (sampled_grey p_bmp p_header y x) := by
  obtain ⟨hsrc, hin, -, hlt⟩ := pixel_index_facts p_header hbpp hw0 hw hh0 hh x y hxw hyh
  rw [pixel_grey_eq p_header _ best nh i j x y hx hy, hsrc,
    greyscale_value_eq mem p_bmp p_header hbuf hlt _ hin]
  rfl

/-- The output for a bottom-up header with width and height in `(0, 2000]`:
there is a grid `g` of ramp characters, `g i j` being the character of
destination row `i` and column `j`, and line `k` of the output is row
`2 * k + 1` of the grid followed by a newline. -/
theorem bottom_up_lines (mem : block) (p_bmp : FILE) (p_header : bmp_header_t)
    (hw0 : 0 < p_header.img_width) (hw : p_header.img_width ≤ 2000)
    (hh0 : 0 < p_header.img_height) (hh : p_header.img_height ≤ 2000)
    (best : ℚ) (nw nh : ℕ) (hbest : best_scaling_ratio p_header = some best)
    (hnw : img_new_width p_header = some nw) (hnh : img_new_height p_header = some nh) :
    ∃ g : ℕ → ℕ → Char,
      (∀ i, i < nh → ∀ j, j < nw →
        pixel_char out_char p_header (fread mem 0 (img_data_bytes_with_padding p_header)
          (fseek p_bmp p_header.img_data_offset)).1 best nh i j = some (g i j)) ∧
      image_to_ascii_with out_char true mem p_bmp p_header
        = some ((List.range (nh / 2)).map
            (fun k => (List.range nw).map (g (2 * k + 1)) ++ [Char.ofNat 10])) := by
  obtain ⟨best', nw', nh', hbest', hnw', hnh', -, -, hxs, hys⟩ :=
    render_facts p_header hw0 hw hh0 hh
  obtain rfl : best' = best := Option.some.inj (hbest'.symm.trans hbest)
  obtain rfl : nw' = nw := Option.some.inj (hnw'.symm.trans hnw)
  obtain rfl : nh' = nh := Option.some.inj (hnh'.symm.trans hnh)
  have hex : ∀ i, i < nh' → ∀ j, j < nw' → ∃ c,
      pixel_char out_char p_header (fread mem 0 (img_data_bytes_with_padding p_header)
        (fseek p_bmp p_header.img_data_offset)).1 best' nh' i j = some c ∧
      c ∈ ascii_ramp_lut := by
    intro i hi j hj
    obtain ⟨x, hx, -⟩ := hxs j hj
    obtain ⟨y, hy, -⟩ := hys i hi
    rw [pixel_char_eq p_header _ best' nh' i j x y hx hy]
    exact out_char_valid _ (greyscale_value_lt _ _)
  obtain ⟨g, hg⟩ : ∃ g : ℕ → ℕ → Char, g = fun i j =>
      (pixel_char out_char p_header (fread mem 0 (img_data_bytes_with_padding p_header)
        (fseek p_bmp p_header.img_data_offset)).1 best' nh' i j).getD ' ' := ⟨_, rfl⟩
  have hpix : ∀ i, i < nh' → ∀ j, j < nw' →
      pixel_char out_char p_header (fread mem 0 (img_data_bytes_with_padding p_header)
        (fseek p_bmp p_header.img_data_offset)).1 best' nh' i j = some (g i j) := by
    intro i hi j hj
    obtain ⟨c, hc, -⟩ := hex i hi j hj
    rw [hg]
    simp only [hc, Option.getD_some]
  have hramp : ∀ i, i < nh' → ∀ j, j < nw' → g i j ∈ ascii_ramp_lut := by
    intro i hi j hj
    obtain ⟨c, hc, hmem⟩ := hex i hi j hj
    have := hpix i hi j hj
    rw [hc] at this
    rw [← Option.some.inj this]
    exact hmem
  exact ⟨g, hpix, image_to_ascii_rows mem p_bmp p_header best' nw' nh' hbest hnw hnh g hpix
    hramp⟩

/-! ## The missing `return` of `get_char_for_greyscale` -/

/-- No call of `get_char_for_greyscale` delivers a value. -/
theorem get_char_for_greyscale_none (g : ℕ) : get_char_for_greyscale g = none := by
  unfold get_char_for_greyscale
  cases out_char g <;> rfl

/-- No round of the inner loop stores a defined character. -/
theorem pixel_char_none (p_header : bmp_header_t) (img : block) (best : ℚ) (nh i j : ℕ) :
    pixel_char get_char_for_greyscale p_header img best nh i j = none := by
  unfold pixel_char
  cases pixel_grey p_header img best nh i j with
  | none => rfl
  | some g => exact get_char_for_greyscale_none g

theorem for_each_range_none {α : Type} (n : ℕ) (body : ℕ → Option α) (hn : 0 < n)
    (h0 : body 0 = none) : for_each (List.range n) body = none := by
  obtain ⟨m, rfl⟩ : ∃ m, n = m + 1 := ⟨n - 1, by omega⟩
  rw [List.range_succ_eq_map]
  simp only [for_each, h0]

/-- The renderer of the program has no defined output as soon as the new grid
has a pixel: round `(0, 0)` of the loops uses the value of a call of
`get_char_for_greyscale`. -/
theorem image_to_ascii_undefined (mem : block) (p_bmp : FILE) (p_header : bmp_header_t)
    (nw nh : ℕ) (hnw : img_new_width p_header = some nw)
    (hnh : img_new_height p_header = some nh) (h1 : 0 < nw) (h2 : 0 < nh) :
    image_to_ascii true mem p_bmp p_header = none := by
  have hrow : ∀ img best, ascii_row_buff get_char_for_greyscale p_header img best nw nh 0
      = none := by
    intro img best
    unfold ascii_row_buff
    rw [for_each_range_none nw _ h1 (pixel_char_none p_header img best nh 0 0)]
    rfl
  have hemit : ∀ img best, emit_row get_char_for_greyscale p_header img best nw nh 0 = none := by
    intro img best
    unfold emit_row
    rw [hrow]
    rfl
  unfold image_to_ascii image_to_ascii_with
  cases hb : best_scaling_ratio p_header with
  | none => rfl
  | some best =>
    simp only [hnw, hnh, Option.bind_eq_bind, Option.some_bind, if_true,
      for_each_range_none nh _ h2 (hemit _ best), Option.none_bind]

/-! ## The new size: claims -/

/-- C13 fails on the code.  For a 3x3 image the `float` scale is
`8738133 / 131072` (just below `200 / 3`), the product `3 * scale` is just below
200, and `new_width` is 200, above it.  For a 97x97 image, whose exactly scaled
width is 200, `new_width` is 199, a full unit below. -/
theorem scaled_dimension_counterexample :
    best_scaling_ratio (sample_header 24 0 3 3) = some (8738133 / 131072) ∧
    img_new_width (sample_header 24 0 3 3) = some 200 ∧
    ¬ ((200 : ℚ) ≤ 3 * (8738133 / 131072)) ∧
    img_new_width (sample_header 24 0 97 97) = some 199 ∧
    (97 : ℚ) * exact_scale 97 97 = 200 ∧
    ¬ ((97 : ℚ) * exact_scale 97 97 - 1 < 199) := by
  refine ⟨by decide!, by decide!, by norm_num, by decide!, ?_, ?_⟩
  · norm_num [exact_scale]
  · norm_num [exact_scale]

/-- C13 as amended: for width and height in `(0, 2000]` the new width and the
new height come from one scaling ratio `best`, and each is the floor or the
ceiling of its exactly scaled dimension, so it differs from `width * best`
(`height * best`) by less than one unit either way and exceeds it by a factor
of at most `1 + 2 ^ (-24)`. -/
theorem scaled_dimensions_within_one (p_header : bmp_header_t)
    (hw0 : 0 < p_header.img_width) (hw : p_header.img_width ≤ 2000)
    (hh0 : 0 < p_header.img_height) (hh : p_header.img_height ≤ 2000) :
    ∃ (best : ℚ) (nw nh : ℕ),
      best_scaling_ratio p_header = some best ∧
      img_new_width p_header = some nw ∧ img_new_height p_header = some nh ∧
      (p_header.img_width : ℚ) * best - 1 < nw ∧ (nw : ℚ) < p_header.img_width * best + 1 ∧
      (nw : ℚ) ≤ p_header.img_width * best * (1 + 1 / 2 ^ 24) ∧
      (p_header.img_height : ℚ) * best - 1 < nh ∧ (nh : ℚ) < p_header.img_height * best + 1 ∧
      (nh : ℚ) ≤ p_header.img_height * best * (1 + 1 / 2 ^ 24) := by
  obtain ⟨best, nw, nh, hbest, -, -, -, hnw, -, hwfl, hwcl, -, hwr, hnh, -, hhfl, hhcl, -, hhr⟩ :=
    new_size_spec p_header hw0 (by omega) hh0 (by omega)
  have low : ∀ (x : ℚ) (m : ℕ), ⌊x⌋ ≤ (m : ℤ) → x - 1 < m := by
    intro x m h
    have h1 : ((⌊x⌋ : ℤ) : ℚ) ≤ ((m : ℤ) : ℚ) := by exact_mod_cast h
    have h2 := Int.sub_one_lt_floor x
    push_cast at h1
    linarith
  have high : ∀ (x : ℚ) (m : ℕ), (m : ℤ) ≤ ⌈x⌉ → (m : ℚ) < x + 1 := by
    intro x m h
    have h1 : ((m : ℤ) : ℚ) ≤ ((⌈x⌉ : ℤ) : ℚ) := by exact_mod_cast h
    have h2 := Int.ceil_lt_add_one x
    push_cast at h1
    linarith
  exact ⟨best, nw, nh, hbest, hnw, hnh, low _ _ hwfl, high _ _ hwcl, hwr, low _ _ hhfl,
    high _ _ hhcl, hhr⟩

/-- The amended C13 on a 97x97 header. -/
theorem scaled_dimensions_within_one_witness :
    ∃ (best : ℚ) (nw nh : ℕ),
      best_scaling_ratio (sample_header 24 0 97 97) = some best ∧
      img_new_width (sample_header 24 0 97 97) = some nw ∧
      img_new_height (sample_header 24 0 97 97) = some nh ∧
      ((sample_header 24 0 97 97).img_width : ℚ) * best - 1 < nw ∧
      (nw : ℚ) < (sample_header 24 0 97 97).img_width * best + 1 ∧
      (nw : ℚ) ≤ (sample_header 24 0 97 97).img_width * best * (1 + 1 / 2 ^ 24) ∧
      ((sample_header 24 0 97 97).img_height : ℚ) * best - 1 < nh ∧
      (nh : ℚ) < (sample_header 24 0 97 97).img_height * best + 1 ∧
      (nh : ℚ) ≤ (sample_header 24 0 97 97).img_height * best * (1 + 1 / 2 ^ 24) :=
  scaled_dimensions_within_one (sample_header 24 0 97 97) (by decide) (by decide) (by decide)
    (by decide)

/-- C14 fails on the code.  For a 3x3 image the scale used is the `float`
`8738133 / 131072`, not `200 / 3`, and `new_width` is 200 although the floor of
`3 * scale` is 199; for a 97x97 image `new_width` is 199 although the
specification's `floor(width * scale)` is 200. -/
theorem scale_floor_counterexample :
    best_scaling_ratio (sample_header 24 0 3 3) = some (8738133 / 131072) ∧
    (8738133 / 131072 : ℚ) ≠ exact_scale 3 3 ∧
    img_new_width (sample_header 24 0 3 3) = some 200 ∧
    ⌊(3 : ℚ) * (8738133 / 131072)⌋ = 199 ∧
    img_new_width (sample_header 24 0 97 97) = some 199 ∧
    exact_new_width 97 97 = 200 := by
  refine ⟨by decide!, ?_, by decide!, ?_, by decide!, ?_⟩
  · norm_num [exact_scale]
  · rw [Int.floor_eq_iff]
    constructor <;> norm_num
  · unfold exact_new_width
    rw [Int.floor_eq_iff]
    constructor <;> norm_num [exact_scale]

/-- C14 as amended: for every header with width and height positive (and below
`2 ^ 24`, so that `float` holds them exactly), the scale is the smaller of the
two quotients `200 / width`, `200 / height` each rounded to `float`, within a
relative error of `2 ^ (-24)` of `min(200 / width, 200 / height)`; the new width
is the integral part of the product `width * scale` rounded to `float`, which is
the floor or the ceiling of `width * scale`, and likewise the new height. -/
theorem scale_is_rounded_min (p_header : bmp_header_t)
    (hw0 : 0 < p_header.img_width) (hw : p_header.img_width < 2 ^ 24)
    (hh0 : 0 < p_header.img_height) (hh : p_header.img_height < 2 ^ 24) :
    ∃ (best : ℚ) (nw nh : ℕ),
      best_scaling_ratio p_header = some best ∧
      best = min (round_to 24 (-149) (200 / p_header.img_width))
        (round_to 24 (-149) (200 / p_header.img_height)) ∧
      |best - exact_scale p_header.img_width p_header.img_height|
        ≤ exact_scale p_header.img_width p_header.img_height / 2 ^ 24 ∧
      img_new_width p_header = some nw ∧
      (nw : ℤ) = ⌊round_to 24 (-149) (p_header.img_width * best)⌋ ∧
      ⌊(p_header.img_width : ℚ) * best⌋ ≤ nw ∧ (nw : ℤ) ≤ ⌈(p_header.img_width : ℚ) * best⌉ ∧
      img_new_height p_header = some nh ∧
      (nh : ℤ) = ⌊round_to 24 (-149) (p_header.img_height * best)⌋ ∧
      ⌊(p_header.img_height : ℚ) * best⌋ ≤ nh ∧
      (nh : ℤ) ≤ ⌈(p_header.img_height : ℚ) * best⌉ := by
  obtain ⟨best, nw, nh, hbest, hmin, hlo, hhi, hnw, hwr, hwfl, hwcl, -, -, hnh, hhr, hhfl, hhcl,
    -, -⟩ := new_size_spec p_header hw0 hw hh0 hh
  refine ⟨best, nw, nh, hbest, hmin, ?_, hnw, hwr, hwfl, hwcl, hnh, hhr, hhfl, hhcl⟩
  rw [abs_le]
  constructor <;> linarith

/-- The amended C14 on a 3x3 header. -/
theorem scale_is_rounded_min_witness :
    ∃ (best : ℚ) (nw nh : ℕ),
      best_scaling_ratio (sample_header 24 0 3 3) = some best ∧
      best = min (round_to 24 (-149) (200 / (sample_header 24 0 3 3).img_width))
        (round_to 24 (-149) (200 / (sample_header 24 0 3 3).img_height)) ∧
      |best - exact_scale (sample_header 24 0 3 3).img_width (sample_header 24 0 3 3).img_height|
        ≤ exact_scale (sample_header 24 0 3 3).img_width (sample_header 24 0 3 3).img_height
          / 2 ^ 24 ∧
      img_new_width (sample_header 24 0 3 3) = some nw ∧
      (nw : ℤ) = ⌊round_to 24 (-149) ((sample_header 24 0 3 3).img_width * best)⌋ ∧
      ⌊((sample_header 24 0 3 3).img_width : ℚ) * best⌋ ≤ nw ∧
      (nw : ℤ) ≤ ⌈((sample_header 24 0 3 3).img_width : ℚ) * best⌉ ∧
      img_new_height (sample_header 24 0 3 3) = some nh ∧
      (nh : ℤ) = ⌊round_to 24 (-149) ((sample_header 24 0 3 3).img_height * best)⌋ ∧
      ⌊((sample_header 24 0 3 3).img_height : ℚ) * best⌋ ≤ nh ∧
      (nh : ℤ) ≤ ⌈((sample_header 24 0 3 3).img_height : ℚ) * best⌉ :=
  scale_is_rounded_min (sample_header 24 0 3 3) (by decide) (by decide) (by decide) (by decide)

/-- C18: for width and height in `(0, 2000]` the new width and the new height
are both at most 200, hence below `2 ^ 16`, and in exact arithmetic
(`exact_new_width`, `exact_new_height`) at least one of them equals 200. -/
theorem new_size_at_most_200 (p_header : bmp_header_t)
    (hw0 : 0 < p_header.img_width) (hw : p_header.img_width ≤ 2000)
    (hh0 : 0 < p_header.img_height) (hh : p_header.img_height ≤ 2000) :
    ∃ nw nh : ℕ,
      img_new_width p_header = some nw ∧ img_new_height p_header = some nh ∧
      nw ≤ 200 ∧ nh ≤ 200 ∧ nw < 2 ^ 16 ∧ nh < 2 ^ 16 ∧
      (exact_new_width p_header.img_width p_header.img_height = 200 ∨
        exact_new_height p_header.img_width p_header.img_height = 200) := by
  obtain ⟨best, nw, nh, -, -, -, -, hnw, -, -, -, hw200, -, hnh, -, -, -, hh200, -⟩ :=
    new_size_spec p_header hw0 (by omega) hh0 (by omega)
  obtain ⟨-, -, -, hone⟩ := exact_scale_bounds p_header.img_width p_header.img_height hw0
    (by omega) hh0 (by omega)
  refine ⟨nw, nh, hnw, hnh, hw200, hh200, by omega, by omega, ?_⟩
  rcases hone with h | h
  · left
    unfold exact_new_width
    rw [mul_comm, h]
    exact Int.floor_eq_iff.mpr ⟨by norm_num, by norm_num⟩
  · right
    unfold exact_new_height
    rw [abs_of_pos hh0, mul_comm, h]
    exact Int.floor_eq_iff.mpr ⟨by norm_num, by norm_num⟩

/-- C18 on a 1x2000 header. -/
theorem new_size_at_most_200_witness :
    ∃ nw nh : ℕ,
      img_new_width (sample_header 24 0 1 2000) = some nw ∧
      img_new_height (sample_header 24 0 1 2000) = some nh ∧
      nw ≤ 200 ∧ nh ≤ 200 ∧ nw < 2 ^ 16 ∧ nh < 2 ^ 16 ∧
      (exact_new_width (sample_header 24 0 1 2000).img_width
          (sample_header 24 0 1 2000).img_height = 200 ∨
        exact_new_height (sample_header 24 0 1 2000).img_width
          (sample_header 24 0 1 2000).img_height = 200) :=
  new_size_at_most_200 (sample_header 24 0 1 2000) (by decide) (by decide) (by decide)
    (by decide)

/-! ## Sampling: claims -/

/-- C17: for every 24-bit uncompressed bottom-up header with width and height in
`(0, 2000]` and every destination pixel `(i, j)` of the new grid, the source
coordinates are defined and satisfy `x < width` and `y < height`; the index
`stride * y + 3 * x` is computed without wrap-around and the three bytes read
from it lie inside the pixel array, whose length is `stride * height`. -/
theorem source_reads_in_bounds (p_header : bmp_header_t)
    (hbpp : p_header.bits_per_pixel = 24) (_hcomp : p_header.compression_type = 0)
    (hw0 : 0 < p_header.img_width) (hw : p_header.img_width ≤ 2000)
    (hh0 : 0 < p_header.img_height) (hh : p_header.img_height ≤ 2000) :
    ∃ (best : ℚ) (nw nh : ℕ),
      best_scaling_ratio p_header = some best ∧
      img_new_width p_header = some nw ∧ img_new_height p_header = some nh ∧
      ∀ i j, i < nh → j < nw → ∃ x y : ℕ,
        x_new best j = some x ∧ y_new p_header best nh i = some y ∧
        (x : ℤ) < p_header.img_width ∧ (y : ℤ) < p_header.img_height ∧
        src_subpixel_base p_header y x = img_row_bytes_with_padding p_header * y + 3 * x ∧
        src_subpixel_base p_header y x + 2 < img_data_bytes_with_padding p_header ∧
        img_data_bytes_with_padding p_header
          = img_row_bytes_with_padding p_header * p_header.img_height.natAbs := by
  obtain ⟨best, nw, nh, hbest, hnw, hnh, -, -, hxs, hys⟩ := render_facts p_header hw0 hw hh0 hh
  refine ⟨best, nw, nh, hbest, hnw, hnh, ?_⟩
  intro i j hi hj
  obtain ⟨x, hx, -, -, -, hxw⟩ := hxs j hj
  obtain ⟨y, hy, -, -, -, hyh⟩ := hys i hi
  obtain ⟨hsrc, hin, hsize, -⟩ := pixel_index_facts p_header hbpp hw0 hw hh0 hh x y hxw hyh
  exact ⟨x, y, hx, hy, hxw, hyh, hsrc, by rw [hsrc]; exact hin, hsize⟩

/-- C17 on a 45x45 header. -/
theorem source_reads_in_bounds_witness :
    ∃ (best : ℚ) (nw nh : ℕ),
      best_scaling_ratio (sample_header 24 0 45 45) = some best ∧
      img_new_width (sample_header 24 0 45 45) = some nw ∧
      img_new_height (sample_header 24 0 45 45) = some nh ∧
      ∀ i j, i < nh → j < nw → ∃ x y : ℕ,
        x_new best j = some x ∧ y_new (sample_header 24 0 45 45) best nh i = some y ∧
        (x : ℤ) < (sample_header 24 0 45 45).img_width ∧
        (y : ℤ) < (sample_header 24 0 45 45).img_height ∧
        src_subpixel_base (sample_header 24 0 45 45) y x
          = img_row_bytes_with_padding (sample_header 24 0 45 45) * y + 3 * x ∧
        src_subpixel_base (sample_header 24 0 45 45) y x + 2
          < img_data_bytes_with_padding (sample_header 24 0 45 45) ∧
        img_data_bytes_with_padding (sample_header 24 0 45 45)
          = img_row_bytes_with_padding (sample_header 24 0 45 45)
            * (sample_header 24 0 45 45).img_height.natAbs :=
  source_reads_in_bounds (sample_header 24 0 45 45) (by decide) (by decide) (by decide)
    (by decide) (by decide) (by decide)

/-- C15 as amended: for every 24-bit uncompressed bottom-up header with width
and height in `(0, 2000]` and a file that holds the whole pixel array, the
character stored at column `j` of the row buffer of destination row
`i = 2 * k + 1` is the value of the call of the glyph function on
`(c0 + c1 + c2) / 3`, the truncated average of the three bytes of the source
pixel `(y, x)`, where `x` is the integral part of the `float` quotient
`j / best` and `y` that of `(new_height - i - 1) / best`; each is the floor of
the exact quotient or one more. -/
theorem glyph_argument_source (mem : block) (p_bmp : FILE) (p_header : bmp_header_t)
    (hbpp : p_header.bits_per_pixel = 24) (_hcomp : p_header.compression_type = 0)
    (hw0 : 0 < p_header.img_width) (hw : p_header.img_width ≤ 2000)
    (hh0 : 0 < p_header.img_height) (hh : p_header.img_height ≤ 2000)
    (hbuf : p_header.img_data_offset + img_data_bytes_with_padding p_header
      ≤ p_bmp.data.length) :
    ∃ (best : ℚ) (nw nh : ℕ),
      best_scaling_ratio p_header = some best ∧
      img_new_width p_header = some nw ∧ img_new_height p_header = some nh ∧
      ∀ k j, k < nh / 2 → j < nw → ∃ (x y : ℕ),
        x_new best j = some x ∧
        (x : ℤ) = ⌊round_to 24 (-149) ((j : ℚ) / best)⌋ ∧
        x_src_floor best j ≤ x ∧ (x : ℤ) ≤ x_src_floor best j + 1 ∧
        y_new p_header best nh (2 * k + 1) = some y ∧
        (y : ℤ) = ⌊round_to 24 (-149)
          ((((nh : ℤ) - ((2 * k + 1 : ℕ) : ℤ) - 1 : ℤ) : ℚ) / best)⌋ ∧
        y_src_floor best nh (2 * k + 1) ≤ y ∧ (y : ℤ) ≤ y_src_floor best nh (2 * k + 1) + 1 ∧
        pixel_grey p_header (fread mem 0 (img_data_bytes_with_padding p_header)
            (fseek p_bmp p_header.img_data_offset)).1 best nh (2 * k + 1) j
          = some (sampled_grey p_bmp p_header y x) ∧
        ∀ glyph : ℕ → Option Char,
          pixel_char glyph p_header (fread mem 0 (img_data_bytes_with_padding p_header)
              (fseek p_bmp p_header.img_data_offset)).1 best nh (2 * k + 1) j
            = glyph (sampled_grey p_bmp p_header y x) := by
  obtain ⟨best, nw, nh, hbest, hnw, hnh, -, -, hxs, hys⟩ := render_facts p_header hw0 hw hh0 hh
  refine ⟨best, nw, nh, hbest, hnw, hnh, ?_⟩
  intro k j hk hj
  have hi : 2 * k + 1 < nh := by omega
  obtain ⟨x, hx, hxr, hxfl, hxcl, hxw⟩ := hxs j hj
  obtain ⟨y, hy, hyr, hyfl, hycl, hyh⟩ := hys (2 * k + 1) hi
  have hgrey := pixel_grey_sampled mem p_bmp p_header hbpp hw0 hw hh0 hh hbuf best nh
    (2 * k + 1) j x y hx hy hxw hyh
  refine ⟨x, y, hx, hxr, hxfl, ?_, hy, hyr, hyfl, ?_, hgrey, fun glyph => ?_⟩
  · exact le_trans hxcl (Int.ceil_le_floor_add_one _)
  · exact le_trans hycl (Int.ceil_le_floor_add_one _)
  · simp only [pixel_char, hgrey, Option.bind_eq_bind, Option.some_bind]

theorem striped_bmp_holds_array :
    (sample_header 24 0 45 45).img_data_offset
      + img_data_bytes_with_padding (sample_header 24 0 45 45) ≤ striped_bmp.data.length := by
  have h1 : img_data_bytes_with_padding (sample_header 24 0 45 45) = 6120 := by decide
  have h2 : striped_bmp.data.length = 6174 := by
    simp only [striped_bmp, List.length_append, List.length_replicate, List.length_map,
      List.length_range]
  rw [h1, h2]
  decide

/-- C15 fails on the code.  For the 45x45 striped image (scaling ratio
`2330169 / 524288`, new size 200x200) destination row 1 reads source row 44.
At column 40 the source column is 9 and the greyscale value passed to the glyph
function is 255, that of a white pixel, while `floor(40 / best)` is 8, a black
pixel of greyscale value 0; at column 120 the source column is 26 and the value
passed is 0, while the exact `floor(120 / (200 / 45))` is 27, a white pixel. -/
theorem emitted_glyph_counterexample :
    best_scaling_ratio (sample_header 24 0 45 45) = some (2330169 / 524288) ∧
    img_new_width (sample_header 24 0 45 45) = some 200 ∧
    img_new_height (sample_header 24 0 45 45) = some 200 ∧
    y_new (sample_header 24 0 45 45) (2330169 / 524288) 200 1 = some 44 ∧
    y_src_floor (2330169 / 524288) 200 1 = 44 ∧
    ⌊(198 : ℚ) / exact_scale 45 45⌋ = 44 ∧
    x_new (2330169 / 524288) 40 = some 9 ∧
    x_src_floor (2330169 / 524288) 40 = 8 ∧
    pixel_grey (sample_header 24 0 45 45)
        (fread (fun _ => 0) 0 (img_data_bytes_with_padding (sample_header 24 0 45 45))
          (fseek striped_bmp (sample_header 24 0 45 45).img_data_offset)).1
        (2330169 / 524288) 200 1 40 = some 255 ∧
    sampled_grey striped_bmp (sample_header 24 0 45 45) 44 8 = 0 ∧
    x_new (2330169 / 524288) 120 = some 26 ∧
    ⌊(120 : ℚ) / exact_scale 45 45⌋ = 27 ∧
    pixel_grey (sample_header 24 0 45 45)
        (fread (fun _ => 0) 0 (img_data_bytes_with_padding (sample_header 24 0 45 45))
          (fseek striped_bmp (sample_header 24 0 45 45).img_data_offset)).1
        (2330169 / 524288) 200 1 120 = some 0 ∧
    sampled_grey striped_bmp (sample_header 24 0 45 45) 44 27 = 255 := by
  have hbuf := striped_bmp_holds_array
  have hy : y_new (sample_header 24 0 45 45) (2330169 / 524288) 200 1 = some 44 := by decide!
  have hx40 : x_new (2330169 / 524288) 40 = some 9 := by decide!
  have hx120 : x_new (2330169 / 524288) 120 = some 26 := by decide!
  have hs := fun j x (hx : x_new (2330169 / 524288) j = some x)
      (hxw : (x : ℤ) < (sample_header 24 0 45 45).img_width) =>
    pixel_grey_sampled (fun _ => 0) striped_bmp (sample_header 24 0 45 45) (by decide)
      (by decide) (by decide) (by decide) (by decide) hbuf (2330169 / 524288) 200 1 j x 44 hx hy
      hxw (by decide)
  have h9 : sampled_grey striped_bmp (sample_header 24 0 45 45) 44 9 = 255 := by decide!
  have h26 : sampled_grey striped_bmp (sample_header 24 0 45 45) 44 26 = 0 := by decide!
  refine ⟨by decide!, by decide!, by decide!, hy, ?_, ?_, hx40, ?_, ?_, by decide!, hx120, ?_,
    ?_, by decide!⟩
  · unfold y_src_floor
    rw [Int.floor_eq_iff]
    constructor <;> norm_num
  · rw [Int.floor_eq_iff]
    constructor <;> norm_num [exact_scale]
  · unfold x_src_floor
    rw [Int.floor_eq_iff]
    constructor <;> norm_num
  · rw [hs 40 9 hx40 (by decide), h9]
  · rw [Int.floor_eq_iff]
    constructor <;> norm_num [exact_scale]
  · rw [hs 120 26 hx120 (by decide), h26]

/-- The amended C15 on the 45x45 striped image. -/
theorem glyph_argument_source_witness :
    ∃ (best : ℚ) (nw nh : ℕ),
      best_scaling_ratio (sample_header 24 0 45 45) = some best ∧
      img_new_width (sample_header 24 0 45 45) = some nw ∧
      img_new_height (sample_header 24 0 45 45) = some nh ∧
      ∀ k j, k < nh / 2 → j < nw → ∃ (x y : ℕ),
        x_new best j = some x ∧
        (x : ℤ) = ⌊round_to 24 (-149) ((j : ℚ) / best)⌋ ∧
        x_src_floor best j ≤ x ∧ (x : ℤ) ≤ x_src_floor best j + 1 ∧
        y_new (sample_header 24 0 45 45) best nh (2 * k + 1) = some y ∧
        (y : ℤ) = ⌊round_to 24 (-149)
          ((((nh : ℤ) - ((2 * k + 1 : ℕ) : ℤ) - 1 : ℤ) : ℚ) / best)⌋ ∧
        y_src_floor best nh (2 * k + 1) ≤ y ∧ (y : ℤ) ≤ y_src_floor best nh (2 * k + 1) + 1 ∧
        pixel_grey (sample_header 24 0 45 45)
            (fread (fun _ => 0) 0 (img_data_bytes_with_padding (sample_header 24 0 45 45))
              (fseek striped_bmp (sample_header 24 0 45 45).img_data_offset)).1
            best nh (2 * k + 1) j
          = some (sampled_grey striped_bmp (sample_header 24 0 45 45) y x) ∧
        ∀ glyph : ℕ → Option Char,
          pixel_char glyph (sample_header 24 0 45 45)
              (fread (fun _ => 0) 0 (img_data_bytes_with_padding (sample_header 24 0 45 45))
                (fseek striped_bmp (sample_header 24 0 45 45).img_data_offset)).1
              best nh (2 * k + 1) j
            = glyph (sampled_grey striped_bmp (sample_header 24 0 45 45) y x) :=
  glyph_argument_source (fun _ => 0) striped_bmp (sample_header 24 0 45 45) (by decide)
    (by decide) (by decide) (by decide) (by decide) (by decide) striped_bmp_holds_array

/-- C11 fails on the code: take any header of width in `(0, 2000]` and set its
height to -100 (top-down) or to +100 (bottom-up), with any file and any block
content.  For the top-down header the height ratio `200 / (float)(-100)` is -2
and is taken as the scaling ratio, the product `width * -2` has no `uint16_t`
value, and the renderer has no defined output, whatever the calls of the glyph
function deliver; for the bottom-up header the renderer, with the
`return out_char;` that `get_char_for_greyscale` lacks supplied, writes
`new_height / 2` lines, at least four of them. -/
theorem top_down_not_rendered (alloc_ok : Bool) (mem : block) (p_bmp : FILE)
    (p_header : bmp_header_t) (hw0 : 0 < p_header.img_width)
    (hw : p_header.img_width ≤ 2000) :
    best_scaling_ratio { p_header with img_height := -100 } = some (-2) ∧
    img_new_width { p_header with img_height := -100 } = none ∧
    image_to_ascii alloc_ok mem p_bmp { p_header with img_height := -100 } = none ∧
    (∀ glyph : ℕ → Option Char,
      image_to_ascii_with glyph alloc_ok mem p_bmp { p_header with img_height := -100 }
        = none) ∧
    ∃ (nh : ℕ) (lines : List (List Char)),
      img_new_height { p_header with img_height := 100 } = some nh ∧
      image_to_ascii_with out_char true mem p_bmp { p_header with img_height := 100 }
        = some lines ∧
      lines.length = nh / 2 ∧ 4 ≤ lines.length := by
  have hw24 : p_header.img_width < 2 ^ 24 := lt_of_le_of_lt hw (by norm_num)
  obtain ⟨ew, erw, hlo, -⟩ := ratio_of_pos p_header.img_width hw0 hw24
  have hwq : (0 : ℚ) < p_header.img_width := by exact_mod_cast hw0
  have hwq2 : (p_header.img_width : ℚ) ≤ 2000 := by exact_mod_cast hw
  have hrpos : 0 < round_to 24 (-149) (200 / (p_header.img_width : ℚ)) :=
    lt_of_lt_of_le (mul_pos (div_pos (by norm_num) hwq) (by norm_num)) hlo
  have e200 : f32 ((200 : ℤ) : ℚ) = some 200 := by
    have := f32_intCast 200 (by norm_num)
    simpa using this
  have eh : f32 ((-100 : ℤ) : ℚ) = some (-100) := by
    have := f32_intCast (-100) (by norm_num)
    simpa using this
  have edh : f32_div 200 (-100) = some (-2) := by
    have h2 := f32_intCast (-2) (by norm_num)
    have e : (200 : ℚ) / (-100) = ((-2 : ℤ) : ℚ) := by norm_num
    rw [f32_div, if_neg (by norm_num), e, h2]
    norm_num
  have hbest : best_scaling_ratio { p_header with img_height := -100 } = some (-2) := by
    simp only [best_scaling_ratio, NEW_MAX_WIDTH, NEW_MAX_HEIGHT, e200, ew, eh, erw, edh,
      Option.bind_eq_bind, Option.some_bind, Option.pure_def]
    rw [if_neg (not_lt.mpr (le_trans (by norm_num) hrpos.le))]
  have hprod : f32_mul (p_header.img_width : ℚ) (-2)
      = some (((-2 * p_header.img_width : ℤ)) : ℚ) := by
    have h2 := f32_intCast (-2 * p_header.img_width) (by
      rw [abs_lt]; constructor <;> omega)
    rw [f32_mul, ← h2]
    congr 1
    push_cast
    ring
  have hun : to_unsigned 16 (((-2 * p_header.img_width : ℤ)) : ℚ) = none := by
    have hneg : ¬ (0 : ℚ) ≤ ((-2 * p_header.img_width : ℤ) : ℚ) := by
      rw [not_le]
      have : (-2 * p_header.img_width : ℤ) < 0 := by omega
      exact_mod_cast this
    unfold to_unsigned
    rw [if_neg hneg, Int.ceil_intCast, if_neg]
    omega
  have hnw : img_new_width { p_header with img_height := -100 } = none := by
    simp only [img_new_width, hbest, ew, hprod, hun, Option.bind_eq_bind, Option.some_bind]
  have hnone : ∀ glyph : ℕ → Option Char,
      image_to_ascii_with glyph alloc_ok mem p_bmp { p_header with img_height := -100 }
        = none := by
    intro glyph
    simp only [image_to_ascii_with, hbest, hnw, Option.bind_eq_bind, Option.some_bind,
      Option.none_bind]
  refine ⟨hbest, hnw, hnone _, hnone, ?_⟩
  · obtain ⟨best, nw, nh, hb, -, hblo, -, hnw', -, -, -, -, -, hnh, -, hfl, -, -, -⟩ :=
      new_size_spec { p_header with img_height := 100 } hw0 hw24
        (show (0 : ℤ) < 100 by norm_num) (show (100 : ℤ) < 2 ^ 24 by norm_num)
    obtain ⟨g, -, hlines⟩ := bottom_up_lines mem p_bmp { p_header with img_height := 100 }
      hw0 hw (show (0 : ℤ) < 100 by norm_num) (show (100 : ℤ) ≤ 2000 by norm_num)
      best nw nh hb hnw' hnh
    have hex : (1 : ℚ) / 10 ≤ exact_scale p_header.img_width 100 := by
      unfold exact_scale
      refine le_min ?_ (by norm_num)
      rw [le_div_iff₀ hwq]
      linarith
    have hb9 : (9 : ℚ) ≤ ((100 : ℤ) : ℚ) * best := by
      have h1 : (1 : ℚ) / 10 * (1 - 1 / 2 ^ 24) ≤ best :=
        le_trans (mul_le_mul_of_nonneg_right hex (by norm_num)) hblo
      have h2 : (9 : ℚ) ≤ 100 * (1 / 10 * (1 - 1 / 2 ^ 24)) := by norm_num
      push_cast
      linarith
    have h9 : (9 : ℤ) ≤ ⌊((100 : ℤ) : ℚ) * best⌋ := by
      rw [Int.le_floor]
      exact_mod_cast hb9
    have hnh9 : 9 ≤ nh := by
      have := le_trans h9 hfl
      omega
    refine ⟨nh, _, hnh, hlines, ?_, ?_⟩
    · simp
    · simp only [List.length_map, List.length_range]
      omega

/-- The failure of C11 on the 24-bit headers of width 100 and an empty file. -/
theorem top_down_not_rendered_witness :
    best_scaling_ratio { sample_header 24 0 100 0 with img_height := -100 } = some (-2) ∧
    img_new_width { sample_header 24 0 100 0 with img_height := -100 } = none ∧
    image_to_ascii true (fun _ => 0) ⟨[], 0⟩
      { sample_header 24 0 100 0 with img_height := -100 } = none ∧
    (∀ glyph : ℕ → Option Char,
      image_to_ascii_with glyph true (fun _ => 0) ⟨[], 0⟩
        { sample_header 24 0 100 0 with img_height := -100 } = none) ∧
    ∃ (nh : ℕ) (lines : List (List Char)),
      img_new_height { sample_header 24 0 100 0 with img_height := 100 } = some nh ∧
      image_to_ascii_with out_char true (fun _ => 0) ⟨[], 0⟩
        { sample_header 24 0 100 0 with img_height := 100 } = some lines ∧
      lines.length = nh / 2 ∧ 4 ≤ lines.length :=
  top_down_not_rendered true (fun _ => 0) ⟨[], 0⟩ (sample_header 24 0 100 0) (by decide)
    (by decide)

/-- C12, what `get_char_for_greyscale` does: for every byte value `g` the index
is `g * 9 / 255`, the floor of `g / 255 * 9`, it is at most 9, and the local
`out_char` is the ramp entry at that index, `'@'` for 0 and the blank for 255;
but the function ends without returning `out_char`, so no call delivers a value
to its caller. -/
theorem get_char_for_greyscale_out_char :
    (∀ g : ℕ, g < 256 →
      lut_index g = some (g * 9 / 255) ∧
      ((g * 9 / 255 : ℕ) : ℤ) = ⌊(g : ℚ) / 255 * 9⌋ ∧
      g * 9 / 255 ≤ 9 ∧
      out_char g = ascii_ramp_lut.get? (g * 9 / 255) ∧
      (out_char g).isSome = true) ∧
    ascii_ramp_lut.length = 10 ∧
    out_char 0 = some '@' ∧
    out_char 255 = some ' ' ∧
    ∀ g : ℕ, get_char_for_greyscale g = none := by
  have hidx : ∀ g : ℕ, g < 256 →
      out_char g = ascii_ramp_lut.get? (g * 9 / 255) := by
    intro g hg
    simp only [out_char, lut_index_eq g hg, Option.bind_eq_bind, Option.some_bind]
  refine ⟨?_, rfl, ?_, ?_, get_char_for_greyscale_none⟩
  · intro g hg
    refine ⟨lut_index_eq g hg, ?_, by omega, hidx g hg, ?_⟩
    · symm
      have h1 : 255 * (g * 9 / 255) ≤ g * 9 := Nat.mul_div_le _ _
      have h2 : g * 9 < 255 * (g * 9 / 255) + 255 := by omega
      generalize g * 9 / 255 = q at h1 h2 ⊢
      have h1q : (255 : ℚ) * (q : ℚ) ≤ (g : ℚ) * 9 := by exact_mod_cast h1
      have h2q : (g : ℚ) * 9 < 255 * (q : ℚ) + 255 := by exact_mod_cast h2
      rw [Int.floor_eq_iff, Int.cast_natCast]
      constructor
      · rw [div_mul_eq_mul_div, le_div_iff₀ (by norm_num)]
        linarith
      · rw [div_mul_eq_mul_div, div_lt_iff₀ (by norm_num)]
        linarith
    · obtain ⟨c, hc, -⟩ := out_char_valid g hg
      rw [hc]
      rfl
  · rw [hidx 0 (by norm_num)]
    rfl
  · rw [hidx 255 (by norm_num)]
    rfl

/-- C16 fails on the code: for the 24-bit header of width 2000 and height
-1000000, which `validate_header` accepts, the row stride is 6000 and the size
used for the pixel array is `6000 * 1000000` reduced modulo `2 ^ 32`. -/
theorem pixel_array_size_counterexample :
    (sample_header 24 0 2000 (-1000000)).bits_per_pixel = 24 ∧
    validate_header (sample_header 24 0 2000 (-1000000)) = 0 ∧
    img_row_bytes_with_padding (sample_header 24 0 2000 (-1000000)) = 6000 ∧
    img_data_bytes_with_padding (sample_header 24 0 2000 (-1000000)) = 1705032704 ∧
    img_row_bytes_with_padding (sample_header 24 0 2000 (-1000000))
      * (sample_header 24 0 2000 (-1000000)).img_height.natAbs = 6000000000 := by
  decide

/-- C16 as amended: for every 24-bit header with `0 < width ≤ 2000` the row
stride is `((3 * width + 3) / 4) * 4`, which is `ceil(3 * width / 4) * 4`, the
smallest multiple of 4 that is at least `3 * width`; the size used for the pixel
array is `stride * |height|` whenever that product is below `2 ^ 32`, as it is
for `|height| ≤ 2000`. -/
theorem row_stride_spec (p_header : bmp_header_t) (hbpp : p_header.bits_per_pixel = 24)
    (hw0 : 0 < p_header.img_width) (hw : p_header.img_width ≤ 2000) :
    img_row_bytes_with_padding p_header = (3 * p_header.img_width.toNat + 3) / 4 * 4 ∧
    (img_row_bytes_with_padding p_header : ℤ) = ⌈(3 * p_header.img_width : ℚ) / 4⌉ * 4 ∧
    4 ∣ img_row_bytes_with_padding p_header ∧
    3 * p_header.img_width ≤ img_row_bytes_with_padding p_header ∧
    (img_row_bytes_with_padding p_header : ℤ) < 3 * p_header.img_width + 4 ∧
    (∀ m : ℕ, 4 ∣ m → 3 * p_header.img_width ≤ m → img_row_bytes_with_padding p_header ≤ m) ∧
    (img_row_bytes_with_padding p_header * p_header.img_height.natAbs < 2 ^ 32 →
      img_data_bytes_with_padding p_header
        = img_row_bytes_with_padding p_header * p_header.img_height.natAbs) ∧
    (|p_header.img_height| ≤ 2000 →
      img_row_bytes_with_padding p_header * p_header.img_height.natAbs < 2 ^ 32) := by
  obtain ⟨-, hstride⟩ := img_row_bytes_with_padding_eq p_header hbpp hw0 hw
  have hW : (p_header.img_width.toNat : ℤ) = p_header.img_width := Int.toNat_of_nonneg hw0.le
  refine ⟨hstride, ?_, ?_, ?_, ?_, ?_, img_data_bytes_with_padding_eq p_header, ?_⟩
  · have h1 : 4 * ((3 * p_header.img_width.toNat + 3) / 4) ≤ 3 * p_header.img_width.toNat + 3 :=
      Nat.mul_div_le _ _
    have h2 : 3 * p_header.img_width.toNat
        ≤ 4 * ((3 * p_header.img_width.toNat + 3) / 4) := by omega
    rw [hstride]
    generalize (3 * p_header.img_width.toNat + 3) / 4 = q at h1 h2 ⊢
    have hWq : ((p_header.img_width.toNat : ℕ) : ℚ) = (p_header.img_width : ℚ) := by
      exact_mod_cast hW
    have h1q : (4 : ℚ) * (q : ℚ) ≤ 3 * (p_header.img_width : ℚ) + 3 := by
      rw [← hWq]; exact_mod_cast h1
    have h2q : (3 : ℚ) * (p_header.img_width : ℚ) ≤ 4 * (q : ℚ) := by
      rw [← hWq]; exact_mod_cast h2
    have hc : ⌈(3 * p_header.img_width : ℚ) / 4⌉ = (q : ℤ) := by
      rw [Int.ceil_eq_iff, Int.cast_natCast]
      constructor
      · rw [lt_div_iff₀ (by norm_num)]
        linarith
      · rw [div_le_iff₀ (by norm_num)]
        linarith
    rw [hc]
    push_cast
    rfl
  · rw [hstride]
    exact Dvd.intro_left _ rfl
  · omega
  · omega
  · intro m hm h3
    obtain ⟨q, rfl⟩ := hm
    omega
  · intro hh
    have hH : p_header.img_height.natAbs ≤ 2000 := by
      rw [Int.abs_eq_natAbs] at hh
      omega
    have hs : img_row_bytes_with_padding p_header ≤ 6003 := by omega
    exact lt_of_le_of_lt (Nat.mul_le_mul hs hH) (by norm_num)

/-- The amended C16 on a 45x45 header. -/
theorem row_stride_spec_witness :
    img_row_bytes_with_padding (sample_header 24 0 45 45)
      = (3 * (sample_header 24 0 45 45).img_width.toNat + 3) / 4 * 4 ∧
    (img_row_bytes_with_padding (sample_header 24 0 45 45) : ℤ)
      = ⌈(3 * (sample_header 24 0 45 45).img_width : ℚ) / 4⌉ * 4 ∧
    4 ∣ img_row_bytes_with_padding (sample_header 24 0 45 45) ∧
    3 * (sample_header 24 0 45 45).img_width
      ≤ img_row_bytes_with_padding (sample_header 24 0 45 45) ∧
    (img_row_bytes_with_padding (sample_header 24 0 45 45) : ℤ)
      < 3 * (sample_header 24 0 45 45).img_width + 4 ∧
    (∀ m : ℕ, 4 ∣ m → 3 * (sample_header 24 0 45 45).img_width ≤ m →
      img_row_bytes_with_padding (sample_header 24 0 45 45) ≤ m) ∧
    (img_row_bytes_with_padding (sample_header 24 0 45 45)
        * (sample_header 24 0 45 45).img_height.natAbs < 2 ^ 32 →
      img_data_bytes_with_padding (sample_header 24 0 45 45)
        = img_row_bytes_with_padding (sample_header 24 0 45 45)
          * (sample_header 24 0 45 45).img_height.natAbs) ∧
    (|(sample_header 24 0 45 45).img_height| ≤ 2000 →
      img_row_bytes_with_padding (sample_header 24 0 45 45)
        * (sample_header 24 0 45 45).img_height.natAbs < 2 ^ 32) :=
  row_stride_spec (sample_header 24 0 45 45) (by decide) (by decide) (by decide)

/-- C19: the ramp index is monotone in the greyscale value: for byte values
`g1 ≤ g2` the indices `i1`, `i2` chosen for them satisfy `i1 ≤ i2`, so the glyph
of the brighter value never stands earlier in the ramp, whose ten entries are
distinct. -/
theorem lut_index_monotone (g1 g2 : ℕ) (h12 : g1 ≤ g2) (h2 : g2 < 256) :
    ∃ i1 i2 : ℕ, lut_index g1 = some i1 ∧ lut_index g2 = some i2 ∧ i1 ≤ i2 ∧ i2 ≤ 9 ∧
      out_char g1 = ascii_ramp_lut.get? i1 ∧
      out_char g2 = ascii_ramp_lut.get? i2 ∧
      ascii_ramp_lut.Nodup := by
  have h1 : g1 < 256 := lt_of_le_of_lt h12 h2
  refine ⟨g1 * 9 / 255, g2 * 9 / 255, lut_index_eq g1 h1, lut_index_eq g2 h2,
    Nat.div_le_div_right (Nat.mul_le_mul_right 9 h12), by omega, ?_, ?_, by decide⟩
  · simp only [out_char, lut_index_eq g1 h1, Option.bind_eq_bind, Option.some_bind]
  · simp only [out_char, lut_index_eq g2 h2, Option.bind_eq_bind, Option.some_bind]

/-- C19 on the byte values 85 and 170. -/
theorem lut_index_monotone_witness :
    ∃ i1 i2 : ℕ, lut_index 85 = some i1 ∧ lut_index 170 = some i2 ∧ i1 ≤ i2 ∧ i2 ≤ 9 ∧
      out_char 85 = ascii_ramp_lut.get? i1 ∧
      out_char 170 = ascii_ramp_lut.get? i2 ∧
      ascii_ramp_lut.Nodup :=
  lut_index_monotone 85 170 (by decide) (by decide)

/-! ## Rendering: claims that meet the missing `return` -/

/-- C9 fails on the code.  For every 24-bit uncompressed header with width and
height in `(0, 2000]`, a file that holds the whole pixel array and a new grid
that is not empty, `image_to_ascii` has no defined output: line 258 uses the
value of `get_char_for_greyscale`, which returns none.  With the
`return out_char;` supplied, the renderer writes the `new_height / 2` lines of
the claim, each of `new_width` ramp characters and a newline. -/
theorem image_to_ascii_no_output (mem : block) (p_bmp : FILE) (p_header : bmp_header_t)
    (hbpp : p_header.bits_per_pixel = 24) (hcomp : p_header.compression_type = 0)
    (hw0 : 0 < p_header.img_width) (hw : p_header.img_width ≤ 2000)
    (hh0 : 0 < p_header.img_height) (hh : p_header.img_height ≤ 2000)
    (hbuf : p_header.img_data_offset + img_data_bytes_with_padding p_header
      ≤ p_bmp.data.length)
    (new_width new_height : ℕ) (hnw : img_new_width p_header = some new_width)
    (hnh : img_new_height p_header = some new_height)
    (h1 : 0 < new_width) (h2 : 0 < new_height) :
    image_to_ascii true mem p_bmp p_header = none ∧
    ∃ lines, image_to_ascii_with out_char true mem p_bmp p_header = some lines ∧
      lines.length = new_height / 2 ∧
      ∀ line ∈ lines, ∃ glyphs, line = glyphs ++ [Char.ofNat 10] ∧
        glyphs.length = new_width ∧ ∀ c ∈ glyphs, c ∈ ascii_ramp_lut := by
  obtain ⟨best, nw, nh, lines, -, hnw', hnh', hlines, hlen, -, hall⟩ :=
    rendered_lines mem p_bmp p_header hbpp hcomp hw0 hw hh0 hh hbuf
  obtain rfl : nw = new_width := Option.some.inj (hnw'.symm.trans hnw)
  obtain rfl : nh = new_height := Option.some.inj (hnh'.symm.trans hnh)
  exact ⟨image_to_ascii_undefined mem p_bmp p_header nw nh hnw hnh h1 h2, lines, hlines, hlen,
    hall⟩

set_option maxRecDepth 100000 in
/-- The failure of C9 on the all-black 4x4 sample image, whose new grid is
200x200. -/
theorem image_to_ascii_no_output_witness :
    image_to_ascii true (fun _ => 7) (sample_bmp 54 0 0 0 0 0) (sample_parsed 0) = none ∧
    ∃ lines, image_to_ascii_with out_char true (fun _ => 7) (sample_bmp 54 0 0 0 0 0)
        (sample_parsed 0) = some lines ∧
      lines.length = 200 / 2 ∧
      ∀ line ∈ lines, ∃ glyphs, line = glyphs ++ [Char.ofNat 10] ∧
        glyphs.length = 200 ∧ ∀ c ∈ glyphs, c ∈ ascii_ramp_lut :=
  image_to_ascii_no_output (fun _ => 7) (sample_bmp 54 0 0 0 0 0) (sample_parsed 0)
    (by decide) (by decide) (by decide) (by decide) (by decide) (by decide) (by decide)
    200 200 (by decide!) (by decide!) (by decide) (by decide)

/-- C10 fails on the code.  For a 4x4, 24-bit, uncompressed, bottom-up BMP whose
48 pixel bytes are all 255 the scaling ratio is 50 and the new size 200x200, as
the claim says, but `image_to_ascii` has no defined output: every glyph is the
value of a call of `get_char_for_greyscale`, which returns none.  The body of
that function computes the blank for 255, and with the `return out_char;`
supplied the renderer writes the 100 lines of 200 blanks of the claim. -/
theorem white_4x4_no_output (mem : block) (p_bmp : FILE) (p_header : bmp_header_t)
    (hw : p_header.img_width = 4) (hh : p_header.img_height = 4)
    (hbpp : p_header.bits_per_pixel = 24) (hcomp : p_header.compression_type = 0)
    (hpix : ∀ k, k < 48 → p_bmp.data.get? (p_header.img_data_offset + k) = some 255) :
    best_scaling_ratio p_header = some 50 ∧
    img_new_width p_header = some 200 ∧
    img_new_height p_header = some 200 ∧
    image_to_ascii true mem p_bmp p_header = none ∧
    out_char 255 = some ' ' ∧
    ascii_ramp_lut.getLast? = some ' ' ∧
    image_to_ascii_with out_char true mem p_bmp p_header
      = some (List.replicate 100 (List.replicate 200 ' ' ++ [Char.ofNat 10])) := by
  obtain ⟨hbest, hnw, hnh, hlines, hlast⟩ :=
    rendered_white_4x4 mem p_bmp p_header hw hh hbpp hcomp hpix
  exact ⟨hbest, hnw, hnh,
    image_to_ascii_undefined mem p_bmp p_header 200 200 hnw hnh (by norm_num) (by norm_num),
    out_char_255, hlast, hlines⟩

set_option maxRecDepth 100000 in
/-- The failure of C10 on the sample BMP: pixel data at offset 54, 48 pixel
bytes of value 255. -/
theorem white_4x4_no_output_witness :
    best_scaling_ratio (sample_parsed 255) = some 50 ∧
    img_new_width (sample_parsed 255) = some 200 ∧
    img_new_height (sample_parsed 255) = some 200 ∧
    image_to_ascii true (fun _ => 7) (sample_bmp 54 0 0 0 0 255) (sample_parsed 255) = none ∧
    out_char 255 = some ' ' ∧
    ascii_ramp_lut.getLast? = some ' ' ∧
    image_to_ascii_with out_char true (fun _ => 7) (sample_bmp 54 0 0 0 0 255) (sample_parsed 255)
      = some (List.replicate 100 (List.replicate 200 ' ' ++ [Char.ofNat 10])) :=
  white_4x4_no_output (fun _ => 7) (sample_bmp 54 0 0 0 0 255) (sample_parsed 255)
    (by decide) (by decide) (by decide) (by decide) (by decide)

end AsciiArtGen
